import Mathlib

/-! Ordering of SRV records (`v3/srv.go`)

A shallow embedding of `OrderedSRV`, `OrderSRV` and `weightedOrder`.

Modelling conventions.

* A record `*net.SRV` is a value of `SRV`; the pointers of the source are taken to be
  non-nil (the lookup returns no nil entries). `Priority` and `Weight` are `uint16` in
  the source; `int(x)` is then a non-negative integer, modelled by a natural number
  (cast to `Int` where the source subtracts). The sum of the weights is assumed not to
  overflow the machine `int`.
* The process-wide random source `rand.Intn` is an explicit parameter `r : Rand`:
  `r k n` is the value returned by the call number `k` (counted from `0`) when it is
  called with bound `n`. The state of the source is the list of the bounds it has been
  asked so far (the draw log); its length is the number of draws consumed.
* `rand.Intn n` panics when `n ≤ 0`, an index out of range panics: both are the
  result `Outcome.panic`.
* The rejection loop of `weightedOrder` has no iteration cap; it is run with a fuel
  that bounds the number of iterations, `Outcome.outOfFuel` meaning that the bound was
  reached before the loop ended.
-/

namespace Dnsutils

/-- The record `net.SRV`. -/
structure SRV where
  Target : String
  Port : Nat
  Priority : Nat
  Weight : Nat
deriving DecidableEq, Repr

/-- Result of running a piece of the program: a value, a run-time panic, or
the iteration bound reached. -/
inductive Outcome (α : Type) where
  | done (a : α) : Outcome α
  | panic : Outcome α
  | outOfFuel : Outcome α
deriving DecidableEq, Repr

/-- Sequencing of two computations. -/
def Outcome.bind {α β : Type} (x : Outcome α) (f : α → Outcome β) : Outcome β :=
  match x with
  | .done a => f a
  | .panic => .panic
  | .outOfFuel => .outOfFuel

/-- A random source: `r k n` is what call number `k` of `rand.Intn` returns for bound `n`. -/
abbrev Rand := Nat → Int → Int

/-- Every draw `Intn(n)` with `0 < n` lies in `[0, n)`. -/
def InRange (r : Rand) : Prop := ∀ k n, 0 < n → 0 ≤ r k n ∧ r k n < n

/-- The call `rand.Intn(n)`: panics for `n ≤ 0`, otherwise returns the next draw and
records the bound in the draw log. -/
def Intn (r : Rand) (log : List Int) (n : Int) : Outcome (Int × List Int) :=
  if n ≤ 0 then .panic else .done (r log.length n, log ++ [n])

/-- The index expression `srvs[i]`: panics when `i` is out of range. -/
def index (srvs : List SRV) (i : Int) : Outcome SRV :=
  if 0 ≤ i then
    match srvs.get? i.toNat with
    | some s => .done s
    | none => .panic
  else .panic

/-- The variables of the loop of `weightedOrder`, and the draw log. -/
structure LoopState where
  srvs : List SRV
  osrv : List SRV
  l : Int
  tw : Int
  log : List Int
deriving DecidableEq, Repr

/-- The assignment `srvs[len(srvs)-1], srvs[i] = srvs[i], srvs[len(srvs)-1]` followed
by `srvs = srvs[:len(srvs)-1]`, where `s` is `srvs[i]` and `last` is `srvs[len(srvs)-1]`. -/
def swapTruncate (srvs : List SRV) (i : Nat) (s last : SRV) : List SRV :=
  ((srvs.set (srvs.length - 1) s).set i last).take (srvs.length - 1)

/-- The threshold `rw` of one iteration: `rand.Intn(tw) - int(s.Weight)` when `tw > 0`,
the zero value otherwise. -/
def threshold (r : Rand) (log : List Int) (tw : Int) (s : SRV) : Outcome (Int × List Int) :=
  if tw > 0 then
    (Intn r log tw).bind fun (t, log2) => .done (t - (s.Weight : Int), log2)
  else .done (0, log)

/-- The accepting branch `if rw <= 0 { ... }` of the loop body. -/
def accept (st : LoopState) (i : Int) (s : SRV) (log : List Int) : Outcome LoopState :=
  if st.srvs.length > 1 then
    (index st.srvs ((st.srvs.length : Int) - 1)).bind fun last =>
      let srvs := swapTruncate st.srvs i.toNat s last
      .done { srvs := srvs, osrv := st.osrv ++ [s], l := srvs.length,
              tw := st.tw - (s.Weight : Int), log := log }
  else
    .done { srvs := st.srvs, osrv := st.osrv ++ [s], l := 0,
            tw := st.tw - (s.Weight : Int), log := log }

/-- One iteration of `for l > 0 { ... }` in `weightedOrder` (the body, entered with `l > 0`). -/
def loopBody (r : Rand) (st : LoopState) : Outcome LoopState :=
  (Intn r st.log st.l).bind fun (i, log1) =>
    (index st.srvs i).bind fun s =>
      (threshold r log1 st.tw s).bind fun (rw, log2) =>
        if rw ≤ 0 then accept st i s log2
        else .done { st with log := log2 }

/-- The loop `for l > 0 { ... }` of `weightedOrder`, run for at most `fuel` iterations. -/
def loop (r : Rand) : Nat → LoopState → Outcome LoopState
  | 0, st => if st.l > 0 then .outOfFuel else .done st
  | fuel + 1, st => if st.l > 0 then (loopBody r st).bind (loop r fuel) else .done st

/-- The total weight `tw` computed by `for _, s := range srvs { tw += int(s.Weight) }`. -/
def totalWeight (srvs : List SRV) : Int :=
  srvs.foldl (fun tw s => tw + (s.Weight : Int)) 0

/-- The state in which `weightedOrder` enters its loop. -/
def initState (srvs : List SRV) (log : List Int) : LoopState :=
  { srvs := srvs, osrv := [], l := srvs.length, tw := totalWeight srvs, log := log }

/-- The function `weightedOrder`: returns the ordered records and the draw log. -/
def weightedOrder (fuel : Nat) (r : Rand) (log : List Int) (srvs : List SRV) :
    Outcome (List SRV × List Int) :=
  if srvs.length < 2 then .done (srvs, log)
  else (loop r fuel (initState srvs log)).bind fun st => .done (st.osrv, st.log)

/-- The map `prioMap` of `OrderSRV`, as an association list from priority to bucket. -/
abbrev PrioMap := List (Nat × List SRV)

/-- The lookup `prioMap[p]`; a missing key gives the nil slice. -/
def PrioMap.get (m : PrioMap) (p : Nat) : List SRV :=
  match m with
  | [] => []
  | (q, v) :: rest => if q = p then v else PrioMap.get rest p

/-- The assignment `prioMap[p] = v`. -/
def PrioMap.set (m : PrioMap) (p : Nat) (v : List SRV) : PrioMap :=
  match m with
  | [] => [(p, v)]
  | (q, w) :: rest => if q = p then (q, v) :: rest else (q, w) :: PrioMap.set rest p v

/-- The keys of the map, in one of the orders `for p := range prioMap` may visit them. -/
def PrioMap.keys (m : PrioMap) : List Nat := m.map Prod.fst

/-- The statement `prioMap[int(srv.Priority)] = append(prioMap[int(srv.Priority)], srv)`. -/
def addToMap (m : PrioMap) (srv : SRV) : PrioMap :=
  m.set srv.Priority (m.get srv.Priority ++ [srv])

/-- The loop `for _, srv := range addrs { ... }` that fills the map. -/
def buildPrioMap (addrs : List SRV) : PrioMap :=
  addrs.foldl addToMap []

/-- The inner loop `for _, s := range tos { count++; osrv = append(osrv, s) }`. -/
def appendAll (tos : List SRV) (count : Int) (osrv : List SRV) : Int × List SRV :=
  tos.foldl (fun acc s => (acc.1 + 1, acc.2 ++ [s])) (count, osrv)

/-- The loop `for _, p := range priorities { ... }` of `OrderSRV`. -/
def groupsLoop (fuel : Nat) (r : Rand) (prioMap : PrioMap) :
    List Nat → Int → List SRV → List Int → Outcome (Int × List SRV × List Int)
  | [], count, osrv, log => .done (count, osrv, log)
  | p :: ps, count, osrv, log =>
    (weightedOrder fuel r log (prioMap.get p)).bind fun (tos, log1) =>
      groupsLoop fuel r prioMap ps (appendAll tos count osrv).1 (appendAll tos count osrv).2 log1

/-- The function `OrderSRV`: returns the count, the ordered records and the draw log.
`sort.Ints` is modelled by insertion sort (the keys of a map are distinct, so every
sorting algorithm gives the same list, whatever the order the map was iterated in). -/
def OrderSRV (fuel : Nat) (r : Rand) (log : List Int) (addrs : List SRV) :
    Outcome (Int × List SRV × List Int) :=
  if addrs.length < 2 then .done (addrs.length, addrs, log)
  else
    let prioMap := buildPrioMap addrs
    let priorities := (prioMap.keys).insertionSort (· ≤ ·)
    groupsLoop fuel r prioMap priorities 0 [] log

/-- The result `(cname, addrs, err)` of `net.LookupSRV`, the error type a parameter;
`err = none` is the nil error. -/
structure LookupResult (ε : Type) where
  cname : String
  addrs : List SRV
  err : Option ε

/-- The function `OrderedSRV`, the lookup `net.LookupSRV(service, proto, name)` a
parameter. Returns the count, the records (the nil slice is the empty list), the error
and the draw log. -/
def OrderedSRV {ε : Type} (lookup : String → String → String → LookupResult ε)
    (fuel : Nat) (r : Rand) (log : List Int) (service proto name : String) :
    Outcome (Int × List SRV × Option ε × List Int) :=
  match (lookup service proto name).err with
  | some e => .done (0, [], some e, log)
  | none =>
    (OrderSRV fuel r log (lookup service proto name).addrs).bind fun (index, osrv, log1) =>
      .done (index, osrv, none, log1)

/-- The source all of whose draws are `0`. -/
def zeroRand : Rand := fun _ _ => 0

/-- The source that reads its draws from the list `ds` (reduced into the range asked). -/
def listRand (ds : List Nat) : Rand := fun k n => ((ds.getD k 0 : Nat) : Int) % n

/-- The record `a` of the end-to-end example: priority `10`, weight `0`. -/
def recA : SRV := { Target := "a", Port := 1, Priority := 10, Weight := 0 }

/-- The record `b` of the end-to-end example: priority `0`, weight `5`. -/
def recB : SRV := { Target := "b", Port := 2, Priority := 0, Weight := 5 }

/-- The record `c` of the end-to-end example: priority `0`, weight `5`. -/
def recC : SRV := { Target := "c", Port := 3, Priority := 0, Weight := 5 }

/-- The record `d` of the end-to-end example: priority `20`, weight `1`. -/
def recD : SRV := { Target := "d", Port := 4, Priority := 20, Weight := 1 }

/-! ## Notions used to state the properties -/

/-- While the loop runs, `l` is the length of the slice `srvs`. -/
def LoopInv (st : LoopState) : Prop := 0 < st.l → st.l = st.srvs.length

/-- The records still to be ordered: the slice `srvs` while `l > 0`, none once `l = 0`. -/
def pool (st : LoopState) : List SRV := if 0 < st.l then st.srvs else []

/-- The sorted list `priorities` of `OrderSRV`. -/
def sortedKeys (addrs : List SRV) : List Nat :=
  ((buildPrioMap addrs).keys).insertionSort (· ≤ ·)

/-- The input of the end-to-end example: priorities and weights `(10, 0)`, `(0, 5)`,
`(0, 5)`, `(20, 1)`, targets and ports arbitrary. -/
def exampleInput (ta tb tc td : String) (pa pb pc pd : Nat) : List SRV :=
  [⟨ta, pa, 10, 0⟩, ⟨tb, pb, 0, 5⟩, ⟨tc, pc, 0, 5⟩, ⟨td, pd, 20, 1⟩]

/-- A lookup that fails with the error `e`. -/
def failingLookup (e : String) : String → String → String → LookupResult String :=
  fun _ _ _ => { cname := "", addrs := [], err := some e }

/-- A lookup that succeeds with the records `addrs`. -/
def constLookup (addrs : List SRV) : String → String → String → LookupResult String :=
  fun _ _ name => { cname := name, addrs := addrs, err := none }

/-- The source whose first draw is `i` and whose later draws are `t`. -/
def pairRand (i t : Nat) : Rand := fun k _ => if k = 0 then (i : Int) else (t : Int)

/-- A group with the weights `[10, 1, 1]`. -/
def heavy : SRV := { Target := "heavy", Port := 1, Priority := 0, Weight := 10 }

/-- The first record of weight `1` of the group. -/
def light1 : SRV := { Target := "light1", Port := 2, Priority := 0, Weight := 1 }

/-- The second record of weight `1` of the group. -/
def light2 : SRV := { Target := "light2", Port := 3, Priority := 0, Weight := 1 }

/-- The group `[heavy, light1, light2]`. -/
def weightedGroup : List SRV := [heavy, light1, light2]

/-- The (index, threshold) pairs the first iteration on the group `g` can draw. -/
def drawPairs (g : List SRV) : List (Nat × Nat) :=
  (List.range g.length).product (List.range (totalWeight g).toNat)

/-- The record that the first iteration on `g` places when it draws the index `i` and
the threshold `t`; `none` when the candidate is rejected. -/
def firstPlaced (g : List SRV) (i t : Nat) : Option SRV :=
  match loopBody (pairRand i t) (initState g []) with
  | .done st => st.osrv.head?
  | .panic => none
  | .outOfFuel => none

/-- The number of draw pairs of the first iteration on `g` that place the record `s`. -/
def placings (g : List SRV) (s : SRV) : Nat :=
  ((drawPairs g).filter fun p => firstPlaced g p.1 p.2 = some s).length

/-- A source with draws in range that makes the loop reject for ever: the draws of
even number (the index draws of a run of rejections) are `0`, those of odd number (the
threshold draws) are the largest value allowed, `n - 1`. -/
def stuckRand : Rand := fun k n => if k % 2 = 0 then 0 else n - 1

/-- One priority group, a record of weight `0` followed by a record of weight `5`. -/
def stuckInput : List SRV :=
  [{ Target := "x", Port := 1, Priority := 0, Weight := 0 },
   { Target := "y", Port := 2, Priority := 0, Weight := 5 }]

/-- A source that cannot reject for ever: of any `B` calls numbered `k + 1`, `k + 3`,
..., `k + 2 * B - 1` (the threshold draws of `B` successive iterations of which none
accepts) one returns `0`. -/
def EventuallyZero (r : Rand) (B : Nat) : Prop :=
  ∀ (k : Nat) (n : Int), 0 < n → ∃ j, j < B ∧ r (k + 2 * j + 1) n = 0

/-- The state of the loop at the start of the iteration number `n` (counted from `0`), or
the final state when the loop has ended before. -/
def stateAfter (r : Rand) : Nat → LoopState → Outcome LoopState
  | 0, st => .done st
  | n + 1, st => if st.l > 0 then (loopBody r st).bind (stateAfter r n) else .done st

/-- The variable `tw` is the sum of the weights of the records still in the pool. -/
def TwInv (st : LoopState) : Prop := st.tw = totalWeight (pool st)

/-- The bounds `[n, n - 1, ..., 1]`. -/
def countdown : Nat → List Int
  | 0 => []
  | n + 1 => ((n + 1 : Nat) : Int) :: countdown n

/-- The draw sequences of a run on `n` records of weight `0`: the draw number `j` lies
below its bound `n - j`. -/
def ValidDraws : Nat → List Nat → Prop
  | 0, ds => ds = []
  | _ + 1, [] => False
  | n + 1, d :: ds => d < n + 1 ∧ ValidDraws n ds

/-- The list of all the draw sequences of a run on `n` records of weight `0`. -/
def allDraws : Nat → List (List Nat)
  | 0 => [[]]
  | n + 1 => ((List.range (n + 1)).product (allDraws n)).map fun p => p.1 :: p.2

/-- The draws that the source `r` returns to the calls number `k`, `k + 1`, ... with the
bounds `m`, `m - 1`, ..., `1`. -/
def drawsOf (r : Rand) : Nat → Nat → List Nat
  | _, 0 => []
  | k, m + 1 => (r k ((m + 1 : Nat) : Int)).toNat :: drawsOf r (k + 1) m

/-- The order in which the index draws `ds` empty the pool `srvs` when every candidate
is accepted: the record at the index drawn is placed, and removed from the pool by the
swap with the last entry. -/
def pickAll : List Nat → List SRV → List SRV
  | [], _ => []
  | d :: ds, srvs =>
    match srvs.get? d, srvs.get? (srvs.length - 1) with
    | some s, some last => s :: pickAll ds (swapTruncate srvs d s last)
    | _, _ => []

/-- A group of five distinct records of weight `0`. -/
def fiveZero : List SRV :=
  [{ Target := "s1", Port := 1, Priority := 0, Weight := 0 },
   { Target := "s2", Port := 2, Priority := 0, Weight := 0 },
   { Target := "s3", Port := 3, Priority := 0, Weight := 0 },
   { Target := "s4", Port := 4, Priority := 0, Weight := 0 },
   { Target := "s5", Port := 5, Priority := 0, Weight := 0 }]

/-- The source all of whose draws are `t`. -/
def constRand (t : Nat) : Rand := fun _ _ => (t : Int)

/-- A record of weight `w`. -/
def ofWeight (w : Nat) : SRV := { Target := "", Port := 0, Priority := 0, Weight := w }

/-- Whether the acceptance test `rw <= 0` of the loop passes for the candidate `s` when
the total weight is `T` and the threshold draw `rand.Intn(T)` is `t`. -/
def acceptsAt (T t : Nat) (s : SRV) : Bool :=
  match threshold (constRand t) [] (T : Int) s with
  | .done (rw, _) => decide (rw ≤ 0)
  | .panic => false
  | .outOfFuel => false

/-- The number of threshold values in `[0, T)` for which the candidate `s` is accepted. -/
def acceptCount (T : Nat) (s : SRV) : Nat :=
  ((List.range T).filter fun t => acceptsAt T t s).length

/-! ## Slices as views of backing arrays

A second embedding of `OrderSRV` and `weightedOrder`, in which the slices of the source
are views of backing arrays kept in a heap, so that every write to an array is explicit.
A cell of an array holds a pointer `*net.SRV`, `none` being the nil pointer. Every slice
of the program starts at the first cell of its array, so a slice is given by its array
and its length; the capacity is the length of the array. When `append` has to allocate,
the capacity of the new array is chosen by a parameter `grow`. -/

/-- The cells of a backing array. -/
abbrev Cells := List (Option SRV)

/-- The backing arrays allocated so far, by address. -/
abbrev Heap := List Cells

/-- A slice `[]*net.SRV`: its backing array (`none` for the nil slice) and its length. -/
structure Slice where
  arr : Option Nat
  len : Nat
deriving DecidableEq, Repr

/-- The nil slice. -/
def nilSlice : Slice := { arr := none, len := 0 }

/-- The cells of the backing array of a slice. -/
def cellsOf (h : Heap) (sl : Slice) : Cells :=
  match sl.arr with
  | some a => h.getD a []
  | none => []

/-- The elements of a slice. -/
def viewOf (h : Heap) (sl : Slice) : Cells := (cellsOf h sl).take sl.len

/-- The read `sl[i]`: panics when `i` is out of range. -/
def readAt (h : Heap) (sl : Slice) (i : Int) : Outcome (Option SRV) :=
  if 0 ≤ i ∧ i < (sl.len : Int) then
    match (cellsOf h sl).get? i.toNat with
    | some c => .done c
    | none => .panic
  else .panic

/-- The write `sl[i] = c`: panics when `i` is out of range. -/
def writeAt (h : Heap) (sl : Slice) (i : Int) (c : Option SRV) : Outcome Heap :=
  if 0 ≤ i ∧ i < (sl.len : Int) then
    match sl.arr with
    | some a => .done (h.set a ((h.getD a []).set i.toNat c))
    | none => .panic
  else .panic

/-- The dereference of a pointer: panics on nil. -/
def deref (c : Option SRV) : Outcome SRV :=
  match c with
  | some s => .done s
  | none => .panic

/-- The call `make([]*net.SRV, 0, n)`: a new array of `n` nil cells, and the empty slice
of it. -/
def makeSlice (h : Heap) (n : Nat) : Heap × Slice :=
  (h ++ [List.replicate n none], { arr := some h.length, len := 0 })

/-- The call `append(sl, c)`: writes into the backing array when the capacity allows,
allocates a new array and copies the elements otherwise. -/
def appendTo (grow : Nat → Nat) (h : Heap) (sl : Slice) (c : Option SRV) : Heap × Slice :=
  match sl.arr with
  | some a =>
    if sl.len < (h.getD a []).length then
      (h.set a ((h.getD a []).set sl.len c), { arr := some a, len := sl.len + 1 })
    else
      (h ++ [(viewOf h sl ++ [c]) ++ List.replicate (grow (sl.len + 1) - (sl.len + 1)) none],
        { arr := some h.length, len := sl.len + 1 })
  | none =>
    (h ++ [[c] ++ List.replicate (grow 1 - 1) none], { arr := some h.length, len := 1 })

/-- The map `prioMap`, from priority to bucket slice. -/
abbrev SliceMap := List (Nat × Slice)

/-- The lookup `prioMap[p]`; a missing key gives the nil slice. -/
def SliceMap.get (m : SliceMap) (p : Nat) : Slice :=
  match m with
  | [] => nilSlice
  | (q, v) :: rest => if q = p then v else SliceMap.get rest p

/-- The assignment `prioMap[p] = v`. -/
def SliceMap.set (m : SliceMap) (p : Nat) (v : Slice) : SliceMap :=
  match m with
  | [] => [(p, v)]
  | (q, w) :: rest => if q = p then (q, v) :: rest else (q, w) :: SliceMap.set rest p v

/-- The variables of the loop of `weightedOrder`, the heap and the draw log. -/
structure MemState where
  heap : Heap
  srvs : Slice
  osrv : Slice
  l : Int
  tw : Int
  log : List Int

/-- The loop `for _, s := range srvs { tw += int(s.Weight) }`, from the index `i`, with
`n` elements to go. -/
def totalWeightMem (h : Heap) (srvs : Slice) : Nat → Nat → Int → Outcome Int
  | 0, _, tw => .done tw
  | n + 1, i, tw =>
    (readAt h srvs i).bind fun c =>
      (deref c).bind fun s => totalWeightMem h srvs n (i + 1) (tw + (s.Weight : Int))

/-- The threshold `rw` of one iteration, the candidate being the pointer `c`. -/
def thresholdMem (r : Rand) (log : List Int) (tw : Int) (c : Option SRV) :
    Outcome (Int × List Int) :=
  if tw > 0 then
    (Intn r log tw).bind fun (t, log2) =>
      (deref c).bind fun s => .done (t - (s.Weight : Int), log2)
  else .done (0, log)

/-- The accepting branch of the loop body: the append to `osrv`, the swap of `srvs[i]`
with the last element and the truncation, all on the backing arrays. -/
def acceptMem (grow : Nat → Nat) (st : MemState) (i : Int) (c : Option SRV) (log : List Int) :
    Outcome MemState :=
  let ho := appendTo grow st.heap st.osrv c
  if st.srvs.len > 1 then
    (readAt ho.1 st.srvs i).bind fun cur =>
      (readAt ho.1 st.srvs ((st.srvs.len : Int) - 1)).bind fun last =>
        (writeAt ho.1 st.srvs ((st.srvs.len : Int) - 1) cur).bind fun h2 =>
          (writeAt h2 st.srvs i last).bind fun h3 =>
            (deref c).bind fun s =>
              .done { heap := h3, srvs := { arr := st.srvs.arr, len := st.srvs.len - 1 },
                      osrv := ho.2, l := ((st.srvs.len - 1 : Nat) : Int),
                      tw := st.tw - (s.Weight : Int), log := log }
  else
    (deref c).bind fun s =>
      .done { heap := ho.1, srvs := st.srvs, osrv := ho.2, l := 0,
              tw := st.tw - (s.Weight : Int), log := log }

/-- One iteration of the loop of `weightedOrder`, on the backing arrays. -/
def loopBodyMem (grow : Nat → Nat) (r : Rand) (st : MemState) : Outcome MemState :=
  (Intn r st.log st.l).bind fun (i, log1) =>
    (readAt st.heap st.srvs i).bind fun c =>
      (thresholdMem r log1 st.tw c).bind fun (rw, log2) =>
        if rw ≤ 0 then acceptMem grow st i c log2
        else .done { st with log := log2 }

/-- The loop of `weightedOrder` on the backing arrays, for at most `fuel` iterations. -/
def loopMem (grow : Nat → Nat) (r : Rand) : Nat → MemState → Outcome MemState
  | 0, st => if st.l > 0 then .outOfFuel else .done st
  | fuel + 1, st =>
    if st.l > 0 then (loopBodyMem grow r st).bind (loopMem grow r fuel) else .done st

/-- The function `weightedOrder` on the backing arrays: returns the slice of the
ordered records, the heap and the draw log. -/
def weightedOrderMem (grow : Nat → Nat) (fuel : Nat) (r : Rand) (log : List Int) (h : Heap)
    (srvs : Slice) : Outcome (Slice × Heap × List Int) :=
  if srvs.len < 2 then .done (srvs, h, log)
  else
    (totalWeightMem h srvs srvs.len 0 0).bind fun tw =>
      let hm := makeSlice h srvs.len
      (loopMem grow r fuel
          { heap := hm.1, srvs := srvs, osrv := hm.2, l := (srvs.len : Int), tw := tw,
            log := log }).bind
        fun st => .done (st.osrv, st.heap, st.log)

/-- The loop `for _, srv := range addrs { prioMap[p] = append(prioMap[p], srv) }` on the
backing arrays, from the index `i`, with `n` elements to go. -/
def fillMapMem (grow : Nat → Nat) (addrs : Slice) :
    Nat → Nat → Heap → SliceMap → Outcome (Heap × SliceMap)
  | 0, _, h, m => .done (h, m)
  | n + 1, i, h, m =>
    (readAt h addrs i).bind fun c =>
      (deref c).bind fun srv =>
        let hb := appendTo grow h (m.get srv.Priority) c
        fillMapMem grow addrs n (i + 1) hb.1 (m.set srv.Priority hb.2)

/-- The loop `for _, s := range tos { count++; osrv = append(osrv, s) }` on the backing
arrays, from the index `i`, with `n` elements to go. -/
def appendAllMem (grow : Nat → Nat) (tos : Slice) :
    Nat → Nat → Heap → Int → Slice → Outcome (Heap × Int × Slice)
  | 0, _, h, count, osrv => .done (h, count, osrv)
  | n + 1, i, h, count, osrv =>
    (readAt h tos i).bind fun c =>
      let ho := appendTo grow h osrv c
      appendAllMem grow tos n (i + 1) ho.1 (count + 1) ho.2

/-- The loop `for _, p := range priorities { ... }` of `OrderSRV` on the backing arrays. -/
def groupsLoopMem (grow : Nat → Nat) (fuel : Nat) (r : Rand) (prioMap : SliceMap) :
    List Nat → Int → Slice → Heap → List Int → Outcome (Int × Slice × Heap × List Int)
  | [], count, osrv, h, log => .done (count, osrv, h, log)
  | p :: ps, count, osrv, h, log =>
    (weightedOrderMem grow fuel r log h (prioMap.get p)).bind fun (tos, h1, log1) =>
      (appendAllMem grow tos tos.len 0 h1 count osrv).bind fun (h2, count2, osrv2) =>
        groupsLoopMem grow fuel r prioMap ps count2 osrv2 h2 log1

/-- The function `OrderSRV` on the backing arrays: returns the count, the slice of the
ordered records, the heap and the draw log. -/
def OrderSRVMem (grow : Nat → Nat) (fuel : Nat) (r : Rand) (log : List Int) (h : Heap)
    (addrs : Slice) : Outcome (Int × Slice × Heap × List Int) :=
  if addrs.len < 2 then .done ((addrs.len : Int), addrs, h, log)
  else
    let hm := makeSlice h addrs.len
    (fillMapMem grow addrs addrs.len 0 hm.1 []).bind fun (h2, prioMap) =>
      groupsLoopMem grow fuel r prioMap ((prioMap.map Prod.fst).insertionSort (· ≤ ·)) 0
        hm.2 h2 log

/-- A slice whose backing array is in the heap and holds at least its elements. -/
def ValidSlice (h : Heap) (sl : Slice) : Prop :=
  ∀ a, sl.arr = some a → a < h.length ∧ sl.len ≤ (h.getD a []).length

/-- The heap `h'` keeps the arrays of the heap `h0` as they were, but for those whose
address is in `S`: an array of `h'` that differs from that of `h0` has its address in
`S` or has been allocated since. -/
def Keeps (S : Nat → Prop) (h0 h' : Heap) : Prop :=
  h0.length ≤ h'.length ∧ ∀ a, a < h0.length → ¬ S a → h'.get? a = h0.get? a

/-- A slice whose backing array, if it has one, has its address in `S` or was allocated
after the heap `h0`. -/
def Writable (S : Nat → Prop) (h0 : Heap) (sl : Slice) : Prop :=
  ∀ a, sl.arr = some a → h0.length ≤ a ∨ S a

/-- The invariant of the loop of `weightedOrder` on the backing arrays: the heap keeps
the arrays of `h0` outside `S`, and the slices `srvs` and `osrv` are writable. -/
def MemInv (S : Nat → Prop) (h0 : Heap) (st : MemState) : Prop :=
  Keeps S h0 st.heap ∧ Writable S h0 st.srvs ∧ Writable S h0 st.osrv

/-- The heap that holds the one array `[a, b, c, d]` of the end-to-end example. -/
def exampleHeap : Heap := [[some recA, some recB, some recC, some recD]]

/-- The doubling growth of `append`. -/
def doubling (n : Nat) : Nat := 2 * n

/-- The slice `sl` of the heap `h` holds the records `l`: its elements are the pointers
to the records of `l`, none of them nil, and its backing array is in the heap. -/
def Holds (h : Heap) (sl : Slice) (l : List SRV) : Prop :=
  sl.len = l.length ∧ viewOf h sl = l.map some ∧ ∀ a, sl.arr = some a → a < h.length

/-- The state of the loop on the backing arrays stands for the state `ls` of the loop
on lists: same `l`, `tw` and draw log, the slices `srvs` and `osrv` hold the lists of
`ls`, in different arrays. -/
def Sim (st : MemState) (ls : LoopState) : Prop :=
  st.l = ls.l ∧ st.tw = ls.tw ∧ st.log = ls.log ∧ Holds st.heap st.srvs ls.srvs ∧
    Holds st.heap st.osrv ls.osrv ∧ st.srvs.arr ≠ st.osrv.arr

/-- Two runs end alike: both panic, both run out of fuel, or both return, with results
related by `R`. -/
def OutRel {α β : Type} (R : α → β → Prop) (x : Outcome α) (y : Outcome β) : Prop :=
  match x, y with
  | .done a, .done b => R a b
  | .panic, .panic => True
  | .outOfFuel, .outOfFuel => True
  | _, _ => False

/-- The relation between the results of `weightedOrder` on the backing arrays and on
lists, for a call in the heap `h` on the slice `srvs`: same draw log, the slice
returned holds the list returned, in the array of `srvs` or in a new one, and the
arrays of `h` other than that of `srvs` are as they were. -/
def WeightedRel (h : Heap) (srvs : Slice) (x : Slice × Heap × List Int)
    (y : List SRV × List Int) : Prop :=
  x.2.2 = y.2 ∧ Holds x.2.1 x.1 y.1 ∧ h.length ≤ x.2.1.length ∧
    (∀ b, b < h.length → srvs.arr ≠ some b → x.2.1.get? b = h.get? b) ∧
    (∀ a, x.1.arr = some a → srvs.arr = some a ∨ h.length ≤ a)

/-- The map of bucket slices stands for the map of bucket lists: same keys, every bucket
slice holds the bucket list of its key, and the buckets of two keys are in different
arrays. -/
def MapRel (h : Heap) (m : SliceMap) (pm : PrioMap) : Prop :=
  m.map Prod.fst = pm.map Prod.fst ∧ (∀ p, Holds h (m.get p) (pm.get p)) ∧
    ∀ p q a, p ≠ q → (m.get p).arr = some a → (m.get q).arr ≠ some a

/-- The relation between the results of `OrderSRV` on the backing arrays and on lists:
same count and draw log, and the slice returned holds the list returned. -/
def GroupsRel (x : Int × Slice × Heap × List Int) (y : Int × List SRV × List Int) : Prop :=
  x.1 = y.1 ∧ x.2.2.2 = y.2.2 ∧ Holds x.2.2.1 x.2.1 y.2.1

/-! ## Sequencing -/

@[simp] theorem Outcome.bind_done {α β : Type} (a : α) (f : α → Outcome β) :
    (Outcome.done a).bind f = f a := rfl

@[simp] theorem Outcome.bind_panic {α β : Type} (f : α → Outcome β) :
    (Outcome.panic : Outcome α).bind f = .panic := rfl

@[simp] theorem Outcome.bind_outOfFuel {α β : Type} (f : α → Outcome β) :
    (Outcome.outOfFuel : Outcome α).bind f = .outOfFuel := rfl

theorem Outcome.bind_eq_done {α β : Type} {x : Outcome α} {f : α → Outcome β} {b : β}
    (h : x.bind f = .done b) : ∃ a, x = .done a ∧ f a = .done b := by
  cases x with
  | done a => exact ⟨a, rfl, h⟩
  | panic => simp at h
  | outOfFuel => simp at h

/-! ## The primitive operations -/

theorem Intn_pos (r : Rand) (log : List Int) {n : Int} (h : 0 < n) :
    Intn r log n = .done (r log.length n, log ++ [n]) := by
  simp [Intn, not_le.mpr h]

theorem Intn_eq_done {r : Rand} {log : List Int} {n : Int} {x : Int × List Int}
    (h : Intn r log n = .done x) : 0 < n ∧ x = (r log.length n, log ++ [n]) := by
  unfold Intn at h
  split at h
  · simp at h
  · rename_i hn
    simp only [Outcome.done.injEq] at h
    exact ⟨not_le.mp hn, h.symm⟩

theorem index_eq_done {srvs : List SRV} {i : Int} {s : SRV} (h : index srvs i = .done s) :
    0 ≤ i ∧ i.toNat < srvs.length ∧ srvs.get? i.toNat = some s := by
  unfold index at h
  split at h
  · rename_i hi
    split at h
    · rename_i s2 hs
      simp only [Outcome.done.injEq] at h
      subst h
      have hlt : i.toNat < srvs.length := by
        by_contra hcon
        rw [List.get?_eq_none.mpr (not_lt.mp hcon)] at hs
        simp at hs
      exact ⟨hi, hlt, hs⟩
    · simp at h
  · simp at h

theorem index_of_lt {srvs : List SRV} {i : Int} (h0 : 0 ≤ i) (h1 : i < srvs.length) :
    ∃ s, index srvs i = .done s ∧ srvs.get? i.toNat = some s := by
  have hlt : i.toNat < srvs.length := by omega
  refine ⟨srvs.get ⟨i.toNat, hlt⟩, ?_, ?_⟩
  · unfold index
    rw [if_pos h0, List.get?_eq_get hlt]
  · rw [List.get?_eq_get hlt]

theorem appendAll_eq (tos : List SRV) (count : Int) (osrv : List SRV) :
    appendAll tos count osrv = (count + tos.length, osrv ++ tos) := by
  unfold appendAll
  induction tos generalizing count osrv with
  | nil => simp
  | cons s tos ih =>
    rw [List.foldl_cons, ih]
    simp only [List.length_cons, Nat.cast_add, Nat.cast_one, List.append_assoc,
      List.singleton_append, Prod.mk.injEq, and_true]
    ring

/-! ## Removal by swap with the last entry -/

theorem perm_set_cons {α : Type} (l : List α) (i : Nat) (s t : α)
    (h : l.get? i = some s) : List.Perm (s :: l.set i t) (t :: l) := by
  induction l generalizing i with
  | nil => simp at h
  | cons a l ih =>
    cases i with
    | zero =>
      simp only [List.get?_cons_zero, Option.some.injEq] at h
      subst h
      simp only [List.set_cons_zero]
      exact List.Perm.swap _ _ _
    | succ i =>
      simp only [List.get?_cons_succ] at h
      simp only [List.set_cons_succ]
      exact (List.Perm.swap _ _ _).trans (((ih i h).cons a).trans (List.Perm.swap _ _ _))

theorem swapTruncate_length (srvs : List SRV) (i : Nat) (s last : SRV) :
    (swapTruncate srvs i s last).length = srvs.length - 1 := by
  simp [swapTruncate]

theorem swapTruncate_perm {srvs : List SRV} {i : Nat} {s last : SRV}
    (hs : srvs.get? i = some s) (hl : srvs.get? (srvs.length - 1) = some last) :
    List.Perm (s :: swapTruncate srvs i s last) srvs := by
  have hne : srvs ≠ [] := by
    intro h
    subst h
    simp at hs
  obtain ⟨init, x, rfl⟩ : ∃ init x, srvs = init ++ [x] :=
    ⟨srvs.dropLast, srvs.getLast hne, (List.dropLast_append_getLast hne).symm⟩
  have hx : x = last := by
    simpa [List.getElem?_append_right] using hl
  subst hx
  unfold swapTruncate
  simp only [List.length_append, List.length_singleton, Nat.add_sub_cancel]
  have h1 : (init ++ [x]).set init.length s = init ++ [s] := by
    rw [List.set_append_right _ _ (le_refl _)]
    simp
  rw [h1]
  by_cases hi : i < init.length
  · rw [List.set_append_left _ _ hi, List.take_left' (by simp)]
    have hs2 : init.get? i = some s := by
      rwa [List.get?_eq_getElem?, List.getElem?_append_left hi, ← List.get?_eq_getElem?] at hs
    exact ((perm_set_cons init i s x hs2).trans (List.perm_append_singleton x init).symm)
  · have hlen : i < (init ++ [x]).length := by
      by_contra hcon
      rw [List.get?_eq_none.mpr (not_lt.mp hcon)] at hs
      simp at hs
    have hi2 : i = init.length := by
      simp at hlen
      omega
    subst hi2
    have hsx : s = x := by
      simpa [List.getElem?_append_right] using hs.symm
    subst hsx
    rw [List.set_append_right _ _ (le_refl _)]
    simp only [Nat.sub_self, List.set_cons_zero]
    rw [List.take_left' rfl]
    exact (List.perm_append_singleton s init).symm

/-! ## One iteration of the loop -/

theorem threshold_pos (r : Rand) (log : List Int) {tw : Int} (s : SRV) (h : 0 < tw) :
    threshold r log tw s = .done (r log.length tw - (s.Weight : Int), log ++ [tw]) := by
  simp [threshold, h, Intn_pos r log h]

theorem threshold_nonpos (r : Rand) (log : List Int) {tw : Int} (s : SRV) (h : tw ≤ 0) :
    threshold r log tw s = .done (0, log) := by
  simp [threshold, not_lt.mpr h]

theorem accept_eq_done {st st' : LoopState} {i : Int} {s : SRV} {log : List Int}
    (hinv : LoopInv st) (hl : 0 < st.l) (hs : index st.srvs i = .done s)
    (h : accept st i s log = .done st') :
    LoopInv st' ∧ st'.osrv = st.osrv ++ [s] ∧ st'.tw = st.tw - (s.Weight : Int) ∧
      st'.log = log ∧ List.Perm (s :: pool st') (pool st) ∧
      (st'.l : Int) = (st.l - 1 : Int) := by
  obtain ⟨_, hlt, hget⟩ := index_eq_done hs
  have hlen := hinv hl
  unfold accept at h
  split at h
  · rename_i hgt
    obtain ⟨last, hlast, h2⟩ := Outcome.bind_eq_done h
    simp only [Outcome.done.injEq] at h2
    subst h2
    obtain ⟨_, _, hgl⟩ := index_eq_done hlast
    have hnat : ((st.srvs.length : Int) - 1).toNat = st.srvs.length - 1 := by omega
    rw [hnat] at hgl
    have hperm := swapTruncate_perm hget hgl
    have hlen2 := swapTruncate_length st.srvs i.toNat s last
    refine ⟨fun _ => rfl, rfl, rfl, rfl, ?_, ?_⟩
    · have hp : 0 < ((swapTruncate st.srvs i.toNat s last).length : Int) := by
        rw [hlen2]; omega
      simp only [pool, hp, hl, if_true]
      exact hperm
    · simp only [hlen2, hlen]
      omega
  · rename_i hle
    simp only [Outcome.done.injEq] at h
    subst h
    have h1 : st.srvs.length = 1 := by omega
    have hi0 : i.toNat = 0 := by omega
    rw [hi0] at hget
    have hsrvs : st.srvs = [s] := by
      match hm : st.srvs, h1, hget with
      | [a], _, hg =>
        simp only [List.get?_cons_zero, Option.some.injEq] at hg
        rw [hg]
    refine ⟨fun h0 => absurd h0 (lt_irrefl _), rfl, rfl, rfl, ?_, ?_⟩
    · simp [pool, hl, hsrvs]
    · simp only [hlen, h1]
      rfl

/-- What one iteration does when it completes: it draws the candidate `s`, and either
rejects it, changing nothing but the draw log, or moves it from the pool to the output. -/
theorem loopBody_eq_done {r : Rand} {st st' : LoopState} (hinv : LoopInv st)
    (h : loopBody r st = .done st') :
    0 < st.l ∧ LoopInv st' ∧ ∃ s, index st.srvs (r st.log.length st.l) = .done s ∧
      ((0 < st.tw ∧ 0 < r (st.log.length + 1) st.tw - (s.Weight : Int) ∧
          st' = { st with log := st.log ++ [st.l, st.tw] }) ∨
       (st'.osrv = st.osrv ++ [s] ∧ st'.tw = st.tw - (s.Weight : Int) ∧
          List.Perm (s :: pool st') (pool st) ∧ (st'.l : Int) = st.l - 1 ∧
          ((0 < st.tw ∧ r (st.log.length + 1) st.tw - (s.Weight : Int) ≤ 0 ∧
              st'.log = st.log ++ [st.l, st.tw]) ∨
           (st.tw ≤ 0 ∧ st'.log = st.log ++ [st.l])))) := by
  unfold loopBody at h
  obtain ⟨⟨i, log1⟩, hI, h⟩ := Outcome.bind_eq_done h
  obtain ⟨hl, hi⟩ := Intn_eq_done hI
  simp only [Prod.mk.injEq] at hi
  obtain ⟨rfl, rfl⟩ := hi
  obtain ⟨s, hs, h⟩ := Outcome.bind_eq_done h
  obtain ⟨⟨rw, log2⟩, ht, h⟩ := Outcome.bind_eq_done h
  simp only at h
  by_cases htw : 0 < st.tw
  · rw [threshold_pos r _ s htw] at ht
    simp only [Outcome.done.injEq, Prod.mk.injEq, List.length_append, List.length_singleton,
      List.append_assoc, List.singleton_append] at ht
    obtain ⟨rfl, rfl⟩ := ht
    split at h
    · rename_i hrw
      obtain ⟨h1, h2, h3, h4, h5, h6⟩ := accept_eq_done hinv hl hs h
      exact ⟨hl, h1, s, hs, Or.inr ⟨h2, h3, h5, h6, Or.inl ⟨htw, hrw, h4⟩⟩⟩
    · rename_i hrw
      simp only [Outcome.done.injEq] at h
      subst h
      exact ⟨hl, hinv, s, hs, Or.inl ⟨htw, not_le.mp hrw, rfl⟩⟩
  · rw [threshold_nonpos r _ s (not_lt.mp htw)] at ht
    simp only [Outcome.done.injEq, Prod.mk.injEq] at ht
    obtain ⟨rfl, rfl⟩ := ht
    simp only [le_refl, if_true] at h
    obtain ⟨h1, h2, h3, h4, h5, h6⟩ := accept_eq_done hinv hl hs h
    exact ⟨hl, h1, s, hs, Or.inr ⟨h2, h3, h5, h6, Or.inr ⟨not_lt.mp htw, h4⟩⟩⟩

/-- With draws in range, an iteration entered with `l > 0` completes: no call panics. -/
theorem loopBody_total {r : Rand} (hr : InRange r) {st : LoopState} (hinv : LoopInv st)
    (hl : 0 < st.l) : ∃ st', loopBody r st = .done st' := by
  have hlen := hinv hl
  obtain ⟨hi0, hi1⟩ := hr st.log.length st.l hl
  rw [hlen] at hi1
  obtain ⟨s, hs, _⟩ := index_of_lt (by rw [← hlen]; exact hi0) hi1
  rw [← hlen] at hs
  have hacc : ∀ log, ∃ st', accept st (r st.log.length st.l) s log = .done st' := by
    intro log
    unfold accept
    split
    · rename_i hgt
      have h0 : (0 : Int) ≤ (st.srvs.length : Int) - 1 := by omega
      have h1 : (st.srvs.length : Int) - 1 < (st.srvs.length : Int) := by omega
      obtain ⟨last, hlast, _⟩ := index_of_lt h0 h1
      rw [hlast]
      exact ⟨_, rfl⟩
    · exact ⟨_, rfl⟩
  unfold loopBody
  rw [Intn_pos r _ hl]
  simp only [Outcome.bind_done, hs]
  by_cases htw : 0 < st.tw
  · rw [threshold_pos r _ s htw]
    simp only [Outcome.bind_done]
    split
    · exact hacc _
    · exact ⟨_, rfl⟩
  · rw [threshold_nonpos r _ s (not_lt.mp htw)]
    simp only [Outcome.bind_done, le_refl, if_true]
    exact hacc _

/-! ## The loop -/

theorem initState_inv (srvs : List SRV) (log : List Int) : LoopInv (initState srvs log) :=
  fun _ => rfl

theorem pool_initState {srvs : List SRV} (log : List Int) (h : 2 ≤ srvs.length) :
    pool (initState srvs log) = srvs := by
  have : (0 : Int) < (srvs.length : Int) := by omega
  simp [pool, initState, this]

/-- A loop that ends has emptied the pool, and its output is a rearrangement of the
output so far followed by the pool it started from. -/
theorem loop_eq_done {r : Rand} {fuel : Nat} {st st' : LoopState} (hinv : LoopInv st)
    (h : loop r fuel st = .done st') :
    st'.l ≤ 0 ∧ List.Perm st'.osrv (st.osrv ++ pool st) := by
  induction fuel generalizing st with
  | zero =>
    unfold loop at h
    split at h
    · simp at h
    · rename_i hl
      simp only [Outcome.done.injEq] at h
      subst h
      simp [pool, hl, not_lt.mp hl]
  | succ fuel ih =>
    unfold loop at h
    split at h
    · obtain ⟨st1, hb, h1⟩ := Outcome.bind_eq_done h
      obtain ⟨_, hinv1, s, _, hcase⟩ := loopBody_eq_done hinv hb
      obtain ⟨hl', hperm⟩ := ih hinv1 h1
      refine ⟨hl', hperm.trans ?_⟩
      rcases hcase with ⟨_, _, rfl⟩ | ⟨ho, _, hp, _, _⟩
      · exact List.Perm.refl _
      · rw [ho, List.append_assoc, List.singleton_append]
        exact List.Perm.append_left _ hp
    · rename_i hl
      simp only [Outcome.done.injEq] at h
      subst h
      simp [pool, hl, not_lt.mp hl]

/-- With draws in range the loop never panics. -/
theorem loop_ne_panic {r : Rand} (hr : InRange r) (fuel : Nat) {st : LoopState}
    (hinv : LoopInv st) : loop r fuel st ≠ .panic := by
  induction fuel generalizing st with
  | zero =>
    unfold loop
    split <;> simp
  | succ fuel ih =>
    unfold loop
    split
    · rename_i hl
      obtain ⟨st1, hb⟩ := loopBody_total hr hinv hl
      rw [hb, Outcome.bind_done]
      exact ih (loopBody_eq_done hinv hb).2.1
    · simp

/-- More fuel does not change the result of a loop that ended. -/
theorem loop_mono {r : Rand} {fuel fuel' : Nat} {st st' : LoopState} (hle : fuel ≤ fuel')
    (h : loop r fuel st = .done st') : loop r fuel' st = .done st' := by
  induction fuel generalizing st fuel' with
  | zero =>
    unfold loop at h
    split at h
    · simp at h
    · rename_i hl
      cases fuel' <;> simp [loop, hl, h]
  | succ fuel ih =>
    unfold loop at h
    split at h
    · rename_i hl
      obtain ⟨st1, hb, h1⟩ := Outcome.bind_eq_done h
      obtain ⟨k, rfl⟩ : ∃ k, fuel' = k + 1 := ⟨fuel' - 1, by omega⟩
      simp only [loop, hl, if_true, hb, Outcome.bind_done]
      exact ih (by omega) h1
    · rename_i hl
      cases fuel' <;> simp [loop, hl, h]

/-! ## `weightedOrder` -/

theorem weightedOrder_short (fuel : Nat) (r : Rand) (log : List Int) {srvs : List SRV}
    (h : srvs.length < 2) : weightedOrder fuel r log srvs = .done (srvs, log) := by
  simp [weightedOrder, h]

theorem weightedOrder_long (fuel : Nat) (r : Rand) (log : List Int) {srvs : List SRV}
    (h : 2 ≤ srvs.length) :
    weightedOrder fuel r log srvs
      = (loop r fuel (initState srvs log)).bind fun st => .done (st.osrv, st.log) := by
  simp [weightedOrder, not_lt.mpr h]

/-- The output of `weightedOrder` is a rearrangement of its argument. -/
theorem weightedOrder_perm {fuel : Nat} {r : Rand} {log log' : List Int}
    {srvs out : List SRV} (h : weightedOrder fuel r log srvs = .done (out, log')) :
    List.Perm out srvs := by
  by_cases hlen : srvs.length < 2
  · rw [weightedOrder_short fuel r log hlen] at h
    simp only [Outcome.done.injEq, Prod.mk.injEq] at h
    rw [← h.1]
  · rw [weightedOrder_long fuel r log (not_lt.mp hlen)] at h
    obtain ⟨st, hloop, h2⟩ := Outcome.bind_eq_done h
    simp only [Outcome.done.injEq, Prod.mk.injEq] at h2
    have hp := (loop_eq_done (initState_inv srvs log) hloop).2
    rw [pool_initState log (not_lt.mp hlen)] at hp
    rw [← h2.1]
    simpa [initState] using hp

theorem weightedOrder_ne_panic {r : Rand} (hr : InRange r) (fuel : Nat) (log : List Int)
    (srvs : List SRV) : weightedOrder fuel r log srvs ≠ .panic := by
  by_cases hlen : srvs.length < 2
  · rw [weightedOrder_short fuel r log hlen]
    simp
  · rw [weightedOrder_long fuel r log (not_lt.mp hlen)]
    have := loop_ne_panic hr fuel (initState_inv srvs log)
    cases hloop : loop r fuel (initState srvs log) <;> simp_all

theorem weightedOrder_mono {r : Rand} {fuel fuel' : Nat} {log : List Int} {srvs : List SRV}
    {res : List SRV × List Int} (hle : fuel ≤ fuel')
    (h : weightedOrder fuel r log srvs = .done res) :
    weightedOrder fuel' r log srvs = .done res := by
  by_cases hlen : srvs.length < 2
  · rw [weightedOrder_short _ r log hlen] at h ⊢
    exact h
  · rw [weightedOrder_long _ r log (not_lt.mp hlen)] at h ⊢
    obtain ⟨st, hloop, h2⟩ := Outcome.bind_eq_done h
    rw [loop_mono hle hloop]
    exact h2

/-! ## The loop over the priorities -/

/-- A completed run of the loop over the priorities appends, for each priority in turn,
a rearrangement of its bucket, and counts the records appended. -/
theorem groupsLoop_eq_done {fuel : Nat} {r : Rand} {m : PrioMap} {ps : List Nat}
    {count count' : Int} {osrv osrv' : List SRV} {log log' : List Int}
    (h : groupsLoop fuel r m ps count osrv log = .done (count', osrv', log')) :
    ∃ outs : List (List SRV), List.Forall₂ (fun p out => List.Perm out (m.get p)) ps outs ∧
      osrv' = osrv ++ outs.flatten ∧ count' = count + (outs.flatten.length : Int) := by
  induction ps generalizing count osrv log with
  | nil =>
    simp only [groupsLoop, Outcome.done.injEq, Prod.mk.injEq] at h
    exact ⟨[], List.Forall₂.nil, by simp [h.2.1], by simp [h.1]⟩
  | cons p ps ih =>
    unfold groupsLoop at h
    obtain ⟨⟨tos, log1⟩, hw, h2⟩ := Outcome.bind_eq_done h
    simp only [appendAll_eq] at h2
    obtain ⟨outs, hf, ho, hc⟩ := ih h2
    refine ⟨tos :: outs, List.Forall₂.cons (weightedOrder_perm hw) hf, ?_, ?_⟩
    · simp [ho]
    · simp only [hc, List.flatten_cons, List.length_append, Nat.cast_add]
      ring

theorem groupsLoop_ne_panic {r : Rand} (hr : InRange r) (fuel : Nat) (m : PrioMap)
    (ps : List Nat) (count : Int) (osrv : List SRV) (log : List Int) :
    groupsLoop fuel r m ps count osrv log ≠ .panic := by
  induction ps generalizing count osrv log with
  | nil => simp [groupsLoop]
  | cons p ps ih =>
    unfold groupsLoop
    have := weightedOrder_ne_panic hr fuel log (m.get p)
    cases hw : weightedOrder fuel r log (m.get p) with
    | done a => exact ih _ _ _
    | panic => exact absurd hw this
    | outOfFuel => simp

theorem groupsLoop_mono {r : Rand} {fuel fuel' : Nat} {m : PrioMap} {ps : List Nat}
    {count : Int} {osrv : List SRV} {log : List Int} {res : Int × List SRV × List Int}
    (hle : fuel ≤ fuel') (h : groupsLoop fuel r m ps count osrv log = .done res) :
    groupsLoop fuel' r m ps count osrv log = .done res := by
  induction ps generalizing count osrv log with
  | nil => simpa [groupsLoop] using h
  | cons p ps ih =>
    unfold groupsLoop at h ⊢
    obtain ⟨⟨tos, log1⟩, hw, h2⟩ := Outcome.bind_eq_done h
    rw [weightedOrder_mono hle hw, Outcome.bind_done]
    exact ih h2

/-! ## The map from priority to bucket -/

theorem PrioMap.get_set (m : PrioMap) (p q : Nat) (v : List SRV) :
    (m.set p v).get q = if p = q then v else m.get q := by
  induction m with
  | nil => simp [PrioMap.set, PrioMap.get]
  | cons e rest ih =>
    obtain ⟨k, w⟩ := e
    unfold PrioMap.set
    by_cases hk : k = p
    · subst hk
      simp only [if_true, PrioMap.get]
      by_cases hq : k = q <;> simp [hq]
    · simp only [hk, if_false, PrioMap.get, ih]
      by_cases hq : k = q
      · subst hq
        simp [Ne.symm hk]
      · simp [hq]

theorem PrioMap.keys_set (m : PrioMap) (p : Nat) (v : List SRV) :
    (m.set p v).keys = if p ∈ m.keys then m.keys else m.keys ++ [p] := by
  induction m with
  | nil => simp [PrioMap.set, PrioMap.keys]
  | cons e rest ih =>
    obtain ⟨k, w⟩ := e
    unfold PrioMap.set
    by_cases hk : k = p
    · subst hk
      simp [PrioMap.keys]
    · simp only [PrioMap.keys] at ih
      simp only [hk, if_false, PrioMap.keys, List.map_cons, ih, List.mem_cons, Ne.symm hk,
        false_or]
      split <;> simp

theorem buildPrioMap_eq (addrs : List SRV) : buildPrioMap addrs = addrs.foldl addToMap [] := rfl

theorem foldl_addToMap_get (m : PrioMap) (addrs : List SRV) (p : Nat) :
    (addrs.foldl addToMap m).get p = m.get p ++ addrs.filter (fun s => s.Priority = p) := by
  induction addrs generalizing m with
  | nil => simp
  | cons a addrs ih =>
    rw [List.foldl_cons, ih, addToMap, PrioMap.get_set]
    by_cases hp : a.Priority = p
    · simp [hp, List.filter_cons]
    · simp [hp, List.filter_cons]

theorem foldl_addToMap_keys (m : PrioMap) (addrs : List SRV) (hm : m.keys.Nodup) :
    (addrs.foldl addToMap m).keys.Nodup ∧
      ∀ q, q ∈ (addrs.foldl addToMap m).keys ↔ q ∈ m.keys ∨ ∃ s ∈ addrs, s.Priority = q := by
  induction addrs generalizing m with
  | nil => simp [hm]
  | cons a addrs ih =>
    rw [List.foldl_cons]
    have hk := PrioMap.keys_set m a.Priority (m.get a.Priority ++ [a])
    have hnd : (addToMap m a).keys.Nodup := by
      unfold addToMap
      rw [hk]
      split
      · exact hm
      · rename_i hnot
        exact List.Nodup.append hm (List.nodup_singleton _) (by simpa using hnot)
    obtain ⟨h1, h2⟩ := ih (addToMap m a) hnd
    refine ⟨h1, fun q => ?_⟩
    rw [h2 q]
    unfold addToMap
    rw [hk]
    split
    · rename_i hin
      constructor
      · rintro (h | ⟨s, hs, rfl⟩)
        · exact Or.inl h
        · exact Or.inr ⟨s, List.mem_cons_of_mem _ hs, rfl⟩
      · rintro (h | ⟨s, hs, rfl⟩)
        · exact Or.inl h
        · rcases List.mem_cons.mp hs with rfl | hs
          · exact Or.inl hin
          · exact Or.inr ⟨s, hs, rfl⟩
    · constructor
      · rintro (h | ⟨s, hs, rfl⟩)
        · rcases List.mem_append.mp h with h | h
          · exact Or.inl h
          · exact Or.inr ⟨a, List.mem_cons_self _ _, (List.mem_singleton.mp h).symm⟩
        · exact Or.inr ⟨s, List.mem_cons_of_mem _ hs, rfl⟩
      · rintro (h | ⟨s, hs, rfl⟩)
        · exact Or.inl (List.mem_append_left _ h)
        · rcases List.mem_cons.mp hs with rfl | hs
          · exact Or.inl (List.mem_append_right _ (List.mem_singleton.mpr rfl))
          · exact Or.inr ⟨s, hs, rfl⟩

/-- The bucket of priority `p` holds the records of priority `p`, in input order. -/
theorem buildPrioMap_get (addrs : List SRV) (p : Nat) :
    (buildPrioMap addrs).get p = addrs.filter (fun s => s.Priority = p) := by
  rw [buildPrioMap_eq, foldl_addToMap_get]
  simp [PrioMap.get]

theorem sortedKeys_sorted (addrs : List SRV) : (sortedKeys addrs).Pairwise (· ≤ ·) :=
  List.sorted_insertionSort (· ≤ ·) _

theorem sortedKeys_nodup (addrs : List SRV) : (sortedKeys addrs).Nodup := by
  have h := (foldl_addToMap_keys [] addrs (by simp [PrioMap.keys])).1
  rw [← buildPrioMap_eq] at h
  exact (List.perm_insertionSort (· ≤ ·) _).nodup_iff.mpr h

theorem mem_sortedKeys (addrs : List SRV) (q : Nat) :
    q ∈ sortedKeys addrs ↔ ∃ s ∈ addrs, s.Priority = q := by
  have h := (foldl_addToMap_keys [] addrs (by simp [PrioMap.keys])).2 q
  rw [← buildPrioMap_eq] at h
  unfold sortedKeys
  rw [(List.perm_insertionSort (· ≤ ·) _).mem_iff, h]
  simp [PrioMap.keys]

/-- The list `priorities` does not depend on the order in which the map is iterated:
sorting any rearrangement of the keys gives the same list. -/
theorem sortedKeys_order_irrelevant (addrs : List SRV) (ks : List Nat)
    (h : List.Perm ks (buildPrioMap addrs).keys) :
    ks.insertionSort (· ≤ ·) = sortedKeys addrs := by
  apply List.eq_of_perm_of_sorted (r := (· ≤ ·))
  · exact ((List.perm_insertionSort (· ≤ ·) ks).trans h).trans
      (List.perm_insertionSort (· ≤ ·) _).symm
  · exact List.sorted_insertionSort (· ≤ ·) _
  · exact List.sorted_insertionSort (· ≤ ·) _

theorem flatMap_filter_perm (ps : List Nat) (hnd : ps.Nodup) (addrs : List SRV)
    (hall : ∀ s ∈ addrs, s.Priority ∈ ps) :
    List.Perm (ps.flatMap fun p => addrs.filter (fun s => s.Priority = p)) addrs := by
  induction ps generalizing addrs with
  | nil =>
    cases addrs with
    | nil => simp
    | cons a _ => exact absurd (hall a (List.mem_cons_self _ _)) (List.not_mem_nil _)
  | cons p ps ih =>
    obtain ⟨hp, hnd'⟩ := List.nodup_cons.mp hnd
    have hrest : ∀ s ∈ addrs.filter (fun s => !decide (s.Priority = p)), s.Priority ∈ ps := by
      intro s hs
      obtain ⟨hs1, hs2⟩ := List.mem_filter.mp hs
      rcases List.mem_cons.mp (hall s hs1) with h | h
      · simp [h] at hs2
      · exact h
    have h1 := ih hnd' _ hrest
    have h2 : (ps.flatMap fun q => (addrs.filter (fun s => !decide (s.Priority = p))).filter
        (fun s => s.Priority = q)) = ps.flatMap fun q => addrs.filter (fun s => s.Priority = q) := by
      apply List.flatMap_congr
      intro q hq
      rw [List.filter_filter]
      apply List.filter_congr
      intro s _
      by_cases hsq : s.Priority = q
      · have hqp : ¬ q = p := fun h => hp (h ▸ hq)
        simp [hsq, hqp]
      · simp [hsq]
    rw [h2] at h1
    rw [List.flatMap_cons]
    exact (List.Perm.append_left _ h1).trans (List.filter_append_perm _ addrs)

/-! ## `OrderSRV` -/

theorem OrderSRV_short_eq (fuel : Nat) (r : Rand) (log : List Int) {addrs : List SRV}
    (h : addrs.length < 2) : OrderSRV fuel r log addrs = .done (addrs.length, addrs, log) := by
  simp [OrderSRV, h]

theorem OrderSRV_long_eq (fuel : Nat) (r : Rand) (log : List Int) {addrs : List SRV}
    (h : 2 ≤ addrs.length) :
    OrderSRV fuel r log addrs
      = groupsLoop fuel r (buildPrioMap addrs) (sortedKeys addrs) 0 [] log := by
  simp [OrderSRV, not_lt.mpr h, sortedKeys]

/-- The shape of every result of `OrderSRV` on two records or more: one block per
priority, in ascending order of the priorities, each block a rearrangement of the
records of that priority; the count is the number of records returned. -/
theorem OrderSRV_blocks {fuel : Nat} {r : Rand} {log log' : List Int} {addrs osrv : List SRV}
    {count : Int} (hlen : 2 ≤ addrs.length)
    (h : OrderSRV fuel r log addrs = .done (count, osrv, log')) :
    ∃ outs : List (List SRV),
      List.Forall₂ (fun p out => List.Perm out (addrs.filter (fun s => s.Priority = p)))
        (sortedKeys addrs) outs ∧
      osrv = outs.flatten ∧ count = (osrv.length : Int) := by
  rw [OrderSRV_long_eq fuel r log hlen] at h
  obtain ⟨outs, hf, ho, hc⟩ := groupsLoop_eq_done h
  simp only [List.nil_append] at ho
  simp only [zero_add] at hc
  refine ⟨outs, ?_, ho, by rw [hc, ho]⟩
  simpa only [buildPrioMap_get] using hf

theorem blocks_perm {addrs : List SRV} {outs : List (List SRV)}
    (hf : List.Forall₂ (fun p out => List.Perm out (addrs.filter (fun s => s.Priority = p)))
      (sortedKeys addrs) outs) : List.Perm outs.flatten addrs := by
  have h1 : List.Perm outs.flatten
      ((sortedKeys addrs).flatMap fun p => addrs.filter (fun s => s.Priority = p)) := by
    generalize sortedKeys addrs = ps at hf
    induction hf with
    | nil => simp
    | cons hp _ ih =>
      rw [List.flatten_cons, List.flatMap_cons]
      exact List.Perm.append hp ih
  exact h1.trans (flatMap_filter_perm _ (sortedKeys_nodup addrs) addrs
    (fun s hs => (mem_sortedKeys addrs _).mpr ⟨s, hs, rfl⟩))

theorem blocks_sorted {addrs : List SRV} {ps : List Nat} {outs : List (List SRV)}
    (hf : List.Forall₂ (fun p out => List.Perm out (addrs.filter (fun s => s.Priority = p)))
      ps outs) (hps : ps.Pairwise (· ≤ ·)) :
    (∀ s ∈ outs.flatten, s.Priority ∈ ps) ∧
      outs.flatten.Pairwise (fun a b => a.Priority ≤ b.Priority) := by
  induction hf with
  | nil => simp
  | @cons p out ps outs hp _ ih =>
    obtain ⟨hhead, htail⟩ := List.pairwise_cons.mp hps
    obtain ⟨ih1, ih2⟩ := ih htail
    have hout : ∀ s ∈ out, s.Priority = p := by
      intro s hs
      have := (List.mem_filter.mp (hp.mem_iff.mp hs)).2
      simpa using this
    constructor
    · intro s hs
      rw [List.flatten_cons] at hs
      rcases List.mem_append.mp hs with h | h
      · rw [hout s h]
        exact List.mem_cons_self _ _
      · exact List.mem_cons_of_mem _ (ih1 s h)
    · rw [List.flatten_cons, List.pairwise_append]
      refine ⟨?_, ih2, ?_⟩
      · exact List.pairwise_of_forall_mem_list
          (fun a ha b hb => le_of_eq ((hout a ha).trans (hout b hb).symm))
      · intro a ha b hb
        rw [hout a ha]
        exact hhead _ (ih1 b hb)

theorem OrderSRV_ne_panic {r : Rand} (hr : InRange r) (fuel : Nat) (log : List Int)
    (addrs : List SRV) : OrderSRV fuel r log addrs ≠ .panic := by
  by_cases hlen : addrs.length < 2
  · rw [OrderSRV_short_eq fuel r log hlen]
    simp
  · rw [OrderSRV_long_eq fuel r log (not_lt.mp hlen)]
    exact groupsLoop_ne_panic hr fuel _ _ _ _ _

theorem OrderSRV_mono {r : Rand} {fuel fuel' : Nat} {log : List Int} {addrs : List SRV}
    {res : Int × List SRV × List Int} (hle : fuel ≤ fuel')
    (h : OrderSRV fuel r log addrs = .done res) : OrderSRV fuel' r log addrs = .done res := by
  by_cases hlen : addrs.length < 2
  · rw [OrderSRV_short_eq _ r log hlen] at h ⊢
    exact h
  · rw [OrderSRV_long_eq _ r log (not_lt.mp hlen)] at h ⊢
    exact groupsLoop_mono hle h

/-! ## The claims -/

/-- C1. Whenever `OrderSRV` returns, the list returned is a permutation of the input
list: every record occurs in it as many times as in the input. -/
theorem OrderSRV_permutation (fuel : Nat) (r : Rand) (log log' : List Int)
    (addrs osrv : List SRV) (count : Int)
    (h : OrderSRV fuel r log addrs = .done (count, osrv, log')) :
    List.Perm osrv addrs ∧ ∀ s, osrv.count s = addrs.count s := by
  have hperm : List.Perm osrv addrs := by
    by_cases hlen : addrs.length < 2
    · rw [OrderSRV_short_eq fuel r log hlen] at h
      simp only [Outcome.done.injEq, Prod.mk.injEq] at h
      rw [h.2.1]
    · obtain ⟨outs, hf, ho, _⟩ := OrderSRV_blocks (not_lt.mp hlen) h
      rw [ho]
      exact blocks_perm hf
  exact ⟨hperm, fun s => hperm.count_eq s⟩

/-- Witness of C1: the input `[a, b, c, d]` and the source that always draws `0`. -/
theorem OrderSRV_permutation_witness :
    OrderSRV 10 zeroRand [] [recA, recB, recC, recD]
        = .done (4, [recB, recC, recA, recD], [2, 10, 1, 5]) ∧
      (List.Perm [recB, recC, recA, recD] [recA, recB, recC, recD] ∧
        ∀ s, [recB, recC, recA, recD].count s = [recA, recB, recC, recD].count s) :=
  ⟨by decide, OrderSRV_permutation 10 zeroRand [] [2, 10, 1, 5] [recA, recB, recC, recD]
    [recB, recC, recA, recD] 4 (by decide)⟩

/-- C2. Whenever `OrderSRV` returns, the priorities of the list returned are
non-decreasing, and a record of smaller priority stands before every record of larger
priority. -/
theorem OrderSRV_priority_order (fuel : Nat) (r : Rand) (log log' : List Int)
    (addrs osrv : List SRV) (count : Int)
    (h : OrderSRV fuel r log addrs = .done (count, osrv, log')) :
    (osrv.map SRV.Priority).Pairwise (· ≤ ·) ∧
      ∀ (i j : Nat) (hi : i < osrv.length) (hj : j < osrv.length),
        (osrv.get ⟨i, hi⟩).Priority < (osrv.get ⟨j, hj⟩).Priority → i < j := by
  have hpw : osrv.Pairwise (fun a b => a.Priority ≤ b.Priority) := by
    by_cases hlen : addrs.length < 2
    · rw [OrderSRV_short_eq fuel r log hlen] at h
      simp only [Outcome.done.injEq, Prod.mk.injEq] at h
      rw [← h.2.1]
      match addrs, hlen with
      | [], _ => exact List.Pairwise.nil
      | [a], _ => exact List.pairwise_singleton _ a
    · obtain ⟨outs, hf, ho, _⟩ := OrderSRV_blocks (not_lt.mp hlen) h
      rw [ho]
      exact (blocks_sorted hf (sortedKeys_sorted addrs)).2
  refine ⟨List.pairwise_map.mpr hpw, fun i j hi hj hlt => ?_⟩
  by_contra hij
  rcases Nat.lt_or_ge j i with hji | hji
  · have := List.pairwise_iff_get.mp hpw ⟨j, hj⟩ ⟨i, hi⟩ hji
    omega
  · have heq : i = j := by omega
    subst heq
    exact lt_irrefl _ hlt

/-- Witness of C2: the input `[d, c, b, a]` and the source that always draws `0`. -/
theorem OrderSRV_priority_order_witness :
    OrderSRV 10 zeroRand [] [recD, recC, recB, recA]
        = .done (4, [recC, recB, recA, recD], [2, 10, 1, 5]) ∧
      (([recC, recB, recA, recD].map SRV.Priority).Pairwise (· ≤ ·) ∧
        ∀ (i j : Nat) (hi : i < [recC, recB, recA, recD].length)
          (hj : j < [recC, recB, recA, recD].length),
          ([recC, recB, recA, recD].get ⟨i, hi⟩).Priority
            < ([recC, recB, recA, recD].get ⟨j, hj⟩).Priority → i < j) :=
  ⟨by decide, OrderSRV_priority_order 10 zeroRand [] [2, 10, 1, 5] [recD, recC, recB, recA]
    [recC, recB, recA, recD] 4 (by decide)⟩

/-- C3. Whenever `OrderSRV` returns, the count returned is the length of the list
returned, which is the length of the input list. -/
theorem OrderSRV_count (fuel : Nat) (r : Rand) (log log' : List Int)
    (addrs osrv : List SRV) (count : Int)
    (h : OrderSRV fuel r log addrs = .done (count, osrv, log')) :
    count = (osrv.length : Int) ∧ osrv.length = addrs.length := by
  by_cases hlen : addrs.length < 2
  · rw [OrderSRV_short_eq fuel r log hlen] at h
    simp only [Outcome.done.injEq, Prod.mk.injEq] at h
    rw [← h.1, ← h.2.1]
    exact ⟨rfl, rfl⟩
  · obtain ⟨outs, hf, ho, hc⟩ := OrderSRV_blocks (not_lt.mp hlen) h
    refine ⟨hc, ?_⟩
    rw [ho]
    exact (blocks_perm hf).length_eq

/-- Witness of C3: the input `[b, a, d]` and the source that always draws `0`. -/
theorem OrderSRV_count_witness :
    OrderSRV 10 zeroRand [] [recB, recA, recD] = .done (3, [recB, recA, recD], []) ∧
      ((3 : Int) = ([recB, recA, recD].length : Int) ∧
        [recB, recA, recD].length = [recB, recA, recD].length) :=
  ⟨by decide, OrderSRV_count 10 zeroRand [] [] [recB, recA, recD] [recB, recA, recD] 3
    (by decide)⟩

/-- C4. On fewer than two records `OrderSRV` returns the input list itself and its
length, whatever the random source and the fuel, and draws nothing (the draw log is
unchanged): the empty list gives `(0, [])`, a list `[s]` gives `(1, [s])`. -/
theorem OrderSRV_fewer_than_two (fuel : Nat) (r : Rand) (log : List Int) :
    (∀ addrs : List SRV, addrs.length < 2 →
        OrderSRV fuel r log addrs = .done ((addrs.length : Int), addrs, log)) ∧
      OrderSRV fuel r log [] = .done (0, [], log) ∧
      ∀ s : SRV, OrderSRV fuel r log [s] = .done (1, [s], log) :=
  ⟨fun _ h => OrderSRV_short_eq fuel r log h, rfl, fun _ => rfl⟩

/-- Witness of C4: the single record `a`, no fuel, a source that is not even in range. -/
theorem OrderSRV_fewer_than_two_witness :
    [recA].length < 2 ∧
      OrderSRV 0 (fun _ _ => -1) [7] [recA] = .done ((([recA].length : Nat) : Int), [recA], [7]) :=
  ⟨by decide, (OrderSRV_fewer_than_two 0 (fun _ _ => -1) [7]).1 [recA] (by decide)⟩

theorem listRand_inRange (ds : List Nat) : InRange (listRand ds) :=
  fun _ _ hn => ⟨Int.emod_nonneg _ (ne_of_gt hn), Int.emod_lt_of_pos _ hn⟩

theorem zeroRand_inRange : InRange zeroRand := fun _ _ hn => ⟨le_refl _, hn⟩

theorem perm_pair {α : Type} {l : List α} {x y : α} (h : List.Perm l [x, y]) :
    l = [x, y] ∨ l = [y, x] := by
  have hm := List.mem_permutations.mpr h
  have he : [x, y].permutations = [[x, y], [y, x]] := by
    simp [List.permutations, List.permutationsAux, List.permutationsAux.rec,
      List.permutationsAux2]
  rw [he] at hm
  simpa using hm

/-- C7. `OrderedSRV` with the lookup as a parameter: when the lookup fails with `e` the
result is count `0`, no records and the error `e`, and nothing is drawn; when the lookup
succeeds the result is the one of `OrderSRV` on the looked-up records with the nil
error; so the error returned is non-nil exactly when the lookup failed. -/
theorem OrderedSRV_propagates {ε : Type} (lookup : String → String → String → LookupResult ε)
    (fuel : Nat) (r : Rand) (log : List Int) (service proto name : String) :
    (∀ e, (lookup service proto name).err = some e →
        OrderedSRV lookup fuel r log service proto name = .done (0, [], some e, log)) ∧
      ((lookup service proto name).err = none →
        (∀ count osrv log',
          OrderSRV fuel r log (lookup service proto name).addrs = .done (count, osrv, log') →
          OrderedSRV lookup fuel r log service proto name = .done (count, osrv, none, log')) ∧
        (OrderSRV fuel r log (lookup service proto name).addrs = .panic →
          OrderedSRV lookup fuel r log service proto name = .panic) ∧
        (OrderSRV fuel r log (lookup service proto name).addrs = .outOfFuel →
          OrderedSRV lookup fuel r log service proto name = .outOfFuel)) ∧
      (∀ count osrv err log',
        OrderedSRV lookup fuel r log service proto name = .done (count, osrv, err, log') →
        (err ≠ none ↔ (lookup service proto name).err ≠ none) ∧
        err = (lookup service proto name).err) := by
  refine ⟨?_, ?_, ?_⟩
  · intro e he
    simp [OrderedSRV, he]
  · intro he
    refine ⟨?_, ?_, ?_⟩
    · intro count osrv log' h
      simp [OrderedSRV, he, h]
    · intro h
      simp [OrderedSRV, he, h]
    · intro h
      simp [OrderedSRV, he, h]
  · intro count osrv err log' h
    unfold OrderedSRV at h
    split at h
    · rename_i e he
      simp only [Outcome.done.injEq, Prod.mk.injEq] at h
      obtain ⟨_, _, h3, _⟩ := h
      rw [he, ← h3]
      simp
    · rename_i he
      obtain ⟨⟨c, o, l⟩, _, h2⟩ := Outcome.bind_eq_done h
      simp only [Outcome.done.injEq, Prod.mk.injEq] at h2
      obtain ⟨_, _, h3, _⟩ := h2
      rw [he, ← h3]
      simp

/-- Witness of C7: a lookup failing with `"NXDOMAIN"`, and a lookup returning `[b, a]`. -/
theorem OrderedSRV_propagates_witness :
    ((failingLookup "NXDOMAIN" "sip" "tcp" "example.org").err = some "NXDOMAIN" ∧
      OrderedSRV (failingLookup "NXDOMAIN") 0 zeroRand [] "sip" "tcp" "example.org"
        = .done (0, [], some "NXDOMAIN", [])) ∧
    ((constLookup [recB, recA] "sip" "tcp" "example.org").err = none ∧
      OrderSRV 0 zeroRand [] (constLookup [recB, recA] "sip" "tcp" "example.org").addrs
        = .done (2, [recB, recA], []) ∧
      OrderedSRV (constLookup [recB, recA]) 0 zeroRand [] "sip" "tcp" "example.org"
        = .done (2, [recB, recA], none, [])) :=
  ⟨⟨rfl, (OrderedSRV_propagates (failingLookup "NXDOMAIN") 0 zeroRand [] "sip" "tcp"
      "example.org").1 "NXDOMAIN" rfl⟩,
   ⟨rfl, by decide, ((OrderedSRV_propagates (constLookup [recB, recA]) 0 zeroRand [] "sip" "tcp"
      "example.org").2.1 rfl).1 2 [recB, recA] [] (by decide)⟩⟩

/-- C8. On the input `[a, b, c, d]` with priorities and weights `(10, 0)`, `(0, 5)`,
`(0, 5)`, `(20, 1)`, every completed run of `OrderSRV` returns the count `4` and a list
of length `4` that is `[b, c, a, d]` or `[c, b, a, d]`; each of the two is returned for
some random source with draws in range. -/
theorem OrderSRV_example (ta tb tc td : String) (pa pb pc pd : Nat) :
    (∀ (fuel : Nat) (r : Rand) (log log' : List Int) (count : Int) (osrv : List SRV),
        OrderSRV fuel r log (exampleInput ta tb tc td pa pb pc pd) = .done (count, osrv, log') →
        count = 4 ∧ osrv.length = 4 ∧
          (osrv = [⟨tb, pb, 0, 5⟩, ⟨tc, pc, 0, 5⟩, ⟨ta, pa, 10, 0⟩, ⟨td, pd, 20, 1⟩] ∨
           osrv = [⟨tc, pc, 0, 5⟩, ⟨tb, pb, 0, 5⟩, ⟨ta, pa, 10, 0⟩, ⟨td, pd, 20, 1⟩])) ∧
      (∃ r : Rand, InRange r ∧ ∃ fuel log',
        OrderSRV fuel r [] (exampleInput ta tb tc td pa pb pc pd)
          = .done (4, [⟨tb, pb, 0, 5⟩, ⟨tc, pc, 0, 5⟩, ⟨ta, pa, 10, 0⟩, ⟨td, pd, 20, 1⟩], log')) ∧
      (∃ r : Rand, InRange r ∧ ∃ fuel log',
        OrderSRV fuel r [] (exampleInput ta tb tc td pa pb pc pd)
          = .done (4, [⟨tc, pc, 0, 5⟩, ⟨tb, pb, 0, 5⟩, ⟨ta, pa, 10, 0⟩, ⟨td, pd, 20, 1⟩], log')) := by
  refine ⟨?_, ?_, ?_⟩
  · intro fuel r log log' count osrv h
    have hlen : 2 ≤ (exampleInput ta tb tc td pa pb pc pd).length := by
      simp [exampleInput]
    obtain ⟨outs, hf, ho, hc⟩ := OrderSRV_blocks hlen h
    have hk : sortedKeys (exampleInput ta tb tc td pa pb pc pd) = [0, 10, 20] := rfl
    rw [hk] at hf
    cases hf with
    | cons h0 hf =>
      cases hf with
      | cons h10 hf =>
        cases hf with
        | cons h20 hf =>
          cases hf
          have e0 : (exampleInput ta tb tc td pa pb pc pd).filter (fun s => s.Priority = 0)
              = [⟨tb, pb, 0, 5⟩, ⟨tc, pc, 0, 5⟩] := rfl
          have e10 : (exampleInput ta tb tc td pa pb pc pd).filter (fun s => s.Priority = 10)
              = [⟨ta, pa, 10, 0⟩] := rfl
          have e20 : (exampleInput ta tb tc td pa pb pc pd).filter (fun s => s.Priority = 20)
              = [⟨td, pd, 20, 1⟩] := rfl
          rw [e0] at h0
          rw [e10] at h10
          rw [e20] at h20
          have h10' := List.perm_singleton.mp h10
          have h20' := List.perm_singleton.mp h20
          subst h10' h20'
          rcases perm_pair h0 with rfl | rfl
          · simp only [List.flatten, List.append_nil, List.cons_append, List.nil_append] at ho
            subst ho
            exact ⟨hc, rfl, Or.inl rfl⟩
          · simp only [List.flatten, List.append_nil, List.cons_append, List.nil_append] at ho
            subst ho
            exact ⟨hc, rfl, Or.inr rfl⟩
  · exact ⟨zeroRand, zeroRand_inRange, 2, [2, 10, 1, 5], rfl⟩
  · exact ⟨listRand [1], listRand_inRange [1], 2, [2, 10, 1, 5], rfl⟩

/-- Witness of C8: the records `a`, `b`, `c`, `d` with targets `"a"` to `"d"` and the
source that always draws `0`. -/
theorem OrderSRV_example_witness :
    OrderSRV 2 zeroRand [] (exampleInput "a" "b" "c" "d" 1 2 3 4)
        = .done (4, [recB, recC, recA, recD], [2, 10, 1, 5]) ∧
      ((4 : Int) = 4 ∧ [recB, recC, recA, recD].length = 4 ∧
        ([recB, recC, recA, recD]
            = [⟨"b", 2, 0, 5⟩, ⟨"c", 3, 0, 5⟩, ⟨"a", 1, 10, 0⟩, ⟨"d", 4, 20, 1⟩] ∨
         [recB, recC, recA, recD]
            = [⟨"c", 3, 0, 5⟩, ⟨"b", 2, 0, 5⟩, ⟨"a", 1, 10, 0⟩, ⟨"d", 4, 20, 1⟩])) :=
  ⟨by decide, (OrderSRV_example "a" "b" "c" "d" 1 2 3 4).1 2 zeroRand [] [2, 10, 1, 5] 4
    [recB, recC, recA, recD] (by decide)⟩

/-- C9. The acceptance test is monotone in the weight: with a positive total weight,
a threshold draw that accepts a record `y` accepts every record `x` of weight at least
that of `y`. On the group with weights `[10, 1, 1]`, of the `3 * 12` draw pairs of the
first iteration `11` place the record of weight `10` and `2` place each record of
weight `1`; the other pairs reject and change nothing but the draw log. -/
theorem weight_monotonicity :
    (∀ (r : Rand) (log logy : List Int) (tw rwy : Int) (x y : SRV),
        0 < tw → y.Weight ≤ x.Weight →
        threshold r log tw y = .done (rwy, logy) → rwy ≤ 0 →
        ∃ rwx, threshold r log tw x = .done (rwx, logy) ∧ rwx ≤ 0) ∧
      (drawPairs weightedGroup).length = 3 * 12 ∧
      placings weightedGroup heavy = 11 ∧
      placings weightedGroup light1 = 2 ∧
      placings weightedGroup light2 = 2 ∧
      placings weightedGroup light1 < placings weightedGroup heavy ∧
      placings weightedGroup light2 < placings weightedGroup heavy ∧
      (∀ p ∈ drawPairs weightedGroup, firstPlaced weightedGroup p.1 p.2 = none →
        loopBody (pairRand p.1 p.2) (initState weightedGroup [])
          = .done { initState weightedGroup [] with log := [3, 12] }) := by
  refine ⟨?_, by decide, by decide, by decide, by decide, by decide, by decide, by decide⟩
  intro r log logy tw rwy x y htw hw hy hle
  rw [threshold_pos r log y htw] at hy
  simp only [Outcome.done.injEq, Prod.mk.injEq] at hy
  obtain ⟨h1, h2⟩ := hy
  refine ⟨r log.length tw - (x.Weight : Int), ?_, ?_⟩
  · rw [threshold_pos r log x htw, h2]
  · have : (y.Weight : Int) ≤ (x.Weight : Int) := by exact_mod_cast hw
    omega

/-- Witness of C9: total weight `12`, threshold draw `1`, weights `10` and `1`. -/
theorem weight_monotonicity_witness :
    (0 : Int) < 12 ∧ light1.Weight ≤ heavy.Weight ∧
      threshold (pairRand 1 1) [3] 12 light1 = .done (0, [3, 12]) ∧ (0 : Int) ≤ 0 ∧
      ∃ rwx, threshold (pairRand 1 1) [3] 12 heavy = .done (rwx, [3, 12]) ∧ rwx ≤ 0 :=
  ⟨by decide, by decide, by decide, le_refl _,
    weight_monotonicity.1 (pairRand 1 1) [3] [3, 12] 12 0 heavy light1 (by decide) (by decide)
      (by decide) (le_refl _)⟩

/-! ## Termination -/

theorem loop_of_nonpos (r : Rand) (fuel : Nat) {st : LoopState} (h : st.l ≤ 0) :
    loop r fuel st = .done st := by
  cases fuel <;> simp [loop, not_lt.mpr h]

theorem loop_succ (r : Rand) (fuel : Nat) {st : LoopState} (h : 0 < st.l) :
    loop r (fuel + 1) st = (loopBody r st).bind (loop r fuel) := by
  simp [loop, h]

/-- A run of rejections ends within `m + 1` iterations when one of the next `m + 1`
threshold draws is `0` (or the total weight is not positive): the pool then loses one
record. -/
theorem loop_accepts_within {r : Rand} (hr : InRange r) (m : Nat) {st : LoopState}
    (hinv : LoopInv st) (hl : 0 < st.l)
    (hz : st.tw ≤ 0 ∨ ∃ j, j ≤ m ∧ r (st.log.length + 2 * j + 1) st.tw = 0) :
    ∃ n st1, n ≤ m + 1 ∧ LoopInv st1 ∧ st1.l = st.l - 1 ∧
      ∀ fuel, loop r (fuel + n) st = loop r fuel st1 := by
  induction m generalizing st with
  | zero =>
    obtain ⟨st1, hb⟩ := loopBody_total hr hinv hl
    obtain ⟨_, hinv1, s, _, hcase⟩ := loopBody_eq_done hinv hb
    rcases hcase with ⟨htw, hrej, _⟩ | ⟨_, _, _, hl1, _⟩
    · rcases hz with hz | ⟨j, hj, hz⟩
      · omega
      · have hj0 : j = 0 := by omega
        subst hj0
        simp only [Nat.mul_zero, Nat.add_zero] at hz
        rw [hz] at hrej
        have : (0 : Int) ≤ (s.Weight : Int) := Int.ofNat_nonneg _
        omega
    · exact ⟨1, st1, le_refl _, hinv1, hl1, fun fuel => by
        rw [loop_succ r fuel hl, hb, Outcome.bind_done]⟩
  | succ m ih =>
    obtain ⟨st1, hb⟩ := loopBody_total hr hinv hl
    obtain ⟨_, hinv1, s, _, hcase⟩ := loopBody_eq_done hinv hb
    rcases hcase with ⟨htw, hrej, hst1⟩ | ⟨_, _, _, hl1, _⟩
    · rcases hz with hz | ⟨j, hj, hz⟩
      · omega
      · have hj0 : j ≠ 0 := by
          intro h0
          subst h0
          simp only [Nat.mul_zero, Nat.add_zero] at hz
          rw [hz] at hrej
          have : (0 : Int) ≤ (s.Weight : Int) := Int.ofNat_nonneg _
          omega
        obtain ⟨j', rfl⟩ : ∃ j', j = j' + 1 := ⟨j - 1, by omega⟩
        have hl1 : 0 < st1.l := by rw [hst1]; exact hl
        have hz1 : st1.tw ≤ 0 ∨ ∃ j, j ≤ m ∧ r (st1.log.length + 2 * j + 1) st1.tw = 0 := by
          refine Or.inr ⟨j', by omega, ?_⟩
          have hidx : st1.log.length + 2 * j' + 1 = st.log.length + 2 * (j' + 1) + 1 := by
            rw [hst1]
            simp only [List.length_append, List.length_cons, List.length_nil]
            omega
          rw [hidx, hst1]
          exact hz
        obtain ⟨n, st2, hn, hinv2, hl2, hloop⟩ := ih hinv1 hl1 hz1
        refine ⟨n + 1, st2, by omega, hinv2, ?_, fun fuel => ?_⟩
        · rw [hl2, hst1]
        · rw [← Nat.add_assoc, loop_succ r (fuel + n) hl, hb, Outcome.bind_done]
          exact hloop fuel
    · exact ⟨1, st1, by omega, hinv1, hl1, fun fuel => by
        rw [loop_succ r fuel hl, hb, Outcome.bind_done]⟩

/-- With a source that cannot reject for ever the loop ends within `B` iterations per
record of the pool. -/
theorem loop_total {r : Rand} (hr : InRange r) {B : Nat} (hB : EventuallyZero r B) (N : Nat)
    {st : LoopState} (hinv : LoopInv st) (hN : st.l ≤ N) :
    ∃ st', loop r (B * N) st = .done st' := by
  induction N generalizing st with
  | zero => exact ⟨st, loop_of_nonpos r _ (by simpa using hN)⟩
  | succ N ih =>
    by_cases hl : 0 < st.l
    · have hz : st.tw ≤ 0 ∨ ∃ j, j ≤ B - 1 ∧ r (st.log.length + 2 * j + 1) st.tw = 0 := by
        by_cases htw : 0 < st.tw
        · obtain ⟨j, hj, hz⟩ := hB st.log.length st.tw htw
          exact Or.inr ⟨j, by omega, hz⟩
        · exact Or.inl (not_lt.mp htw)
      obtain ⟨n, st1, hn, hinv1, hl1, hloop⟩ := loop_accepts_within hr (B - 1) hinv hl hz
      have hB0 : 0 < B := by
        obtain ⟨j, hj, _⟩ := hB 0 1 one_pos
        omega
      have hN1 : st1.l ≤ N := by
        rw [hl1]
        push_cast at hN
        omega
      obtain ⟨st', hdone⟩ := ih hinv1 hN1
      refine ⟨st', ?_⟩
      have hfuel : B * (N + 1) = (B * (N + 1) - n) + n := by
        have : n ≤ B * (N + 1) := by
          calc n ≤ B := by omega
            _ ≤ B * (N + 1) := Nat.le_mul_of_pos_right B (Nat.succ_pos N)
        omega
      rw [hfuel, hloop]
      refine loop_mono ?_ hdone
      rw [Nat.mul_succ]
      omega
    · exact ⟨st, loop_of_nonpos r _ (not_lt.mp hl)⟩

theorem weightedOrder_total {r : Rand} (hr : InRange r) {B : Nat} (hB : EventuallyZero r B)
    (log : List Int) (srvs : List SRV) :
    ∃ res, weightedOrder (B * srvs.length) r log srvs = .done res := by
  by_cases hlen : srvs.length < 2
  · exact ⟨_, weightedOrder_short _ r log hlen⟩
  · rw [weightedOrder_long _ r log (not_lt.mp hlen)]
    obtain ⟨st', h⟩ := loop_total hr hB srvs.length (initState_inv srvs log)
      (le_of_eq (by simp [initState]))
    rw [h]
    exact ⟨_, rfl⟩

theorem groupsLoop_total {r : Rand} (hr : InRange r) {B : Nat} (hB : EventuallyZero r B)
    (N : Nat) (m : PrioMap) (ps : List Nat) (hps : ∀ p ∈ ps, (m.get p).length ≤ N)
    (count : Int) (osrv : List SRV) (log : List Int) :
    ∃ res, groupsLoop (B * N) r m ps count osrv log = .done res := by
  induction ps generalizing count osrv log with
  | nil => exact ⟨_, rfl⟩
  | cons p ps ih =>
    unfold groupsLoop
    obtain ⟨⟨tos, log1⟩, hw⟩ := weightedOrder_total hr hB log (m.get p)
    have hle : B * (m.get p).length ≤ B * N :=
      Nat.mul_le_mul_left B (hps p (List.mem_cons_self _ _))
    rw [weightedOrder_mono hle hw, Outcome.bind_done]
    exact ih (fun q hq => hps q (List.mem_cons_of_mem _ hq)) _ _ _

theorem stuckRand_inRange : InRange stuckRand := by
  intro k n hn
  unfold stuckRand
  split
  · exact ⟨le_refl _, hn⟩
  · constructor <;> omega

theorem loop_stuck (fuel : Nat) (log : List Int) (hlog : log.length % 2 = 0) :
    loop stuckRand fuel { initState stuckInput [] with log := log } = .outOfFuel := by
  induction fuel generalizing log with
  | zero => rfl
  | succ fuel ih =>
    have hb : loopBody stuckRand { initState stuckInput [] with log := log }
        = .done { initState stuckInput [] with log := log ++ [2, 5] } := by
      have h1 : (log.length + 1) % 2 ≠ 0 := by omega
      simp [loopBody, Intn, index, threshold, stuckRand, hlog, h1, initState, stuckInput,
        totalWeight]
    have hl : 0 < ({ initState stuckInput [] with log := log } : LoopState).l := by
      simp [initState, stuckInput]
    rw [loop_succ stuckRand fuel hl, hb, Outcome.bind_done]
    apply ih
    simp only [List.length_append, List.length_cons, List.length_nil]
    omega

/-- C5, the input on which the claim fails: on `stuckInput` the source `stuckRand`, all
of whose draws are in range, draws the record of weight `0` and the threshold `4` for
ever, so `OrderSRV` returns for no bound on the number of iterations. -/
theorem OrderSRV_rejects_forever :
    InRange stuckRand ∧ ∀ fuel, OrderSRV fuel stuckRand [] stuckInput = .outOfFuel := by
  refine ⟨stuckRand_inRange, fun fuel => ?_⟩
  have hlen : 2 ≤ stuckInput.length := by decide
  rw [OrderSRV_long_eq fuel stuckRand [] hlen]
  have hk : sortedKeys stuckInput = [0] := rfl
  have hg : (buildPrioMap stuckInput).get 0 = stuckInput := rfl
  rw [hk]
  unfold groupsLoop
  rw [hg, weightedOrder_long fuel stuckRand [] hlen]
  have := loop_stuck fuel [] rfl
  simp only [initState] at this ⊢
  rw [this]
  rfl

/-- C5, amended. With draws in range `OrderSRV` never panics, whatever the bound on the
iterations; and for a source that cannot reject for ever (one threshold draw in any `B`
successive ones is `0`) it returns a result, the same for every bound of at least `B`
iterations per record. -/
theorem OrderSRV_total_of_eventually_zero (r : Rand) (hr : InRange r) (log : List Int)
    (addrs : List SRV) :
    (∀ fuel, OrderSRV fuel r log addrs ≠ .panic) ∧
      ∀ B, EventuallyZero r B →
        ∃ res, ∀ fuel, B * addrs.length ≤ fuel → OrderSRV fuel r log addrs = .done res := by
  refine ⟨fun fuel => OrderSRV_ne_panic hr fuel log addrs, fun B hB => ?_⟩
  by_cases hlen : addrs.length < 2
  · exact ⟨_, fun fuel _ => OrderSRV_short_eq fuel r log hlen⟩
  · have hps : ∀ p ∈ sortedKeys addrs, ((buildPrioMap addrs).get p).length ≤ addrs.length := by
      intro p _
      rw [buildPrioMap_get]
      exact List.length_filter_le _ _
    obtain ⟨res, h⟩ := groupsLoop_total hr hB addrs.length (buildPrioMap addrs)
      (sortedKeys addrs) hps 0 [] log
    refine ⟨res, fun fuel hfuel => ?_⟩
    rw [OrderSRV_long_eq fuel r log (not_lt.mp hlen)]
    exact groupsLoop_mono hfuel h

/-- Witness of the amended C5: the source that always draws `0`, on `[a, b, c, d]`. -/
theorem OrderSRV_total_of_eventually_zero_witness :
    InRange zeroRand ∧ EventuallyZero zeroRand 1 ∧
      ((∀ fuel, OrderSRV fuel zeroRand [] [recA, recB, recC, recD] ≠ .panic) ∧
        ∃ res, ∀ fuel, 1 * [recA, recB, recC, recD].length ≤ fuel →
          OrderSRV fuel zeroRand [] [recA, recB, recC, recD] = .done res) :=
  have hz : EventuallyZero zeroRand 1 := fun _ _ _ => ⟨0, Nat.one_pos, rfl⟩
  have h := OrderSRV_total_of_eventually_zero zeroRand zeroRand_inRange []
    [recA, recB, recC, recD]
  ⟨zeroRand_inRange, hz, h.1, h.2 1 hz⟩

/-! ## The total weight -/

theorem foldl_weight (l : List SRV) (a : Int) :
    l.foldl (fun tw s => tw + (s.Weight : Int)) a
      = a + (l.map fun s => (s.Weight : Int)).sum := by
  induction l generalizing a with
  | nil => simp
  | cons s l ih =>
    rw [List.foldl_cons, ih]
    simp only [List.map_cons, List.sum_cons]
    ring

theorem totalWeight_eq_sum (l : List SRV) :
    totalWeight l = (l.map fun s => (s.Weight : Int)).sum := by
  unfold totalWeight
  rw [foldl_weight]
  simp

theorem totalWeight_cons (s : SRV) (l : List SRV) :
    totalWeight (s :: l) = (s.Weight : Int) + totalWeight l := by
  simp [totalWeight_eq_sum]

theorem totalWeight_perm {l l' : List SRV} (h : List.Perm l l') :
    totalWeight l = totalWeight l' := by
  rw [totalWeight_eq_sum, totalWeight_eq_sum]
  exact (h.map _).sum_eq

theorem totalWeight_nonneg (l : List SRV) : 0 ≤ totalWeight l := by
  induction l with
  | nil => simp [totalWeight]
  | cons s l ih =>
    rw [totalWeight_cons]
    have : (0 : Int) ≤ (s.Weight : Int) := Int.ofNat_nonneg _
    omega

theorem totalWeight_eq_zero_iff (l : List SRV) :
    totalWeight l = 0 ↔ ∀ x ∈ l, x.Weight = 0 := by
  induction l with
  | nil => simp [totalWeight]
  | cons s l ih =>
    rw [totalWeight_cons]
    have h1 : (0 : Int) ≤ (s.Weight : Int) := Int.ofNat_nonneg _
    have h2 := totalWeight_nonneg l
    constructor
    · intro h x hx
      rcases List.mem_cons.mp hx with rfl | hx
      · omega
      · exact ih.mp (by omega) x hx
    · intro h
      have hs := h s (List.mem_cons_self _ _)
      have hl := ih.mpr (fun x hx => h x (List.mem_cons_of_mem _ hx))
      omega

theorem pool_initState_eq (srvs : List SRV) (log : List Int) :
    pool (initState srvs log) = srvs := by
  cases srvs with
  | nil => simp [pool, initState]
  | cons a l =>
    have : (0 : Int) < ((a :: l).length : Int) := by
      simp only [List.length_cons]
      omega
    simp [pool, initState, this]

theorem initState_twInv (srvs : List SRV) (log : List Int) : TwInv (initState srvs log) := by
  unfold TwInv
  rw [pool_initState_eq]
  rfl

theorem loopBody_twInv {r : Rand} {st st' : LoopState} (hinv : LoopInv st) (htw : TwInv st)
    (h : loopBody r st = .done st') : TwInv st' := by
  obtain ⟨_, _, s, _, hcase⟩ := loopBody_eq_done hinv h
  unfold TwInv at htw ⊢
  rcases hcase with ⟨_, _, rfl⟩ | ⟨_, ht, hp, _, _⟩
  · exact htw
  · rw [ht, htw, ← totalWeight_perm hp, totalWeight_cons]
    omega

/-- The invariants hold at the start of every iteration. -/
theorem stateAfter_inv {r : Rand} {n : Nat} {st0 st : LoopState} (hinv : LoopInv st0)
    (htw : TwInv st0) (h : stateAfter r n st0 = .done st) : LoopInv st ∧ TwInv st := by
  induction n generalizing st0 with
  | zero =>
    simp only [stateAfter, Outcome.done.injEq] at h
    subst h
    exact ⟨hinv, htw⟩
  | succ n ih =>
    unfold stateAfter at h
    split at h
    · obtain ⟨st1, hb, h1⟩ := Outcome.bind_eq_done h
      exact ih (loopBody_eq_done hinv hb).2.1 (loopBody_twInv hinv htw hb) h1
    · simp only [Outcome.done.injEq] at h
      subst h
      exact ⟨hinv, htw⟩

/-- C6, the input on which the claim fails: on the group `stuckInput`, whose first
record has weight `0`, the source that always draws `0` selects that record in the
first iteration, while the pool still holds both records and the total weight is `5`. -/
theorem zero_weight_selected_early :
    (stuckInput.map SRV.Weight = [0, 5]) ∧
      (pool (initState stuckInput [])).length = 2 ∧
      loopBody zeroRand (initState stuckInput [])
        = .done { srvs := [{ Target := "y", Port := 2, Priority := 0, Weight := 5 }],
                  osrv := [{ Target := "x", Port := 1, Priority := 0, Weight := 0 }],
                  l := 1, tw := 5, log := [2, 5] } ∧
      weightedOrder 2 zeroRand [] stuckInput = .done (stuckInput, [2, 5, 1, 5]) := by
  decide

/-- C6, amended. In a run of `weightedOrder` with draws in range, an iteration that
selects a record of weight `0` either drew the threshold `0` (while the total weight
was positive) or found a pool whose records all have weight `0` (as is the case when
the record is the last one of the pool): a record of weight `0` is never selected on a
positive threshold draw. -/
theorem zero_weight_selection (r : Rand) (hr : InRange r) (g : List SRV) (log : List Int)
    (n : Nat) (st st' : LoopState) (s : SRV)
    (hst : stateAfter r n (initState g log) = .done st)
    (hb : loopBody r st = .done st') (hsel : st'.osrv = st.osrv ++ [s])
    (hw : s.Weight = 0) :
    (0 < st.tw ∧ r (st.log.length + 1) st.tw = 0) ∨ ∀ x ∈ pool st, x.Weight = 0 := by
  obtain ⟨hinv, htw⟩ := stateAfter_inv (initState_inv g log) (initState_twInv g log) hst
  obtain ⟨_, _, s', _, hcase⟩ := loopBody_eq_done hinv hb
  rcases hcase with ⟨_, _, rfl⟩ | ⟨ho, _, _, _, hdraw⟩
  · simp at hsel
  · have hs : s' = s := by
      rw [ho] at hsel
      simpa using hsel
    subst hs
    rcases hdraw with ⟨hpos, hle, _⟩ | ⟨hnonpos, _⟩
    · left
      refine ⟨hpos, ?_⟩
      have h0 := (hr (st.log.length + 1) st.tw hpos).1
      rw [hw] at hle
      simp only [Nat.cast_zero, sub_zero] at hle
      omega
    · right
      unfold TwInv at htw
      have h0 := totalWeight_nonneg (pool st)
      exact (totalWeight_eq_zero_iff (pool st)).mp (by omega)

/-- Witness of the amended C6: the first iteration on `stuckInput` with the source that
always draws `0`. -/
theorem zero_weight_selection_witness :
    InRange zeroRand ∧
      stateAfter zeroRand 0 (initState stuckInput []) = .done (initState stuckInput []) ∧
      loopBody zeroRand (initState stuckInput [])
        = .done { srvs := [{ Target := "y", Port := 2, Priority := 0, Weight := 5 }],
                  osrv := [{ Target := "x", Port := 1, Priority := 0, Weight := 0 }],
                  l := 1, tw := 5, log := [2, 5] } ∧
      ({ Target := "x", Port := 1, Priority := 0, Weight := 0 } : SRV).Weight = 0 ∧
      ((0 < (initState stuckInput []).tw ∧
          zeroRand ((initState stuckInput []).log.length + 1) (initState stuckInput []).tw = 0) ∨
        ∀ x ∈ pool (initState stuckInput []), x.Weight = 0) :=
  ⟨zeroRand_inRange, rfl, by decide, rfl,
    zero_weight_selection zeroRand zeroRand_inRange stuckInput [] 0 (initState stuckInput [])
      { srvs := [{ Target := "y", Port := 2, Priority := 0, Weight := 5 }],
        osrv := [{ Target := "x", Port := 1, Priority := 0, Weight := 0 }],
        l := 1, tw := 5, log := [2, 5] }
      { Target := "x", Port := 1, Priority := 0, Weight := 0 }
      rfl (by decide) (by decide) rfl⟩

/-! ## Groups whose records all have weight zero -/

theorem drawsOf_valid {r : Rand} (hr : InRange r) (k m : Nat) :
    ValidDraws m (drawsOf r k m) := by
  induction m generalizing k with
  | zero => rfl
  | succ m ih =>
    have hpos : (0 : Int) < ((m + 1 : Nat) : Int) := by omega
    obtain ⟨h0, h1⟩ := hr k _ hpos
    exact ⟨by omega, ih (k + 1)⟩

theorem validDraws_length {n : Nat} {ds : List Nat} (h : ValidDraws n ds) : ds.length = n := by
  induction n generalizing ds with
  | zero =>
    simp only [ValidDraws] at h
    rw [h]
    rfl
  | succ n ih =>
    cases ds with
    | nil => exact absurd h (by simp [ValidDraws])
    | cons d ds =>
      simp only [ValidDraws] at h
      simp [ih h.2]

theorem drawsOf_listRand (m : Nat) (pre ds : List Nat) (h : ValidDraws m ds) :
    drawsOf (listRand (pre ++ ds)) pre.length m = ds := by
  induction m generalizing pre ds with
  | zero =>
    simp only [ValidDraws] at h
    rw [h]
    rfl
  | succ m ih =>
    cases ds with
    | nil => exact absurd h (by simp [ValidDraws])
    | cons d ds =>
      simp only [ValidDraws] at h
      obtain ⟨hd, hds⟩ := h
      have htail := ih (pre ++ [d]) ds hds
      simp only [List.append_assoc, List.singleton_append, List.length_append,
        List.length_singleton] at htail
      have hhead : (listRand (pre ++ d :: ds) pre.length ((m + 1 : Nat) : Int)).toNat = d := by
        unfold listRand
        have hget : (pre ++ d :: ds).getD pre.length 0 = d := by
          clear htail ih
          induction pre with
          | nil => rfl
          | cons a pre ih => simpa using ih
        rw [hget]
        have : ((d : Nat) : Int) % ((m + 1 : Nat) : Int) = (d : Int) :=
          Int.emod_eq_of_lt (Int.ofNat_nonneg _) (by omega)
        rw [this]
        rfl
      simp only [drawsOf, hhead, htail]

theorem mem_allDraws (n : Nat) (ds : List Nat) : ds ∈ allDraws n ↔ ValidDraws n ds := by
  induction n generalizing ds with
  | zero => simp [allDraws, ValidDraws]
  | succ n ih =>
    cases ds with
    | nil => simp [allDraws, ValidDraws]
    | cons d ds =>
      simp only [allDraws, List.mem_map, Prod.exists, List.pair_mem_product, List.mem_range,
        List.cons.injEq, ValidDraws, ih]
      constructor
      · rintro ⟨a, b, ⟨ha, hb⟩, rfl, rfl⟩
        exact ⟨ha, hb⟩
      · rintro ⟨hd, hds⟩
        exact ⟨d, ds, ⟨hd, hds⟩, rfl, rfl⟩

theorem length_allDraws (n : Nat) : (allDraws n).length = n.factorial := by
  induction n with
  | zero => rfl
  | succ n ih =>
    have h := List.length_product (List.range (n + 1)) (allDraws n)
    rw [List.length_range, ih] at h
    simp only [allDraws, List.length_map, Nat.factorial_succ]
    exact h

theorem get?_of_lt (srvs : List SRV) (d : Nat) (h : d < srvs.length) :
    ∃ s, srvs.get? d = some s := ⟨srvs.get ⟨d, h⟩, List.get?_eq_get h⟩

theorem pickAll_cons {srvs : List SRV} {d : Nat} {s last : SRV} (ds : List Nat)
    (hs : srvs.get? d = some s) (hl : srvs.get? (srvs.length - 1) = some last) :
    pickAll (d :: ds) srvs = s :: pickAll ds (swapTruncate srvs d s last) := by
  simp only [pickAll, hs, hl]

/-- Two draw sequences that empty a pool of distinct records in the same order are equal. -/
theorem pickAll_injective (m : Nat) (srvs : List SRV) (ds ds' : List Nat)
    (hlen : srvs.length = m) (hnd : srvs.Nodup) (hv : ValidDraws m ds)
    (hv' : ValidDraws m ds') (h : pickAll ds srvs = pickAll ds' srvs) : ds = ds' := by
  induction m generalizing srvs ds ds' with
  | zero =>
    simp only [ValidDraws] at hv hv'
    rw [hv, hv']
  | succ m ih =>
    cases ds with
    | nil => exact absurd hv (by simp [ValidDraws])
    | cons d t =>
      cases ds' with
      | nil => exact absurd hv' (by simp [ValidDraws])
      | cons d' t' =>
        simp only [ValidDraws] at hv hv'
        obtain ⟨hd, ht⟩ := hv
        obtain ⟨hd', ht'⟩ := hv'
        obtain ⟨s, hs⟩ := get?_of_lt srvs d (by omega)
        obtain ⟨s', hs'⟩ := get?_of_lt srvs d' (by omega)
        obtain ⟨last, hl⟩ := get?_of_lt srvs (srvs.length - 1) (by omega)
        rw [pickAll_cons t hs hl, pickAll_cons t' hs' hl] at h
        simp only [List.cons.injEq] at h
        obtain ⟨hss, htail⟩ := h
        subst hss
        have hdd : d = d' := by
          apply List.getElem?_inj (by omega) hnd
          simpa only [List.get?_eq_getElem?] using hs.trans hs'.symm
        subst hdd
        have hperm := swapTruncate_perm hs hl
        have hnd1 : (swapTruncate srvs d s last).Nodup :=
          (List.nodup_cons.mp (hperm.nodup_iff.mpr hnd)).2
        have hlen1 : (swapTruncate srvs d s last).length = m := by
          rw [swapTruncate_length]
          omega
        rw [ih _ t t' hlen1 hnd1 ht ht' htail]

/-- Every rearrangement of a pool is the order in which some draw sequence empties it. -/
theorem pickAll_surjective (m : Nat) (srvs p : List SRV) (hlen : srvs.length = m)
    (hp : List.Perm p srvs) : ∃ ds, ValidDraws m ds ∧ pickAll ds srvs = p := by
  induction m generalizing srvs p with
  | zero =>
    have h1 : srvs = [] := List.length_eq_zero.mp hlen
    subst h1
    have h2 : p = [] := List.perm_nil.mp hp
    subst h2
    exact ⟨[], rfl, rfl⟩
  | succ m ih =>
    cases p with
    | nil =>
      have := hp.length_eq
      simp only [List.length_nil] at this
      omega
    | cons s p' =>
      have hmem : s ∈ srvs := hp.mem_iff.mp (List.mem_cons_self _ _)
      obtain ⟨d, hs⟩ := List.mem_iff_get?.mp hmem
      have hd : d < srvs.length := by
        by_contra hcon
        rw [List.get?_eq_none.mpr (not_lt.mp hcon)] at hs
        simp at hs
      obtain ⟨last, hl⟩ := get?_of_lt srvs (srvs.length - 1) (by omega)
      have hperm := swapTruncate_perm hs hl
      have hp' : List.Perm p' (swapTruncate srvs d s last) :=
        List.Perm.cons_inv (hp.trans hperm.symm)
      have hlen1 : (swapTruncate srvs d s last).length = m := by
        rw [swapTruncate_length]
        omega
      obtain ⟨ds, hv, hpick⟩ := ih _ p' hlen1 hp'
      refine ⟨d :: ds, ⟨by omega, hv⟩, ?_⟩
      rw [pickAll_cons ds hs hl, hpick]

/-- An iteration entered with a total weight that is not positive draws no threshold
and accepts its candidate. -/
theorem loopBody_of_nonpos_tw (r : Rand) {st : LoopState} {s : SRV} (hl : 0 < st.l)
    (htw : st.tw ≤ 0) (hs : index st.srvs (r st.log.length st.l) = .done s) :
    loopBody r st = accept st (r st.log.length st.l) s (st.log ++ [st.l]) := by
  unfold loopBody
  rw [Intn_pos r _ hl]
  simp only [Outcome.bind_done, hs]
  rw [threshold_nonpos r _ s htw]
  simp only [Outcome.bind_done, le_refl, if_true]

/-- On a pool of `m` records of weight `0` the loop ends after `m` iterations; it makes
`m` index draws, with the bounds `m`, `m - 1`, ..., `1`, and no threshold draw, and it
places the records in the order in which these draws empty the pool. -/
theorem loop_zero_weight {r : Rand} (hr : InRange r) (m : Nat) {st : LoopState}
    (hinv : LoopInv st) (hl : st.l = (m : Int)) (htw : st.tw = 0)
    (hw : ∀ x ∈ pool st, x.Weight = 0) :
    ∃ st', loop r m st = .done st' ∧
      st'.osrv = st.osrv ++ pickAll (drawsOf r st.log.length m) st.srvs ∧
      st'.log = st.log ++ countdown m := by
  induction m generalizing st with
  | zero =>
    refine ⟨st, loop_of_nonpos r 0 (by rw [hl]; rfl), ?_, ?_⟩
    · simp [drawsOf, pickAll]
    · simp [countdown]
  | succ m ih =>
    have hpos : 0 < st.l := by rw [hl]; omega
    have hlen : (st.srvs.length : Int) = ((m + 1 : Nat) : Int) := by rw [← hinv hpos, hl]
    have hlen' : st.srvs.length = m + 1 := by exact_mod_cast hlen
    obtain ⟨hi0, hi1⟩ := hr st.log.length st.l hpos
    have hi1' : r st.log.length st.l < (st.srvs.length : Int) := by rw [← hinv hpos]; exact hi1
    obtain ⟨s, hs, hget⟩ := index_of_lt hi0 hi1'
    have hpool : pool st = st.srvs := by simp [pool, hpos]
    have hsw : s.Weight = 0 := by
      apply hw
      rw [hpool]
      exact List.mem_iff_get?.mpr ⟨_, hget⟩
    obtain ⟨last, hlast⟩ := get?_of_lt st.srvs (st.srvs.length - 1) (by omega)
    have hbody := loopBody_of_nonpos_tw r hpos (le_of_eq htw) hs
    have hdraws : drawsOf r st.log.length (m + 1)
        = (r st.log.length st.l).toNat :: drawsOf r (st.log.length + 1) m := by
      rw [hl]
      rfl
    rw [loop_succ r m hpos, hbody, hdraws, pickAll_cons _ hget hlast]
    unfold accept
    by_cases hgt : st.srvs.length > 1
    · have h0 : (0 : Int) ≤ (st.srvs.length : Int) - 1 := by omega
      have h1 : (st.srvs.length : Int) - 1 < (st.srvs.length : Int) := by omega
      obtain ⟨last', hlast', hgl⟩ := index_of_lt h0 h1
      have hnat : ((st.srvs.length : Int) - 1).toNat = st.srvs.length - 1 := by omega
      rw [hnat, hlast] at hgl
      simp only [Option.some.injEq] at hgl
      subst hgl
      rw [if_pos hgt, hlast', Outcome.bind_done, Outcome.bind_done]
      have hlen1 : (swapTruncate st.srvs (r st.log.length st.l).toNat s last).length = m := by
        rw [swapTruncate_length]
        omega
      have hperm := swapTruncate_perm hget hlast
      have hw1 : ∀ x ∈ pool
          { srvs := swapTruncate st.srvs (r st.log.length st.l).toNat s last,
            osrv := st.osrv ++ [s],
            l := (swapTruncate st.srvs (r st.log.length st.l).toNat s last).length,
            tw := st.tw - (s.Weight : Int), log := st.log ++ [st.l] }, x.Weight = 0 := by
        intro x hx
        apply hw
        rw [hpool]
        have hx' : x ∈ swapTruncate st.srvs (r st.log.length st.l).toNat s last := by
          simp only [pool] at hx
          split at hx
          · exact hx
          · simp at hx
        exact hperm.mem_iff.mp (List.mem_cons_of_mem _ hx')
      obtain ⟨st', hloop, ho, hlog⟩ := ih (fun _ => rfl) (by simp only [hlen1])
        (by simp [htw, hsw]) hw1
      refine ⟨st', hloop, ?_, ?_⟩
      · rw [ho]
        simp
      · rw [hlog, hl]
        simp [countdown]
    · rw [if_neg hgt, Outcome.bind_done]
      have hm0 : m = 0 := by omega
      subst hm0
      refine ⟨_, loop_of_nonpos r 0 (le_refl _), ?_, ?_⟩
      · simp [drawsOf, pickAll]
      · rw [hl]
        simp [countdown]

/-- On a group of two or more records of weight `0`, `weightedOrder` returns after as
many iterations as the group has records, with the order fixed by its index draws. -/
theorem weightedOrder_zero_weight {r : Rand} (hr : InRange r) (log : List Int)
    {g : List SRV} (hn : 2 ≤ g.length) (hw : ∀ s ∈ g, s.Weight = 0) :
    weightedOrder g.length r log g
      = .done (pickAll (drawsOf r log.length g.length) g, log ++ countdown g.length) := by
  rw [weightedOrder_long _ r log hn]
  obtain ⟨st', hloop, ho, hlog⟩ := loop_zero_weight hr g.length (initState_inv g log)
    rfl ((totalWeight_eq_zero_iff g).mpr hw) (by rw [pool_initState_eq]; exact hw)
  rw [hloop, Outcome.bind_done, ho, hlog]
  simp [initState]

/-- C10. On a group of `n ≥ 2` distinct records of weight `0`, `weightedOrder` run with
draws in range returns after `n` index draws with the bounds `n`, `n - 1`, ..., `1` and
no threshold draw, a rearrangement of the group. There are `n!` draw sequences and `n!`
rearrangements of the group; every draw sequence gives a rearrangement, and every
rearrangement is given by exactly one draw sequence. -/
theorem zero_weight_uniform (g : List SRV) (hn : 2 ≤ g.length) (hd : g.Nodup)
    (hw : ∀ s ∈ g, s.Weight = 0) :
    (∀ (r : Rand) (log : List Int), InRange r →
        ∃ out, weightedOrder g.length r log g = .done (out, log ++ countdown g.length) ∧
          List.Perm out g ∧ (countdown g.length).length = g.length) ∧
      ((allDraws g.length).length = g.length.factorial ∧
        g.permutations.length = g.length.factorial ∧
        ∀ ds, ds ∈ allDraws g.length ↔ ValidDraws g.length ds) ∧
      (∀ ds ∈ allDraws g.length, ∃ p, List.Perm p g ∧
        weightedOrder g.length (listRand ds) [] g = .done (p, countdown g.length)) ∧
      (∀ p, List.Perm p g → ∃! ds, ds ∈ allDraws g.length ∧
        weightedOrder g.length (listRand ds) [] g = .done (p, countdown g.length)) := by
  have hrun : ∀ ds, ValidDraws g.length ds →
      weightedOrder g.length (listRand ds) [] g = .done (pickAll ds g, countdown g.length) := by
    intro ds hv
    have h := weightedOrder_zero_weight (listRand_inRange ds) [] hn hw
    have hdraws := drawsOf_listRand g.length [] ds hv
    simp only [List.nil_append, List.length_nil] at hdraws h
    rw [h, hdraws]
  have hcount : ∀ n, (countdown n).length = n := by
    intro n
    induction n with
    | zero => rfl
    | succ n ih => simp [countdown, ih]
  refine ⟨?_, ⟨length_allDraws _, List.length_permutations g, mem_allDraws _⟩, ?_, ?_⟩
  · intro r log hr
    have h := weightedOrder_zero_weight hr log hn hw
    exact ⟨_, h, weightedOrder_perm h, hcount _⟩
  · intro ds hds
    have h := hrun ds ((mem_allDraws _ ds).mp hds)
    exact ⟨_, weightedOrder_perm h, h⟩
  · intro p hp
    obtain ⟨ds, hv, hpick⟩ := pickAll_surjective g.length g p rfl hp
    refine ⟨ds, ⟨(mem_allDraws _ ds).mpr hv, by rw [hrun ds hv, hpick]⟩, ?_⟩
    rintro ds' ⟨hds', hrun'⟩
    have hv' := (mem_allDraws _ ds').mp hds'
    rw [hrun ds' hv'] at hrun'
    simp only [Outcome.done.injEq, Prod.mk.injEq, and_true] at hrun'
    exact pickAll_injective g.length g ds' ds rfl hd hv' hv (hrun'.trans hpick.symm)

/-- Witness of C10: the group `fiveZero` of five records of weight `0`, with its `120`
draw sequences and its `120` orders. -/
theorem zero_weight_uniform_witness :
    2 ≤ fiveZero.length ∧ fiveZero.Nodup ∧ (∀ s ∈ fiveZero, s.Weight = 0) ∧
      (Nat.factorial fiveZero.length = 120) ∧
      ((∀ (r : Rand) (log : List Int), InRange r →
          ∃ out, weightedOrder fiveZero.length r log fiveZero
              = .done (out, log ++ countdown fiveZero.length) ∧
            List.Perm out fiveZero ∧ (countdown fiveZero.length).length = fiveZero.length) ∧
        ((allDraws fiveZero.length).length = fiveZero.length.factorial ∧
          fiveZero.permutations.length = fiveZero.length.factorial ∧
          ∀ ds, ds ∈ allDraws fiveZero.length ↔ ValidDraws fiveZero.length ds) ∧
        (∀ ds ∈ allDraws fiveZero.length, ∃ p, List.Perm p fiveZero ∧
          weightedOrder fiveZero.length (listRand ds) [] fiveZero
            = .done (p, countdown fiveZero.length)) ∧
        (∀ p, List.Perm p fiveZero → ∃! ds, ds ∈ allDraws fiveZero.length ∧
          weightedOrder fiveZero.length (listRand ds) [] fiveZero
            = .done (p, countdown fiveZero.length))) :=
  ⟨by decide, by decide, by decide, by decide,
    zero_weight_uniform fiveZero (by decide) (by decide) (by decide)⟩

/-! ## Runs without rejection -/

/-- A loop of which every iteration accepts (the states it passes through satisfy `P`,
and an iteration entered in a state that satisfies `P` places a record) runs for exactly
as many iterations as the pool has records. -/
theorem loop_exact_of_accepting {r : Rand} (P : LoopState → Prop)
    (hstep : ∀ st, P st → 0 < st.l → ∃ st1 s, loopBody r st = .done st1 ∧
      st1.osrv = st.osrv ++ [s] ∧ st1.l = st.l - 1 ∧ P st1)
    (m : Nat) (st : LoopState) (hP : P st) (hl : st.l = (m : Int)) :
    (∃ st', loop r m st = .done st' ∧ st'.osrv.length = st.osrv.length + m) ∧
      (∀ fuel, fuel < m → loop r fuel st = .outOfFuel) ∧
      (∀ j, j ≤ m → ∃ stj, stateAfter r j st = .done stj ∧
        stj.osrv.length = st.osrv.length + j ∧ stj.l = (m : Int) - (j : Int) ∧ P stj) := by
  induction m generalizing st with
  | zero =>
    refine ⟨⟨st, loop_of_nonpos r 0 (by rw [hl]; rfl), rfl⟩, fun fuel hf => by omega, ?_⟩
    intro j hj
    have hj0 : j = 0 := by omega
    subst hj0
    exact ⟨st, rfl, rfl, by rw [hl]; rfl, hP⟩
  | succ m ih =>
    have hpos : 0 < st.l := by rw [hl]; omega
    obtain ⟨st1, s, hb, ho, hl1, hP1⟩ := hstep st hP hpos
    have hl1' : st1.l = (m : Int) := by rw [hl1, hl]; omega
    obtain ⟨⟨st', hloop, hlen⟩, hout, hstates⟩ := ih st1 hP1 hl1'
    refine ⟨⟨st', ?_, ?_⟩, ?_, ?_⟩
    · rw [loop_succ r m hpos, hb, Outcome.bind_done]
      exact hloop
    · rw [hlen, ho]
      simp only [List.length_append, List.length_singleton]
      omega
    · intro fuel hf
      cases fuel with
      | zero => simp [loop, hpos]
      | succ f =>
        rw [loop_succ r f hpos, hb, Outcome.bind_done]
        exact hout f (by omega)
    · intro j hj
      cases j with
      | zero => exact ⟨st, rfl, rfl, by rw [hl]; simp, hP⟩
      | succ j =>
        obtain ⟨stj, hs, hlenj, hlj, hPj⟩ := hstates j (by omega)
        refine ⟨stj, ?_, ?_, ?_, hPj⟩
        · simp only [stateAfter, hpos, if_true, hb, Outcome.bind_done]
          exact hs
        · rw [hlenj, ho]
          simp only [List.length_append, List.length_singleton]
          omega
        · rw [hlj]
          push_cast
          ring

/-- An iteration on a pool whose records all have weight `0` draws an index, no
threshold, and accepts. -/
theorem zero_weight_step {r : Rand} (hr : InRange r) {st : LoopState} (hinv : LoopInv st)
    (htw : st.tw = 0) (hw : ∀ x ∈ pool st, x.Weight = 0) (hl : 0 < st.l) :
    ∃ st1 s, loopBody r st = .done st1 ∧ st1.osrv = st.osrv ++ [s] ∧ st1.l = st.l - 1 ∧
      (LoopInv st1 ∧ st1.tw = 0 ∧ ∀ x ∈ pool st1, x.Weight = 0) ∧
      st1.log = st.log ++ [st.l] := by
  obtain ⟨st1, hb⟩ := loopBody_total hr hinv hl
  obtain ⟨_, hinv1, s, _, hcase⟩ := loopBody_eq_done hinv hb
  rcases hcase with ⟨hpos, _, _⟩ | ⟨ho, ht, hp, hl1, hdraw⟩
  · omega
  · have hs0 : s.Weight = 0 := hw s (hp.mem_iff.mp (List.mem_cons_self _ _))
    refine ⟨st1, s, hb, ho, hl1, ⟨hinv1, ?_, ?_⟩, ?_⟩
    · rw [ht, htw, hs0]
      rfl
    · intro x hx
      exact hw x (hp.mem_iff.mp (List.mem_cons_of_mem _ hx))
    · rcases hdraw with ⟨hpos, _, _⟩ | ⟨_, hlog⟩
      · omega
      · exact hlog

/-- With the source that always draws `0` every iteration accepts. -/
theorem zeroRand_step {st : LoopState} (hinv : LoopInv st) (hl : 0 < st.l) :
    ∃ st1 s, loopBody zeroRand st = .done st1 ∧ st1.osrv = st.osrv ++ [s] ∧
      st1.l = st.l - 1 ∧ LoopInv st1 := by
  obtain ⟨st1, hb⟩ := loopBody_total zeroRand_inRange hinv hl
  obtain ⟨_, hinv1, s, _, hcase⟩ := loopBody_eq_done hinv hb
  rcases hcase with ⟨_, hrej, _⟩ | ⟨ho, _, _, hl1, _⟩
  · have h0 : (0 : Int) ≤ (s.Weight : Int) := Int.ofNat_nonneg _
    simp only [zeroRand] at hrej
    omega
  · exact ⟨st1, s, hb, ho, hl1, hinv1⟩

theorem weightedOrder_of_loop_done {fuel : Nat} {r : Rand} {log : List Int} {g : List SRV}
    (hn : 2 ≤ g.length) {st' : LoopState} (h : loop r fuel (initState g log) = .done st') :
    weightedOrder fuel r log g = .done (st'.osrv, st'.log) := by
  rw [weightedOrder_long fuel r log hn, h]
  rfl

theorem weightedOrder_of_loop_outOfFuel {fuel : Nat} {r : Rand} {log : List Int} {g : List SRV}
    (hn : 2 ≤ g.length) (h : loop r fuel (initState g log) = .outOfFuel) :
    weightedOrder fuel r log g = .outOfFuel := by
  rw [weightedOrder_long fuel r log hn, h]
  rfl

/-- C12. On a group whose records all have weight `0`, with draws in range, the loop of
`weightedOrder` rejects no candidate: the iteration number `j` starts with `j` records
placed, draws an index and no threshold, and places one more record; so the loop ends
after exactly as many iterations as the group has records (it ends within that many
iterations and within no fewer), and so does `weightedOrder` on two records or more. -/
theorem zero_weight_no_rejection (g : List SRV) (hw : ∀ s ∈ g, s.Weight = 0) (r : Rand)
    (hr : InRange r) (log : List Int) :
    (∃ st', loop r g.length (initState g log) = .done st' ∧ st'.osrv.length = g.length) ∧
      (∀ fuel, fuel < g.length → loop r fuel (initState g log) = .outOfFuel) ∧
      (∀ j, j < g.length → ∃ stj st1 s,
        stateAfter r j (initState g log) = .done stj ∧ stj.osrv.length = j ∧
        stj.l = (g.length : Int) - (j : Int) ∧
        loopBody r stj = .done st1 ∧ st1.osrv = stj.osrv ++ [s] ∧
        st1.log = stj.log ++ [stj.l]) ∧
      (2 ≤ g.length →
        (∃ out log', weightedOrder g.length r log g = .done (out, log')) ∧
        ∀ fuel, fuel < g.length → weightedOrder fuel r log g = .outOfFuel) := by
  have hP : (fun st => LoopInv st ∧ st.tw = 0 ∧ ∀ x ∈ pool st, x.Weight = 0)
      (initState g log) :=
    ⟨initState_inv g log, (totalWeight_eq_zero_iff g).mpr hw,
      by rw [pool_initState_eq]; exact hw⟩
  have hstep : ∀ st, (fun st => LoopInv st ∧ st.tw = 0 ∧ ∀ x ∈ pool st, x.Weight = 0) st →
      0 < st.l → ∃ st1 s, loopBody r st = .done st1 ∧ st1.osrv = st.osrv ++ [s] ∧
        st1.l = st.l - 1 ∧
        (fun st => LoopInv st ∧ st.tw = 0 ∧ ∀ x ∈ pool st, x.Weight = 0) st1 := by
    intro st hst hl
    obtain ⟨st1, s, h1, h2, h3, h4, _⟩ := zero_weight_step hr hst.1 hst.2.1 hst.2.2 hl
    exact ⟨st1, s, h1, h2, h3, h4⟩
  obtain ⟨⟨st', hloop, hlen⟩, hout, hstates⟩ :=
    loop_exact_of_accepting _ hstep g.length (initState g log) hP rfl
  refine ⟨⟨st', hloop, by simpa [initState] using hlen⟩, hout, ?_, ?_⟩
  · intro j hj
    obtain ⟨stj, hs, hlenj, hlj, hPj⟩ := hstates j (le_of_lt hj)
    have hpos : 0 < stj.l := by rw [hlj]; omega
    obtain ⟨st1, s, h1, h2, _, _, h5⟩ := zero_weight_step hr hPj.1 hPj.2.1 hPj.2.2 hpos
    exact ⟨stj, st1, s, hs, by simpa [initState] using hlenj, hlj, h1, h2, h5⟩
  · intro hn
    exact ⟨⟨_, _, weightedOrder_of_loop_done hn hloop⟩,
      fun fuel hf => weightedOrder_of_loop_outOfFuel hn (hout fuel hf)⟩

/-- Witness of C12: the group `fiveZero` and the source that always draws `0`. -/
theorem zero_weight_no_rejection_witness :
    (∀ s ∈ fiveZero, s.Weight = 0) ∧ InRange zeroRand ∧
      weightedOrder 5 zeroRand [] fiveZero
        = .done ([{ Target := "s1", Port := 1, Priority := 0, Weight := 0 },
                  { Target := "s5", Port := 5, Priority := 0, Weight := 0 },
                  { Target := "s4", Port := 4, Priority := 0, Weight := 0 },
                  { Target := "s3", Port := 3, Priority := 0, Weight := 0 },
                  { Target := "s2", Port := 2, Priority := 0, Weight := 0 }],
                 [5, 4, 3, 2, 1]) ∧
      weightedOrder 4 zeroRand [] fiveZero = .outOfFuel ∧
      ((∃ st', loop zeroRand fiveZero.length (initState fiveZero []) = .done st' ∧
          st'.osrv.length = fiveZero.length) ∧
        (∀ fuel, fuel < fiveZero.length →
          loop zeroRand fuel (initState fiveZero []) = .outOfFuel)) :=
  have h := zero_weight_no_rejection fiveZero (by decide) zeroRand zeroRand_inRange []
  ⟨by decide, zeroRand_inRange, by decide, by decide, h.1, h.2.1⟩

/-! ## The acceptance test -/

theorem acceptsAt_eq {T : Nat} (hT : 0 < T) (t : Nat) (s : SRV) :
    acceptsAt T t s = decide (t ≤ s.Weight) := by
  have hpos : (0 : Int) < (T : Int) := by exact_mod_cast hT
  unfold acceptsAt
  rw [threshold_pos (constRand t) [] s hpos]
  simp only [constRand]
  by_cases h : t ≤ s.Weight
  · have : ((t : Int) - (s.Weight : Int) ≤ 0) := by omega
    simp [h, this]
  · have : ¬ ((t : Int) - (s.Weight : Int) ≤ 0) := by omega
    simp [h, this]

theorem length_filter_range_le (T w : Nat) :
    ((List.range T).filter fun t => decide (t ≤ w)).length = min (w + 1) T := by
  induction T with
  | zero => simp
  | succ T ih =>
    rw [List.range_succ, List.filter_append, List.length_append, ih]
    by_cases h : T ≤ w
    · simp only [List.filter_cons, h, decide_True, if_true, List.filter_nil,
        List.length_singleton]
      omega
    · simp only [List.filter_cons, h, decide_False, List.filter_nil, List.length_nil]
      simp only [Bool.false_eq_true, if_false, List.length_nil]
      omega

/-- C13, the input on which the claim fails: with the total weight `12` a candidate of
weight `0` is accepted by one threshold value (the draw `0`), and one of weight `3` by
four, so the number of accepting threshold values is no multiple `k * w` of the weight. -/
theorem acceptCount_not_proportional :
    acceptCount 12 (ofWeight 0) = 1 ∧ acceptCount 12 (ofWeight 3) = 4 ∧
      ¬ ∃ k : ℚ, ∀ w : Nat, w ≤ 12 → (acceptCount 12 (ofWeight w) : ℚ) = k * (w : ℚ) := by
  have h0 : acceptCount 12 (ofWeight 0) = 1 := by decide
  refine ⟨h0, by decide, ?_⟩
  rintro ⟨k, hk⟩
  have h := hk 0 (by omega)
  rw [h0] at h
  simp at h

/-- C13, amended. With a total weight `T > 0`, the number of threshold values in
`[0, T)` that accept a candidate of weight `w` is `min (w + 1) T`: it is `w + 1` for
`w < T`, one more than the weight, and it does not decrease when the weight grows. -/
theorem acceptCount_eq (T : Nat) (hT : 0 < T) (s s' : SRV) :
    acceptCount T s = min (s.Weight + 1) T ∧
      (s.Weight < T → acceptCount T s = s.Weight + 1) ∧
      (s.Weight ≤ s'.Weight → acceptCount T s ≤ acceptCount T s') := by
  have hc : ∀ x : SRV, acceptCount T x = min (x.Weight + 1) T := by
    intro x
    unfold acceptCount
    have hf : (fun t => acceptsAt T t x) = fun t => decide (t ≤ x.Weight) :=
      funext fun t => acceptsAt_eq hT t x
    rw [hf]
    exact length_filter_range_le T x.Weight
  refine ⟨hc s, fun h => ?_, fun h => ?_⟩
  · rw [hc s]
    omega
  · rw [hc s, hc s']
    omega

/-- Witness of the amended C13: total weight `12`, weights `10` and `1`. -/
theorem acceptCount_eq_witness :
    0 < 12 ∧ acceptCount 12 light1 = 2 ∧ acceptCount 12 heavy = 11 ∧
      (acceptCount 12 light1 = min (light1.Weight + 1) 12 ∧
        (light1.Weight < 12 → acceptCount 12 light1 = light1.Weight + 1) ∧
        (light1.Weight ≤ heavy.Weight → acceptCount 12 light1 ≤ acceptCount 12 heavy)) :=
  ⟨by decide, by decide, by decide, acceptCount_eq 12 (by decide) light1 heavy⟩

/-! ## Invariants of the loop -/

theorem stateAfter_ne_panic {r : Rand} (hr : InRange r) (n : Nat) {st : LoopState}
    (hinv : LoopInv st) : stateAfter r n st ≠ .panic := by
  induction n generalizing st with
  | zero => simp [stateAfter]
  | succ n ih =>
    unfold stateAfter
    split
    · rename_i hl
      obtain ⟨st1, hb⟩ := loopBody_total hr hinv hl
      rw [hb, Outcome.bind_done]
      exact ih (loopBody_eq_done hinv hb).2.1
    · simp

theorem threshold_ne_panic (r : Rand) (log : List Int) (tw : Int) (s : SRV) :
    threshold r log tw s ≠ .panic := by
  by_cases h : 0 < tw
  · rw [threshold_pos r log s h]
    simp
  · rw [threshold_nonpos r log s (not_lt.mp h)]
    simp

/-- C14. In a run of `weightedOrder` with draws in range, an iteration entered with
exactly one record in the pool accepts that record, whatever its weight and whatever
the draws: it places the record and ends the loop. -/
theorem last_record_accepted (g : List SRV) (r : Rand) (hr : InRange r) (log : List Int)
    (n : Nat) (st : LoopState) (hst : stateAfter r n (initState g log) = .done st)
    (hl : st.l = 1) :
    ∃ s st', pool st = [s] ∧ loopBody r st = .done st' ∧ st'.osrv = st.osrv ++ [s] ∧
      st'.l = 0 ∧ pool st' = [] := by
  obtain ⟨hinv, htw⟩ := stateAfter_inv (initState_inv g log) (initState_twInv g log) hst
  have hpos : 0 < st.l := by rw [hl]; decide
  have hlen : st.srvs.length = 1 := by
    have := hinv hpos
    rw [hl] at this
    exact_mod_cast this.symm
  obtain ⟨s, hsrvs⟩ : ∃ s, st.srvs = [s] := List.length_eq_one.mp hlen
  have hpool : pool st = [s] := by simp [pool, hpos, hsrvs]
  obtain ⟨st', hb⟩ := loopBody_total hr hinv hpos
  obtain ⟨_, _, s', hidx, hcase⟩ := loopBody_eq_done hinv hb
  have hs' : s' = s := by
    obtain ⟨_, _, hget⟩ := index_eq_done hidx
    have hmem : s' ∈ st.srvs := List.mem_iff_get?.mpr ⟨_, hget⟩
    rw [hsrvs] at hmem
    simpa using hmem
  subst hs'
  have htw' : st.tw = (s'.Weight : Int) := by
    unfold TwInv at htw
    rw [htw, hpool, totalWeight_cons]
    simp [totalWeight]
  rcases hcase with ⟨hp, hrej, _⟩ | ⟨ho, _, hp, hl1, _⟩
  · have := (hr (st.log.length + 1) st.tw hp).2
    omega
  · have hl0 : st'.l = 0 := by rw [hl1, hl]; rfl
    exact ⟨s', st', hpool, hb, ho, hl0, by simp [pool, hl0]⟩

/-- Witness of C14: the second iteration on `stuckInput` with the source that always
draws `0`; the record of weight `5` is the only one left. -/
theorem last_record_accepted_witness :
    InRange zeroRand ∧
      stateAfter zeroRand 1 (initState stuckInput [])
        = .done { srvs := [{ Target := "y", Port := 2, Priority := 0, Weight := 5 }],
                  osrv := [{ Target := "x", Port := 1, Priority := 0, Weight := 0 }],
                  l := 1, tw := 5, log := [2, 5] } ∧
      ∃ s st',
        pool { srvs := [{ Target := "y", Port := 2, Priority := 0, Weight := 5 }],
               osrv := [{ Target := "x", Port := 1, Priority := 0, Weight := 0 }],
               l := 1, tw := 5, log := [2, 5] } = [s] ∧
        loopBody zeroRand
          { srvs := [{ Target := "y", Port := 2, Priority := 0, Weight := 5 }],
            osrv := [{ Target := "x", Port := 1, Priority := 0, Weight := 0 }],
            l := 1, tw := 5, log := [2, 5] } = .done st' ∧
        st'.osrv = [{ Target := "x", Port := 1, Priority := 0, Weight := 0 }] ++ [s] ∧
        st'.l = 0 ∧ pool st' = [] :=
  ⟨zeroRand_inRange, by decide,
    last_record_accepted stuckInput zeroRand zeroRand_inRange [] 1 _ (by decide) rfl⟩

/-- C15. At the start of every iteration of the loop of `weightedOrder`, `tw` is the sum
of the weights of the records still in the pool; so `tw ≥ 0`, and `tw = 0` exactly when
every record of the pool has weight `0`. An iteration either accepts a record `s`,
moving it from the pool to the output and taking its weight off `tw`, or rejects,
leaving `tw`, the pool and the output as they were. -/
theorem tw_is_pool_weight (g : List SRV) (r : Rand) (log : List Int) (n : Nat)
    (st : LoopState) (hst : stateAfter r n (initState g log) = .done st) :
    st.tw = totalWeight (pool st) ∧
      totalWeight (pool st) = ((pool st).map fun s => (s.Weight : Int)).sum ∧
      0 ≤ st.tw ∧ (st.tw = 0 ↔ ∀ x ∈ pool st, x.Weight = 0) ∧
      ∀ st', loopBody r st = .done st' →
        (∃ s, st'.osrv = st.osrv ++ [s] ∧ List.Perm (s :: pool st') (pool st) ∧
          st'.tw = st.tw - (s.Weight : Int) ∧ st'.tw = totalWeight (pool st')) ∨
        (st'.tw = st.tw ∧ pool st' = pool st ∧ st'.osrv = st.osrv ∧
          st'.srvs = st.srvs ∧ st'.l = st.l) := by
  obtain ⟨hinv, htw⟩ := stateAfter_inv (initState_inv g log) (initState_twInv g log) hst
  have htw' : st.tw = totalWeight (pool st) := htw
  refine ⟨htw', totalWeight_eq_sum _, ?_, ?_, ?_⟩
  · rw [htw']
    exact totalWeight_nonneg _
  · rw [htw']
    exact totalWeight_eq_zero_iff _
  · intro st' hb
    have htw1 : TwInv st' := loopBody_twInv hinv htw hb
    obtain ⟨_, _, s, _, hcase⟩ := loopBody_eq_done hinv hb
    rcases hcase with ⟨_, _, rfl⟩ | ⟨ho, ht, hp, _, _⟩
    · exact Or.inr ⟨rfl, rfl, rfl, rfl, rfl⟩
    · exact Or.inl ⟨s, ho, hp, ht, htw1⟩

/-- Witness of C15: the state after one iteration on `[b, c]` with the source that
always draws `0`: `c` is left in the pool and `tw` is its weight `5`. -/
theorem tw_is_pool_weight_witness :
    stateAfter zeroRand 1 (initState [recB, recC] [])
        = .done { srvs := [recC], osrv := [recB], l := 1, tw := 5, log := [2, 10] } ∧
      (5 : Int) = totalWeight (pool
        { srvs := [recC], osrv := [recB], l := 1, tw := 5, log := [2, 10] }) :=
  ⟨by decide, (tw_is_pool_weight [recB, recC] zeroRand [] 1
    { srvs := [recC], osrv := [recB], l := 1, tw := 5, log := [2, 10] } (by decide)).1⟩

/-- C16. With draws in range `weightedOrder` never panics. At every iteration of its
loop `l` is the length of `srvs` and is positive, so `rand.Intn(l)` returns an index
`i` with `0 ≤ i < len(srvs)` and `srvs[i]` is in range; `rand.Intn(tw)` is called only
with `tw > 0`; and when the swap is made `srvs[len(srvs)-1]` is in range. -/
theorem weightedOrder_never_panics (g : List SRV) (r : Rand) (hr : InRange r)
    (log : List Int) :
    (∀ fuel, weightedOrder fuel r log g ≠ .panic) ∧
      (∀ n, stateAfter r n (initState g log) ≠ .panic) ∧
      ∀ n st, stateAfter r n (initState g log) = .done st → 0 < st.l →
        st.l = (st.srvs.length : Int) ∧
        Intn r st.log st.l = .done (r st.log.length st.l, st.log ++ [st.l]) ∧
        0 ≤ r st.log.length st.l ∧ r st.log.length st.l < (st.srvs.length : Int) ∧
        (∃ s, index st.srvs (r st.log.length st.l) = .done s ∧
          threshold r (st.log ++ [st.l]) st.tw s ≠ .panic ∧
          (threshold r (st.log ++ [st.l]) st.tw s
              = (Intn r (st.log ++ [st.l]) st.tw).bind
                  (fun x => .done (x.1 - (s.Weight : Int), x.2)) → 0 < st.tw)) ∧
        (1 < st.srvs.length →
          ∃ last, index st.srvs ((st.srvs.length : Int) - 1) = .done last) ∧
        ∃ st', loopBody r st = .done st' := by
  refine ⟨fun fuel => weightedOrder_ne_panic hr fuel log g,
    fun n => stateAfter_ne_panic hr n (initState_inv g log), ?_⟩
  intro n st hst hl
  obtain ⟨hinv, _⟩ := stateAfter_inv (initState_inv g log) (initState_twInv g log) hst
  have hlen := hinv hl
  obtain ⟨hi0, hi1⟩ := hr st.log.length st.l hl
  have hi1' : r st.log.length st.l < (st.srvs.length : Int) := by rw [← hlen]; exact hi1
  obtain ⟨s, hs, _⟩ := index_of_lt hi0 hi1'
  refine ⟨hlen, Intn_pos r st.log hl, hi0, hi1', ⟨s, hs, threshold_ne_panic _ _ _ _, ?_⟩, ?_,
    loopBody_total hr hinv hl⟩
  · intro heq
    by_contra hcon
    rw [threshold_nonpos r _ s (not_lt.mp hcon)] at heq
    simp only [Intn, if_pos (not_lt.mp hcon), Outcome.bind_panic] at heq
    exact absurd heq (by simp)
  · intro hgt
    have h0 : (0 : Int) ≤ (st.srvs.length : Int) - 1 := by omega
    have h1 : (st.srvs.length : Int) - 1 < (st.srvs.length : Int) := by omega
    obtain ⟨last, hlast, _⟩ := index_of_lt h0 h1
    exact ⟨last, hlast⟩

/-- Witness of C16: the first iteration on `[b, c]` with the source that always draws `0`. -/
theorem weightedOrder_never_panics_witness :
    InRange zeroRand ∧
      stateAfter zeroRand 0 (initState [recB, recC] []) = .done (initState [recB, recC] []) ∧
      0 < (initState [recB, recC] []).l ∧
      weightedOrder 2 zeroRand [] [recB, recC] = .done ([recB, recC], [2, 10, 1, 5]) ∧
      (initState [recB, recC] []).l = (((initState [recB, recC] []).srvs.length : Nat) : Int) :=
  ⟨zeroRand_inRange, rfl, by decide, by decide,
    ((weightedOrder_never_panics [recB, recC] zeroRand zeroRand_inRange []).2.2 0
      (initState [recB, recC] []) rfl (by decide)).1⟩

/-! ## Inputs with distinct priorities -/

theorem filter_priority_length_le_one (addrs : List SRV) (hd : (addrs.map SRV.Priority).Nodup)
    (p : Nat) : (addrs.filter fun s => s.Priority = p).length ≤ 1 := by
  induction addrs with
  | nil => simp
  | cons a addrs ih =>
    simp only [List.map_cons, List.nodup_cons] at hd
    obtain ⟨hnot, hd'⟩ := hd
    by_cases hp : a.Priority = p
    · have hnone : (addrs.filter fun s => s.Priority = p) = [] := by
        rw [List.filter_eq_nil_iff]
        intro s hs hsp
        apply hnot
        rw [hp]
        exact List.mem_map.mpr ⟨s, hs, by simpa using hsp⟩
      simp [List.filter_cons, hp, hnone]
    · simp only [List.filter_cons, hp, decide_False, Bool.false_eq_true, if_false]
      exact ih hd'

/-- When every bucket holds fewer than two records the loop over the priorities draws
nothing and appends the buckets as they are. -/
theorem groupsLoop_short (fuel : Nat) (r : Rand) (m : PrioMap) (ps : List Nat)
    (hps : ∀ p ∈ ps, (m.get p).length < 2) (count : Int) (osrv : List SRV) (log : List Int) :
    groupsLoop fuel r m ps count osrv log
      = .done (count + ((ps.flatMap m.get).length : Int), osrv ++ ps.flatMap m.get, log) := by
  induction ps generalizing count osrv with
  | nil => simp [groupsLoop]
  | cons p ps ih =>
    unfold groupsLoop
    rw [weightedOrder_short fuel r log (hps p (List.mem_cons_self _ _)), Outcome.bind_done]
    simp only [appendAll_eq]
    rw [ih (fun q hq => hps q (List.mem_cons_of_mem _ hq))]
    simp only [List.flatMap_cons, List.length_append, Nat.cast_add, List.append_assoc,
      Outcome.done.injEq, Prod.mk.injEq, and_true]
    ring

theorem strict_of_sorted_nodup {l : List SRV}
    (hs : l.Pairwise fun a b => a.Priority ≤ b.Priority) (hd : (l.map SRV.Priority).Nodup) :
    l.Pairwise fun a b => a.Priority < b.Priority := by
  have hne : l.Pairwise fun a b => a.Priority ≠ b.Priority := List.pairwise_map.mp hd
  exact (hs.and hne).imp fun h => lt_of_le_of_ne h.1 h.2

theorem forall₂_filter_refl (addrs : List SRV) (ps : List Nat) :
    List.Forall₂ (fun p out => List.Perm out (addrs.filter fun s => s.Priority = p)) ps
      (ps.map fun p => addrs.filter fun s => s.Priority = p) := by
  induction ps with
  | nil => exact List.Forall₂.nil
  | cons p ps ih => exact List.Forall₂.cons (List.Perm.refl _) ih

/-- C17. On an input whose records have pairwise distinct priorities `OrderSRV` returns
for every random source and every bound on the iterations, draws nothing, and returns
the input sorted by ascending priority: a permutation of the input whose priorities
increase strictly, the same for all random sources. -/
theorem distinct_priorities_sorted (addrs : List SRV) (hd : (addrs.map SRV.Priority).Nodup)
    (fuel : Nat) (r : Rand) (log : List Int) :
    OrderSRV fuel r log addrs
        = .done ((addrs.length : Int),
            addrs.insertionSort (fun a b => a.Priority ≤ b.Priority), log) ∧
      List.Perm (addrs.insertionSort fun a b => a.Priority ≤ b.Priority) addrs ∧
      ((addrs.insertionSort fun a b => a.Priority ≤ b.Priority).map SRV.Priority).Pairwise
        (· < ·) := by
  have hperm := List.perm_insertionSort (fun a b : SRV => a.Priority ≤ b.Priority) addrs
  have hsorted : (addrs.insertionSort fun a b => a.Priority ≤ b.Priority).Pairwise
      fun a b => a.Priority ≤ b.Priority := by
    haveI : IsTotal SRV (fun a b => a.Priority ≤ b.Priority) := ⟨fun a b => Nat.le_total _ _⟩
    haveI : IsTrans SRV (fun a b => a.Priority ≤ b.Priority) :=
      ⟨fun a b c h1 h2 => Nat.le_trans h1 h2⟩
    exact List.sorted_insertionSort (fun a b : SRV => a.Priority ≤ b.Priority) addrs
  have hstrict := strict_of_sorted_nodup hsorted
    (((hperm.map SRV.Priority).nodup_iff).mpr hd)
  refine ⟨?_, hperm, List.pairwise_map.mpr hstrict⟩
  by_cases hlen : addrs.length < 2
  · rw [OrderSRV_short_eq fuel r log hlen]
    match addrs, hlen with
    | [], _ => rfl
    | [a], _ => rfl
  · rw [OrderSRV_long_eq fuel r log (not_lt.mp hlen)]
    have hshort : ∀ p ∈ sortedKeys addrs, ((buildPrioMap addrs).get p).length < 2 := by
      intro p _
      rw [buildPrioMap_get]
      exact Nat.lt_succ_of_le (filter_priority_length_le_one addrs hd p)
    rw [groupsLoop_short fuel r _ _ hshort]
    have hget : (buildPrioMap addrs).get = fun p => addrs.filter fun s => s.Priority = p :=
      funext fun p => buildPrioMap_get addrs p
    rw [hget]
    have hf := forall₂_filter_refl addrs (sortedKeys addrs)
    have hflat : ((sortedKeys addrs).map fun p => addrs.filter fun s => s.Priority = p).flatten
        = (sortedKeys addrs).flatMap fun p => addrs.filter fun s => s.Priority = p := rfl
    have hp2 : List.Perm
        ((sortedKeys addrs).flatMap fun p => addrs.filter fun s => s.Priority = p) addrs := by
      rw [← hflat]
      exact blocks_perm hf
    have hs2 : ((sortedKeys addrs).flatMap fun p => addrs.filter fun s => s.Priority = p).Pairwise
        fun a b => a.Priority ≤ b.Priority := by
      rw [← hflat]
      exact (blocks_sorted hf (sortedKeys_sorted addrs)).2
    have hstrict2 := strict_of_sorted_nodup hs2 (((hp2.map SRV.Priority).nodup_iff).mpr hd)
    have heq : ((sortedKeys addrs).flatMap fun p => addrs.filter fun s => s.Priority = p)
        = addrs.insertionSort fun a b => a.Priority ≤ b.Priority := by
      haveI : IsAntisymm SRV (fun a b => a.Priority < b.Priority) :=
        ⟨fun a b h1 h2 => absurd h1 (Nat.lt_asymm h2)⟩
      exact List.eq_of_perm_of_sorted (hp2.trans hperm.symm) hstrict2 hstrict
    rw [heq]
    simp only [List.nil_append, zero_add, Outcome.done.injEq, Prod.mk.injEq, and_true]
    exact_mod_cast hperm.length_eq

/-- Witness of C17: the input `[d, a, b]`, no fuel, a source that is not in range. -/
theorem distinct_priorities_sorted_witness :
    ([recD, recA, recB].map SRV.Priority).Nodup ∧
      OrderSRV 0 (fun _ _ => -1) [] [recD, recA, recB] = .done (3, [recB, recA, recD], []) ∧
      [recD, recA, recB].insertionSort (fun a b => a.Priority ≤ b.Priority)
        = [recB, recA, recD] ∧
      OrderSRV 0 (fun _ _ => -1) [] [recD, recA, recB]
        = .done ((([recD, recA, recB].length : Nat) : Int),
            [recD, recA, recB].insertionSort (fun a b => a.Priority ≤ b.Priority), []) :=
  ⟨by decide, by decide, by decide,
    (distinct_priorities_sorted [recD, recA, recB] (by decide) 0 (fun _ _ => -1) []).1⟩

/-! ## The source that always draws zero -/

theorem zeroRand_run (g : List SRV) (log : List Int) :
    (∃ st', loop zeroRand g.length (initState g log) = .done st' ∧
        st'.osrv.length = g.length) ∧
      (∀ fuel, fuel < g.length → loop zeroRand fuel (initState g log) = .outOfFuel) ∧
      (∀ j, j < g.length → ∃ stj st1 s,
        stateAfter zeroRand j (initState g log) = .done stj ∧ stj.osrv.length = j ∧
        loopBody zeroRand stj = .done st1 ∧ st1.osrv = stj.osrv ++ [s]) := by
  have hstep : ∀ st, LoopInv st → 0 < st.l → ∃ st1 s, loopBody zeroRand st = .done st1 ∧
      st1.osrv = st.osrv ++ [s] ∧ st1.l = st.l - 1 ∧ LoopInv st1 :=
    fun st hinv hl => zeroRand_step hinv hl
  obtain ⟨⟨st', hloop, hlen⟩, hout, hstates⟩ :=
    loop_exact_of_accepting LoopInv hstep g.length (initState g log) (initState_inv g log) rfl
  refine ⟨⟨st', hloop, by simpa [initState] using hlen⟩, hout, ?_⟩
  intro j hj
  obtain ⟨stj, hs, hlenj, hlj, hPj⟩ := hstates j (le_of_lt hj)
  have hpos : 0 < stj.l := by rw [hlj]; omega
  obtain ⟨st1, s, h1, h2, _, _⟩ := zeroRand_step hPj hpos
  exact ⟨stj, st1, s, hs, by simpa [initState] using hlenj, h1, h2⟩

theorem weightedOrder_zeroRand (fuel : Nat) (log : List Int) (g : List SRV)
    (hfuel : 2 ≤ g.length → g.length ≤ fuel) :
    ∃ res, weightedOrder fuel zeroRand log g = .done res := by
  by_cases hlen : g.length < 2
  · exact ⟨_, weightedOrder_short fuel zeroRand log hlen⟩
  · obtain ⟨⟨st', hloop, _⟩, _, _⟩ := zeroRand_run g log
    exact ⟨_, weightedOrder_mono (hfuel (not_lt.mp hlen))
      (weightedOrder_of_loop_done (not_lt.mp hlen) hloop)⟩

theorem groupsLoop_zeroRand (fuel : Nat) (m : PrioMap) (ps : List Nat)
    (hps : ∀ p ∈ ps, 2 ≤ (m.get p).length → (m.get p).length ≤ fuel)
    (count : Int) (osrv : List SRV) (log : List Int) :
    ∃ res, groupsLoop fuel zeroRand m ps count osrv log = .done res := by
  induction ps generalizing count osrv log with
  | nil => exact ⟨_, rfl⟩
  | cons p ps ih =>
    unfold groupsLoop
    obtain ⟨⟨tos, log1⟩, hw⟩ := weightedOrder_zeroRand fuel log (m.get p)
      (hps p (List.mem_cons_self _ _))
    rw [hw, Outcome.bind_done]
    exact ih (fun q hq => hps q (List.mem_cons_of_mem _ hq)) _ _ _

/-- C18. A threshold draw of `0` passes the acceptance test whatever the weight of the
candidate and whatever the total weight. So with the source that always draws `0`,
`OrderSRV` returns on every input as soon as the bound on the iterations is the size of
the largest group of two records or more; and on such a group `weightedOrder` runs for
exactly as many iterations as the group has records, each of which places a record. -/
theorem zero_threshold_accepts :
    (∀ (r : Rand) (log : List Int) (tw : Int) (s : SRV), (0 < tw → r log.length tw = 0) →
        ∃ rw log', threshold r log tw s = .done (rw, log') ∧ rw ≤ 0) ∧
      (∀ (addrs : List SRV) (log : List Int) (fuel : Nat),
        (∀ p, 2 ≤ (addrs.filter fun s => s.Priority = p).length →
          (addrs.filter fun s => s.Priority = p).length ≤ fuel) →
        ∃ res, OrderSRV fuel zeroRand log addrs = .done res) ∧
      (∀ (addrs : List SRV) (log : List Int),
        ∃ res, OrderSRV addrs.length zeroRand log addrs = .done res) ∧
      (∀ (g : List SRV) (log : List Int), 2 ≤ g.length →
        (∃ out log', weightedOrder g.length zeroRand log g = .done (out, log')) ∧
        (∀ fuel, fuel < g.length → weightedOrder fuel zeroRand log g = .outOfFuel) ∧
        (∀ j, j < g.length → ∃ stj st1 s,
          stateAfter zeroRand j (initState g log) = .done stj ∧ stj.osrv.length = j ∧
          loopBody zeroRand stj = .done st1 ∧ st1.osrv = stj.osrv ++ [s])) := by
  have hfuel : ∀ (addrs : List SRV) (log : List Int) (fuel : Nat),
      (∀ p, 2 ≤ (addrs.filter fun s => s.Priority = p).length →
        (addrs.filter fun s => s.Priority = p).length ≤ fuel) →
      ∃ res, OrderSRV fuel zeroRand log addrs = .done res := by
    intro addrs log fuel hf
    by_cases hlen : addrs.length < 2
    · exact ⟨_, OrderSRV_short_eq fuel zeroRand log hlen⟩
    · rw [OrderSRV_long_eq fuel zeroRand log (not_lt.mp hlen)]
      apply groupsLoop_zeroRand
      intro p _
      rw [buildPrioMap_get]
      exact hf p
  refine ⟨?_, hfuel, ?_, ?_⟩
  · intro r log tw s h0
    by_cases htw : 0 < tw
    · refine ⟨_, _, threshold_pos r log s htw, ?_⟩
      rw [h0 htw]
      have : (0 : Int) ≤ (s.Weight : Int) := Int.ofNat_nonneg _
      omega
    · exact ⟨_, _, threshold_nonpos r log s (not_lt.mp htw), le_refl _⟩
  · intro addrs log
    exact hfuel addrs log addrs.length fun p _ => List.length_filter_le _ _
  · intro g log hn
    obtain ⟨⟨st', hloop, _⟩, hout, hstates⟩ := zeroRand_run g log
    exact ⟨⟨_, _, weightedOrder_of_loop_done hn hloop⟩,
      fun fuel hf => weightedOrder_of_loop_outOfFuel hn (hout fuel hf), hstates⟩

/-- Witness of C18: the group `[heavy, light1, light2]` with the source that always
draws `0`: three iterations, none fewer. -/
theorem zero_threshold_accepts_witness :
    2 ≤ weightedGroup.length ∧
      weightedOrder 3 zeroRand [] weightedGroup
        = .done ([heavy, light2, light1], [3, 12, 2, 2, 1, 1]) ∧
      weightedOrder 2 zeroRand [] weightedGroup = .outOfFuel ∧
      ((∃ out log', weightedOrder weightedGroup.length zeroRand [] weightedGroup
          = .done (out, log')) ∧
        (∀ fuel, fuel < weightedGroup.length →
          weightedOrder fuel zeroRand [] weightedGroup = .outOfFuel)) :=
  have h := zero_threshold_accepts.2.2.2 weightedGroup [] (by decide)
  ⟨by decide, by decide, by decide, h.1, h.2.1⟩

/-! ## Writes to the backing arrays -/

theorem keeps_refl (S : Nat → Prop) (h : Heap) : Keeps S h h :=
  ⟨le_refl _, fun _ _ _ => rfl⟩

theorem keeps_set {S : Nat → Prop} {h0 h : Heap} (hk : Keeps S h0 h) {a : Nat}
    (ha : h0.length ≤ a ∨ S a) (x : Cells) : Keeps S h0 (h.set a x) := by
  refine ⟨by rw [List.length_set]; exact hk.1, fun b hb hS => ?_⟩
  have hne : a ≠ b := by
    rintro rfl
    rcases ha with ha | ha
    · omega
    · exact hS ha
  rw [← hk.2 b hb hS]
  simp only [List.get?_eq_getElem?]
  exact List.getElem?_set_ne hne

theorem keeps_append_one {S : Nat → Prop} {h0 h : Heap} (hk : Keeps S h0 h) (x : Cells) :
    Keeps S h0 (h ++ [x]) := by
  refine ⟨by rw [List.length_append]; exact Nat.le_add_right_of_le hk.1, fun b hb hS => ?_⟩
  rw [← hk.2 b hb hS]
  simp only [List.get?_eq_getElem?]
  exact List.getElem?_append_left (by have := hk.1; omega)

theorem appendTo_keeps {S : Nat → Prop} {h0 h : Heap} (grow : Nat → Nat) (hk : Keeps S h0 h)
    {sl : Slice} (hw : Writable S h0 sl) (c : Option SRV) :
    Keeps S h0 (appendTo grow h sl c).1 ∧ Writable S h0 (appendTo grow h sl c).2 := by
  unfold appendTo
  split
  · rename_i a ha
    split
    · exact ⟨keeps_set hk (hw a ha) _, fun b hb => by
        simp only [Option.some.injEq] at hb
        subst hb
        exact hw a ha⟩
    · exact ⟨keeps_append_one hk _, fun b hb => by
        simp only [Option.some.injEq] at hb
        subst hb
        exact Or.inl hk.1⟩
  · exact ⟨keeps_append_one hk _, fun b hb => by
      simp only [Option.some.injEq] at hb
      subst hb
      exact Or.inl hk.1⟩

theorem makeSlice_keeps {S : Nat → Prop} {h0 h : Heap} (hk : Keeps S h0 h) (n : Nat) :
    Keeps S h0 (makeSlice h n).1 ∧ Writable S h0 (makeSlice h n).2 :=
  ⟨keeps_append_one hk _, fun b hb => by
    simp only [makeSlice, Option.some.injEq] at hb
    subst hb
    exact Or.inl hk.1⟩

theorem writeAt_keeps {S : Nat → Prop} {h0 h h' : Heap} (hk : Keeps S h0 h) {sl : Slice}
    (hw : Writable S h0 sl) {i : Int} {c : Option SRV} (h1 : writeAt h sl i c = .done h') :
    Keeps S h0 h' := by
  unfold writeAt at h1
  split at h1
  · split at h1
    · rename_i a ha
      simp only [Outcome.done.injEq] at h1
      subst h1
      exact keeps_set hk (hw a ha) _
    · simp at h1
  · simp at h1

theorem acceptMem_inv {S : Nat → Prop} {h0 : Heap} {grow : Nat → Nat} {st st' : MemState}
    {i : Int} {c : Option SRV} {log : List Int} (hinv : MemInv S h0 st)
    (h : acceptMem grow st i c log = .done st') : MemInv S h0 st' := by
  obtain ⟨hk, hws, hwo⟩ := hinv
  obtain ⟨hk1, hwo1⟩ := appendTo_keeps grow hk hwo c
  unfold acceptMem at h
  simp only at h
  split at h
  · obtain ⟨cur, _, h⟩ := Outcome.bind_eq_done h
    obtain ⟨last, _, h⟩ := Outcome.bind_eq_done h
    obtain ⟨h2, hw2, h⟩ := Outcome.bind_eq_done h
    obtain ⟨h3, hw3, h⟩ := Outcome.bind_eq_done h
    obtain ⟨s, _, h⟩ := Outcome.bind_eq_done h
    simp only [Outcome.done.injEq] at h
    subst h
    exact ⟨writeAt_keeps (writeAt_keeps hk1 hws hw2) hws hw3, hws, hwo1⟩
  · obtain ⟨s, _, h⟩ := Outcome.bind_eq_done h
    simp only [Outcome.done.injEq] at h
    subst h
    exact ⟨hk1, hws, hwo1⟩

theorem loopBodyMem_inv {S : Nat → Prop} {h0 : Heap} {grow : Nat → Nat} {r : Rand}
    {st st' : MemState} (hinv : MemInv S h0 st) (h : loopBodyMem grow r st = .done st') :
    MemInv S h0 st' := by
  unfold loopBodyMem at h
  obtain ⟨⟨i, log1⟩, _, h⟩ := Outcome.bind_eq_done h
  obtain ⟨c, _, h⟩ := Outcome.bind_eq_done h
  obtain ⟨⟨rw, log2⟩, _, h⟩ := Outcome.bind_eq_done h
  simp only at h
  split at h
  · exact acceptMem_inv hinv h
  · simp only [Outcome.done.injEq] at h
    subst h
    exact hinv

theorem loopMem_inv {S : Nat → Prop} {h0 : Heap} {grow : Nat → Nat} {r : Rand} {fuel : Nat}
    {st st' : MemState} (hinv : MemInv S h0 st) (h : loopMem grow r fuel st = .done st') :
    MemInv S h0 st' := by
  induction fuel generalizing st with
  | zero =>
    unfold loopMem at h
    split at h
    · simp at h
    · simp only [Outcome.done.injEq] at h
      subst h
      exact hinv
  | succ fuel ih =>
    unfold loopMem at h
    split at h
    · obtain ⟨st1, hb, h1⟩ := Outcome.bind_eq_done h
      exact ih (loopBodyMem_inv hinv hb) h1
    · simp only [Outcome.done.injEq] at h
      subst h
      exact hinv

/-- The function `weightedOrder` writes only to the backing array of its argument and
to arrays it allocates; the slice it returns is a view of one of these. -/
theorem weightedOrderMem_keeps {S : Nat → Prop} {h0 h h' : Heap} {grow : Nat → Nat}
    {fuel : Nat} {r : Rand} {log log' : List Int} {srvs tos : Slice} (hk : Keeps S h0 h)
    (hw : Writable S h0 srvs)
    (hrun : weightedOrderMem grow fuel r log h srvs = .done (tos, h', log')) :
    Keeps S h0 h' ∧ Writable S h0 tos := by
  unfold weightedOrderMem at hrun
  split at hrun
  · simp only [Outcome.done.injEq, Prod.mk.injEq] at hrun
    obtain ⟨rfl, rfl, _⟩ := hrun
    exact ⟨hk, hw⟩
  · obtain ⟨tw, _, hrun⟩ := Outcome.bind_eq_done hrun
    simp only at hrun
    obtain ⟨st, hloop, hrun⟩ := Outcome.bind_eq_done hrun
    simp only [Outcome.done.injEq, Prod.mk.injEq] at hrun
    obtain ⟨rfl, rfl, _⟩ := hrun
    obtain ⟨hk1, hwo⟩ := makeSlice_keeps hk srvs.len
    have hinv : MemInv S h0
        { heap := (makeSlice h srvs.len).1, srvs := srvs, osrv := (makeSlice h srvs.len).2,
          l := (srvs.len : Int), tw := tw, log := log } := ⟨hk1, hw, hwo⟩
    obtain ⟨h1, _, h3⟩ := loopMem_inv hinv hloop
    exact ⟨h1, h3⟩

theorem sliceMap_get_set (m : SliceMap) (p q : Nat) (v : Slice) :
    (m.set p v).get q = if p = q then v else m.get q := by
  induction m with
  | nil => simp [SliceMap.set, SliceMap.get]
  | cons e rest ih =>
    obtain ⟨k, w⟩ := e
    unfold SliceMap.set
    by_cases hk : k = p
    · subst hk
      simp only [if_true, SliceMap.get]
      by_cases hq : k = q <;> simp [hq]
    · simp only [hk, if_false, SliceMap.get, ih]
      by_cases hq : k = q
      · subst hq
        simp [Ne.symm hk]
      · simp [hq]

theorem fillMapMem_keeps {S : Nat → Prop} {h0 : Heap} {grow : Nat → Nat} {addrs : Slice}
    (n i : Nat) {h h' : Heap} {m m' : SliceMap} (hk : Keeps S h0 h)
    (hm : ∀ p, Writable S h0 (m.get p))
    (hrun : fillMapMem grow addrs n i h m = .done (h', m')) :
    Keeps S h0 h' ∧ ∀ p, Writable S h0 (m'.get p) := by
  induction n generalizing i h m with
  | zero =>
    simp only [fillMapMem, Outcome.done.injEq, Prod.mk.injEq] at hrun
    obtain ⟨rfl, rfl⟩ := hrun
    exact ⟨hk, hm⟩
  | succ n ih =>
    unfold fillMapMem at hrun
    obtain ⟨c, _, hrun⟩ := Outcome.bind_eq_done hrun
    obtain ⟨srv, _, hrun⟩ := Outcome.bind_eq_done hrun
    simp only at hrun
    obtain ⟨hk1, hw1⟩ := appendTo_keeps grow hk (hm srv.Priority) c
    refine ih (i + 1) hk1 (fun p => ?_) hrun
    rw [sliceMap_get_set]
    split
    · exact hw1
    · exact hm p

theorem appendAllMem_keeps {S : Nat → Prop} {h0 : Heap} {grow : Nat → Nat} {tos : Slice}
    (n i : Nat) {h h' : Heap} {count count' : Int} {osrv osrv' : Slice} (hk : Keeps S h0 h)
    (hw : Writable S h0 osrv)
    (hrun : appendAllMem grow tos n i h count osrv = .done (h', count', osrv')) :
    Keeps S h0 h' ∧ Writable S h0 osrv' := by
  induction n generalizing i h count osrv with
  | zero =>
    simp only [appendAllMem, Outcome.done.injEq, Prod.mk.injEq] at hrun
    obtain ⟨rfl, _, rfl⟩ := hrun
    exact ⟨hk, hw⟩
  | succ n ih =>
    unfold appendAllMem at hrun
    obtain ⟨c, _, hrun⟩ := Outcome.bind_eq_done hrun
    simp only at hrun
    obtain ⟨hk1, hw1⟩ := appendTo_keeps grow hk hw c
    exact ih (i + 1) hk1 hw1 hrun

theorem groupsLoopMem_keeps {S : Nat → Prop} {h0 : Heap} {grow : Nat → Nat} {fuel : Nat}
    {r : Rand} {m : SliceMap} (ps : List Nat) {h h' : Heap} {count count' : Int}
    {osrv osrv' : Slice} {log log' : List Int} (hk : Keeps S h0 h)
    (hm : ∀ p, Writable S h0 (m.get p)) (hw : Writable S h0 osrv)
    (hrun : groupsLoopMem grow fuel r m ps count osrv h log = .done (count', osrv', h', log')) :
    Keeps S h0 h' ∧ Writable S h0 osrv' := by
  induction ps generalizing h count osrv log with
  | nil =>
    simp only [groupsLoopMem, Outcome.done.injEq, Prod.mk.injEq] at hrun
    obtain ⟨_, rfl, rfl, _⟩ := hrun
    exact ⟨hk, hw⟩
  | cons p ps ih =>
    unfold groupsLoopMem at hrun
    obtain ⟨⟨tos, h1, log1⟩, hwo, hrun⟩ := Outcome.bind_eq_done hrun
    obtain ⟨⟨h2, count2, osrv2⟩, hap, hrun⟩ := Outcome.bind_eq_done hrun
    simp only at hrun
    obtain ⟨hk1, _⟩ := weightedOrderMem_keeps hk (hm p) hwo
    obtain ⟨hk2, hw2⟩ := appendAllMem_keeps tos.len 0 hk1 hw hap
    exact ih hk2 hw2 hrun

/-- Every array that `OrderSRV` writes to is one that it has allocated: the heap it
leaves keeps all the arrays of the heap it was called with. -/
theorem OrderSRVMem_keeps {grow : Nat → Nat} {fuel : Nat} {r : Rand} {log log' : List Int}
    {h h' : Heap} {addrs out : Slice} {count : Int}
    (hrun : OrderSRVMem grow fuel r log h addrs = .done (count, out, h', log')) :
    Keeps (fun _ => False) h h' := by
  unfold OrderSRVMem at hrun
  split at hrun
  · simp only [Outcome.done.injEq, Prod.mk.injEq] at hrun
    obtain ⟨_, _, rfl, _⟩ := hrun
    exact keeps_refl _ _
  · simp only at hrun
    obtain ⟨⟨h2, m⟩, hfill, hrun⟩ := Outcome.bind_eq_done hrun
    simp only at hrun
    obtain ⟨hk1, hwo⟩ := makeSlice_keeps (keeps_refl (fun _ => False) h) addrs.len
    obtain ⟨hk2, hm⟩ := fillMapMem_keeps addrs.len 0 hk1
      (fun p => by
        intro a ha
        simp [SliceMap.get, nilSlice] at ha) hfill
    exact (groupsLoopMem_keeps _ hk2 hm hwo hrun).1

/-! ## The two embeddings agree -/

theorem holds_cells {h : Heap} {sl : Slice} {l : List SRV} (hh : Holds h sl l) :
    ∃ rest, cellsOf h sl = l.map some ++ rest := by
  refine ⟨(cellsOf h sl).drop sl.len, ?_⟩
  rw [← hh.2.1]
  exact (List.take_append_drop sl.len (cellsOf h sl)).symm

theorem holds_arr_of_pos {h : Heap} {sl : Slice} {l : List SRV} (hh : Holds h sl l)
    (hpos : 0 < sl.len) : ∃ a, sl.arr = some a ∧ a < h.length := by
  cases ha : sl.arr with
  | none =>
    have hv := hh.2.1
    have hlen := hh.1
    simp only [viewOf, cellsOf, ha, List.take_nil] at hv
    have : l = [] := by
      cases l with
      | nil => rfl
      | cons x xs => simp at hv
    subst this
    simp at hlen
    omega
  | some a => exact ⟨a, rfl, hh.2.2 a ha⟩

theorem readAt_holds {h : Heap} {sl : Slice} {l : List SRV} (hh : Holds h sl l) (i : Int) :
    readAt h sl i = (index l i).bind fun s => .done (some s) := by
  obtain ⟨rest, hc⟩ := holds_cells hh
  unfold readAt index
  by_cases h0 : 0 ≤ i
  · by_cases h1 : i < (sl.len : Int)
    · have hlt : i.toNat < l.length := by rw [← hh.1]; omega
      rw [if_pos ⟨h0, h1⟩, if_pos h0, hc]
      have hg : (List.map some l ++ rest).get? i.toNat = some (some (l.get ⟨i.toNat, hlt⟩)) := by
        simp only [List.get?_eq_getElem?]
        rw [List.getElem?_append_left (by simpa using hlt)]
        simp [List.getElem?_eq_getElem hlt]
      rw [hg, List.get?_eq_get hlt]
      rfl
    · have hge : l.length ≤ i.toNat := by rw [← hh.1]; omega
      rw [if_neg (fun hc => h1 hc.2), if_pos h0, List.get?_eq_none.mpr hge]
      rfl
  · rw [if_neg (fun hc => h0 hc.1), if_neg h0]
    rfl

theorem cellsOf_congr {h h' : Heap} {sl : Slice}
    (hget : ∀ a, sl.arr = some a → h'.get? a = h.get? a) : cellsOf h' sl = cellsOf h sl := by
  unfold cellsOf
  cases ha : sl.arr with
  | none => rfl
  | some a =>
    have := hget a ha
    simp only [List.get?_eq_getElem?] at this
    simp only [List.getD_eq_getElem?_getD, this]

/-- A slice holds the same records in a heap that has the same array at its address. -/
theorem holds_congr {h h' : Heap} {sl : Slice} {l : List SRV} (hh : Holds h sl l)
    (hlen : h.length ≤ h'.length) (hget : ∀ a, sl.arr = some a → h'.get? a = h.get? a) :
    Holds h' sl l := by
  refine ⟨hh.1, ?_, fun a ha => lt_of_lt_of_le (hh.2.2 a ha) hlen⟩
  unfold viewOf
  rw [cellsOf_congr hget]
  exact hh.2.1

theorem getD_set_self (h : Heap) {a : Nat} (ha : a < h.length) (x : Cells) :
    (h.set a x).getD a [] = x := by
  simp [List.getD_eq_getElem?_getD, List.getElem?_set_self ha]

theorem getD_append_length (h : Heap) (x : Cells) : (h ++ [x]).getD h.length [] = x := by
  simp [List.getD_eq_getElem?_getD]

theorem get?_set_of_ne (h : Heap) {a b : Nat} (hne : a ≠ b) (x : Cells) :
    (h.set a x).get? b = h.get? b := by
  simp only [List.get?_eq_getElem?]
  exact List.getElem?_set_ne hne

theorem get?_append_one_of_lt (h : Heap) {b : Nat} (hb : b < h.length) (x : Cells) :
    (h ++ [x]).get? b = h.get? b := by
  simp only [List.get?_eq_getElem?]
  exact List.getElem?_append_left hb

theorem take_length_succ_append {α : Type} (l : List α) (x : α) (xs : List α) :
    (l ++ x :: xs).take (l.length + 1) = l ++ [x] := by
  induction l with
  | nil => simp
  | cons a l ih => simpa using ih

/-- What `append` does to the heap: the slice returned holds one record more, in the
array of the slice or in a new one, and no other array of the heap is written to. -/
theorem appendTo_holds (grow : Nat → Nat) {h : Heap} {sl : Slice} {l : List SRV}
    (hh : Holds h sl l) (s : SRV) :
    Holds (appendTo grow h sl (some s)).1 (appendTo grow h sl (some s)).2 (l ++ [s]) ∧
      h.length ≤ (appendTo grow h sl (some s)).1.length ∧
      (∀ b, b < h.length → sl.arr ≠ some b →
        (appendTo grow h sl (some s)).1.get? b = h.get? b) ∧
      ((appendTo grow h sl (some s)).2.arr = sl.arr ∨
        (appendTo grow h sl (some s)).2.arr = some h.length) := by
  obtain ⟨rest, hc⟩ := holds_cells hh
  unfold appendTo
  cases ha : sl.arr with
  | some a =>
    have halt := hh.2.2 a ha
    have hca : h.getD a [] = l.map some ++ rest := by
      rw [← hc]
      simp [cellsOf, ha]
    simp only
    split
    · rename_i hlt
      refine ⟨⟨by simp [hh.1], ?_, ?_⟩, by simp, ?_, Or.inl rfl⟩
      · simp only [viewOf, cellsOf, getD_set_self h halt]
        rw [hca, hh.1] at *
        have hrest : rest ≠ [] := by
          intro hr
          subst hr
          simp at hlt
        obtain ⟨x, xs, rfl⟩ := List.exists_cons_of_ne_nil hrest
        rw [List.set_append_right _ _ (by simp)]
        simp only [List.length_map, Nat.sub_self, List.set_cons_zero, List.map_append,
          List.map_cons, List.map_nil]
        have := take_length_succ_append (l.map some) (some s) xs
        simpa using this
      · intro b hb
        simp only [Option.some.injEq] at hb
        subst hb
        simpa using halt
      · intro b _ hne
        exact get?_set_of_ne h (fun hab => hne (by rw [hab])) _
    · refine ⟨⟨by simp [hh.1], ?_, ?_⟩, by simp, ?_, Or.inr rfl⟩
      · have hv : List.take sl.len (cellsOf h sl) = l.map some := hh.2.1
        simp only [cellsOf, ha, hh.1] at hv
        simp only [viewOf, cellsOf, ha, getD_append_length, hv, hh.1, List.append_assoc,
          List.singleton_append, List.map_append, List.map_cons, List.map_nil]
        have := take_length_succ_append (l.map some) (some s)
          (List.replicate (grow (l.length + 1) - (l.length + 1)) none)
        simpa using this
      · intro b hb
        simp only [Option.some.injEq] at hb
        subst hb
        simp
      · intro b hb _
        exact get?_append_one_of_lt h hb _
  | none =>
    have hl : l = [] := by
      have hv := hh.2.1
      simp only [viewOf, cellsOf, ha, List.take_nil] at hv
      cases l with
      | nil => rfl
      | cons x xs => simp at hv
    subst hl
    simp only
    refine ⟨⟨rfl, ?_, ?_⟩, by simp, ?_, by simp⟩
    · simp [viewOf, cellsOf, getD_append_length]
    · intro b hb
      simp only [Option.some.injEq] at hb
      subst hb
      simp
    · intro b hb _
      exact get?_append_one_of_lt h hb _

theorem makeSlice_holds (h : Heap) (n : Nat) :
    Holds (makeSlice h n).1 (makeSlice h n).2 [] ∧ h.length ≤ (makeSlice h n).1.length ∧
      (∀ b, b < h.length → (makeSlice h n).1.get? b = h.get? b) ∧
      (makeSlice h n).2.arr = some h.length := by
  refine ⟨⟨rfl, by simp [viewOf, makeSlice], ?_⟩, by simp [makeSlice], ?_, rfl⟩
  · intro b hb
    simp only [makeSlice, Option.some.injEq] at hb
    subst hb
    simp [makeSlice]
  · intro b hb
    exact get?_append_one_of_lt h hb _

/-- What the write `sl[i] = c` does to the heap, for an index in range. -/
theorem writeAt_holds {h : Heap} {sl : Slice} {l : List SRV} (hh : Holds h sl l) {i : Int}
    (h0 : 0 ≤ i) (h1 : i < (sl.len : Int)) (s : SRV) :
    ∃ h', writeAt h sl i (some s) = .done h' ∧ Holds h' sl (l.set i.toNat s) ∧
      h'.length = h.length ∧ ∀ b, sl.arr ≠ some b → h'.get? b = h.get? b := by
  obtain ⟨rest, hc⟩ := holds_cells hh
  obtain ⟨a, ha, halt⟩ := holds_arr_of_pos hh (by omega)
  have hca : h.getD a [] = l.map some ++ rest := by
    rw [← hc]
    simp [cellsOf, ha]
  have hlt : i.toNat < l.length := by rw [← hh.1]; omega
  refine ⟨h.set a ((h.getD a []).set i.toNat (some s)), ?_, ⟨?_, ?_, ?_⟩, by simp, ?_⟩
  · unfold writeAt
    rw [if_pos ⟨h0, h1⟩, ha]
  · simp [hh.1]
  · simp only [viewOf, cellsOf, ha, getD_set_self h halt, hca]
    rw [List.set_append_left _ _ (by simpa using hlt), hh.1]
    rw [List.take_left' (by simp)]
    simp [List.map_set]
  · intro b hb
    rw [ha] at hb
    simp only [Option.some.injEq] at hb
    subst hb
    simpa using halt
  · intro b hne
    rw [ha] at hne
    exact get?_set_of_ne h (fun hab => hne (by rw [hab])) _

theorem outRel_bind {α β γ δ : Type} {R : α → β → Prop} {Q : γ → δ → Prop}
    {x : Outcome α} {y : Outcome β} {f : α → Outcome γ} {g : β → Outcome δ}
    (h : OutRel R x y) (hfg : ∀ a b, R a b → OutRel Q (f a) (g b)) :
    OutRel Q (x.bind f) (y.bind g) := by
  cases x <;> cases y <;> simp_all [OutRel]

theorem outRel_done {α β : Type} {R : α → β → Prop} {a : α} {b : β} (h : R a b) :
    OutRel R (.done a) (.done b) := h

theorem thresholdMem_some (r : Rand) (log : List Int) (tw : Int) (s : SRV) :
    thresholdMem r log tw (some s) = threshold r log tw s := by
  unfold thresholdMem threshold
  split
  · cases Intn r log tw <;> rfl
  · rfl

theorem holds_truncate {h : Heap} {sl : Slice} {l : List SRV} (hh : Holds h sl l) (n : Nat)
    (hn : n ≤ sl.len) : Holds h { arr := sl.arr, len := n } (l.take n) := by
  refine ⟨?_, ?_, hh.2.2⟩
  · simp only [List.length_take]
    have := hh.1
    omega
  · have hv := hh.2.1
    simp only [viewOf, cellsOf] at hv ⊢
    rw [List.map_take, ← hv, List.take_take, min_eq_left hn]

theorem acceptMem_sim (grow : Nat → Nat) {st : MemState} {ls : LoopState} (hsim : Sim st ls)
    {i : Int} {s : SRV} (hidx : index ls.srvs i = .done s) (log : List Int) :
    OutRel Sim (acceptMem grow st i (some s) log) (accept ls i s log) := by
  obtain ⟨hl, htw, hlog, hs, ho, hne⟩ := hsim
  obtain ⟨hi0, hilt, hget⟩ := index_eq_done hidx
  obtain ⟨hoh, hle, hframe, harr⟩ := appendTo_holds grow ho s
  have hs1 : Holds (appendTo grow st.heap st.osrv (some s)).1 st.srvs ls.srvs := by
    refine holds_congr hs hle fun a ha => hframe a (hs.2.2 a ha) ?_
    intro hc
    exact hne (by rw [ha, hc])
  have hne1 : st.srvs.arr ≠ (appendTo grow st.heap st.osrv (some s)).2.arr := by
    rcases harr with h1 | h1
    · rw [h1]
      exact hne
    · rw [h1]
      intro hc
      have := hs.2.2 _ hc
      omega
  have hlen : st.srvs.len = ls.srvs.length := hs.1
  unfold acceptMem accept
  simp only
  by_cases hgt : ls.srvs.length > 1
  · have hgt' : st.srvs.len > 1 := by rw [hlen]; exact hgt
    rw [if_pos hgt', if_pos hgt, readAt_holds hs1 i, hidx, Outcome.bind_done,
      Outcome.bind_done, readAt_holds hs1, hlen]
    cases hlast : index ls.srvs ((ls.srvs.length : Int) - 1) with
    | done last =>
      have hi1 : i < (st.srvs.len : Int) := by rw [hlen]; omega
      have hl0 : (0 : Int) ≤ (ls.srvs.length : Int) - 1 := by omega
      have hl1 : (ls.srvs.length : Int) - 1 < (st.srvs.len : Int) := by rw [hlen]; omega
      obtain ⟨h2, hw2, hh2, hlen2, hfr2⟩ := writeAt_holds hs1 hl0 hl1 s
      obtain ⟨h3, hw3, hh3, hlen3, hfr3⟩ := writeAt_holds hh2 hi0 hi1 last
      simp only [Outcome.bind_done, hw2, hw3, deref]
      have hnat : ((ls.srvs.length : Int) - 1).toNat = ls.srvs.length - 1 := by omega
      rw [hnat] at hh3
      refine ⟨?_, by rw [htw], rfl, ?_, ?_, hne1⟩
      · simp only [swapTruncate_length, hlen]
      · have := holds_truncate hh3 (st.srvs.len - 1) (by omega)
        rw [hlen] at this
        exact this
      · have hmid : Holds h2 (appendTo grow st.heap st.osrv (some s)).2 (ls.osrv ++ [s]) :=
          holds_congr hoh (le_of_eq hlen2.symm) fun a ha => hfr2 a fun hc =>
            hne1 (by rw [ha, hc])
        exact holds_congr hmid (le_of_eq hlen3.symm) fun a ha => hfr3 a fun hc =>
          hne1 (by rw [ha, hc])
    | panic => simp [OutRel]
    | outOfFuel => simp [OutRel]
  · have hgt' : ¬ st.srvs.len > 1 := by rw [hlen]; exact hgt
    rw [if_neg hgt', if_neg hgt]
    simp only [deref, Outcome.bind_done]
    exact ⟨rfl, by rw [htw], rfl, hs1, hoh, hne1⟩

theorem loopBodyMem_sim (grow : Nat → Nat) (r : Rand) {st : MemState} {ls : LoopState}
    (hsim : Sim st ls) : OutRel Sim (loopBodyMem grow r st) (loopBody r ls) := by
  have hsim' := hsim
  obtain ⟨hl, htw, hlog, hs, ho, hne⟩ := hsim
  unfold loopBodyMem loopBody
  rw [hl, hlog]
  cases hI : Intn r ls.log ls.l with
  | done x =>
    obtain ⟨i, log1⟩ := x
    simp only [Outcome.bind_done]
    rw [readAt_holds hs i]
    cases hidx : index ls.srvs i with
    | done s =>
      simp only [Outcome.bind_done]
      rw [thresholdMem_some, htw]
      cases ht : threshold r log1 ls.tw s with
      | done y =>
        obtain ⟨rw, log2⟩ := y
        simp only [Outcome.bind_done]
        by_cases hrw : rw ≤ 0
        · rw [if_pos hrw, if_pos hrw]
          exact acceptMem_sim grow hsim' hidx log2
        · rw [if_neg hrw, if_neg hrw]
          exact ⟨rfl, rfl, rfl, hs, ho, hne⟩
      | panic => simp [OutRel]
      | outOfFuel => simp [OutRel]
    | panic => simp [OutRel]
    | outOfFuel => simp [OutRel]
  | panic => simp [OutRel]
  | outOfFuel => simp [OutRel]

theorem loopMem_sim (grow : Nat → Nat) (r : Rand) (fuel : Nat) {st : MemState}
    {ls : LoopState} (hsim : Sim st ls) :
    OutRel Sim (loopMem grow r fuel st) (loop r fuel ls) := by
  induction fuel generalizing st ls with
  | zero =>
    unfold loopMem loop
    rw [hsim.1]
    split
    · simp [OutRel]
    · exact hsim
  | succ fuel ih =>
    unfold loopMem loop
    rw [hsim.1]
    split
    · exact outRel_bind (loopBodyMem_sim grow r hsim) fun _ _ h => ih h
    · exact hsim

theorem index_get {l : List SRV} {i : Nat} (hi : i < l.length) :
    index l (i : Int) = .done (l.get ⟨i, hi⟩) := by
  unfold index
  rw [if_pos (Int.ofNat_nonneg i)]
  simp only [Int.toNat_ofNat, List.get?_eq_get hi]

theorem drop_eq_get_cons' {l : List SRV} {i : Nat} (hi : i < l.length) :
    l.drop i = l.get ⟨i, hi⟩ :: l.drop (i + 1) := by
  simp

theorem totalWeightMem_holds {h : Heap} {srvs : Slice} {l : List SRV} (hh : Holds h srvs l)
    (n i : Nat) (tw : Int) (hin : i + n = l.length) :
    totalWeightMem h srvs n i tw = .done (tw + totalWeight (l.drop i)) := by
  induction n generalizing i tw with
  | zero =>
    have : l.drop i = [] := List.drop_eq_nil_of_le (by omega)
    simp [totalWeightMem, this, totalWeight]
  | succ n ih =>
    have hi : i < l.length := by omega
    unfold totalWeightMem
    rw [readAt_holds hh, index_get hi]
    simp only [Outcome.bind_done, deref]
    rw [ih (i + 1) _ (by omega), drop_eq_get_cons' hi, totalWeight_cons]
    simp only [Outcome.done.injEq]
    ring

theorem weightedOrderMem_sim (grow : Nat → Nat) (fuel : Nat) (r : Rand) (log : List Int)
    {h : Heap} {srvs : Slice} {l : List SRV} (hh : Holds h srvs l) :
    OutRel (WeightedRel h srvs) (weightedOrderMem grow fuel r log h srvs)
      (weightedOrder fuel r log l) := by
  have hrel : OutRel (fun x y => x.2.2 = y.2 ∧ Holds x.2.1 x.1 y.1)
      (weightedOrderMem grow fuel r log h srvs) (weightedOrder fuel r log l) := by
    unfold weightedOrderMem weightedOrder
    rw [hh.1]
    split
    · exact ⟨rfl, hh⟩
    · rw [← hh.1, totalWeightMem_holds hh srvs.len 0 0 (by rw [hh.1]; omega)]
      simp only [Outcome.bind_done, List.drop_zero, zero_add]
      obtain ⟨hm1, hm2, hm3, hm4⟩ := makeSlice_holds h srvs.len
      have hsim : Sim
          { heap := (makeSlice h srvs.len).1, srvs := srvs, osrv := (makeSlice h srvs.len).2,
            l := (srvs.len : Int), tw := totalWeight l, log := log } (initState l log) := by
        refine ⟨by simp [initState, hh.1], rfl, rfl, ?_, hm1, ?_⟩
        · exact holds_congr hh hm2 fun a ha => hm3 a (hh.2.2 a ha)
        · rw [hm4]
          intro hc
          have := hh.2.2 _ hc
          omega
      exact outRel_bind (loopMem_sim grow r fuel hsim) fun st ls hs => ⟨hs.2.2.1, hs.2.2.2.2.1⟩
  cases hrun : weightedOrderMem grow fuel r log h srvs with
  | done x =>
    obtain ⟨tos, h', log'⟩ := x
    rw [hrun] at hrel
    cases hl : weightedOrder fuel r log l with
    | done y =>
      rw [hl] at hrel
      have hw : Writable (fun a => srvs.arr = some a) h srvs := fun a ha => Or.inr ha
      obtain ⟨hk, hwt⟩ := weightedOrderMem_keeps (keeps_refl _ h) hw hrun
      exact ⟨hrel.1, hrel.2, hk.1, fun b hb hne => hk.2 b hb hne,
        fun a ha => (hwt a ha).symm⟩
    | panic => rw [hl] at hrel; exact absurd hrel (by simp [OutRel])
    | outOfFuel => rw [hl] at hrel; exact absurd hrel (by simp [OutRel])
  | panic =>
    rw [hrun] at hrel
    cases hl : weightedOrder fuel r log l with
    | done y => rw [hl] at hrel; exact absurd hrel (by simp [OutRel])
    | panic => simp [OutRel]
    | outOfFuel => rw [hl] at hrel; exact absurd hrel (by simp [OutRel])
  | outOfFuel =>
    rw [hrun] at hrel
    cases hl : weightedOrder fuel r log l with
    | done y => rw [hl] at hrel; exact absurd hrel (by simp [OutRel])
    | panic => rw [hl] at hrel; exact absurd hrel (by simp [OutRel])
    | outOfFuel => simp [OutRel]

theorem sliceMap_keys_set (m : SliceMap) (p : Nat) (v : Slice) :
    (m.set p v).map Prod.fst
      = if p ∈ m.map Prod.fst then m.map Prod.fst else m.map Prod.fst ++ [p] := by
  induction m with
  | nil => simp [SliceMap.set]
  | cons e rest ih =>
    obtain ⟨k, w⟩ := e
    unfold SliceMap.set
    by_cases hk : k = p
    · subst hk
      simp
    · simp only [hk, if_false, List.map_cons, ih, List.mem_cons, Ne.symm hk, false_or]
      split <;> simp

theorem mapRel_nil (h : Heap) : MapRel h [] [] :=
  ⟨rfl, fun _ => ⟨rfl, rfl, fun a ha => by simp [SliceMap.get, nilSlice] at ha⟩,
    fun _ _ a _ ha => by simp [SliceMap.get, nilSlice] at ha⟩

theorem fillMapMem_sim (grow : Nat → Nat) {h1 : Heap} {addrs : Slice} {l : List SRV}
    (hin : Holds h1 addrs l) (n i : Nat) {h : Heap} {m : SliceMap} {pm : PrioMap}
    (hn : i + n = l.length) (hk : Keeps (fun _ => False) h1 h)
    (hw : ∀ p, Writable (fun _ => False) h1 (m.get p)) (hrel : MapRel h m pm) :
    ∃ h' m', fillMapMem grow addrs n i h m = .done (h', m') ∧
      Keeps (fun _ => False) h1 h' ∧ (∀ p, Writable (fun _ => False) h1 (m'.get p)) ∧
      MapRel h' m' ((l.drop i).foldl addToMap pm) := by
  induction n generalizing i h m pm with
  | zero =>
    have : l.drop i = [] := List.drop_eq_nil_of_le (by omega)
    exact ⟨h, m, rfl, hk, hw, by rw [this]; exact hrel⟩
  | succ n ih =>
    have hi : i < l.length := by omega
    have hcur : Holds h addrs l :=
      holds_congr hin hk.1 fun a ha => hk.2 a (hin.2.2 a ha) (fun hf => hf)
    unfold fillMapMem
    rw [readAt_holds hcur, index_get hi]
    simp only [Outcome.bind_done, deref]
    obtain ⟨hb1, hle, hframe, harr⟩ :=
      appendTo_holds grow (hrel.2.1 (l.get ⟨i, hi⟩).Priority) (l.get ⟨i, hi⟩)
    obtain ⟨hk1, hw1⟩ := appendTo_keeps grow hk (hw (l.get ⟨i, hi⟩).Priority)
      (some (l.get ⟨i, hi⟩))
    have hvalid : ∀ q a, (m.get q).arr = some a → a < h.length :=
      fun q a ha => (hrel.2.1 q).2.2 a ha
    have hrel1 : MapRel (appendTo grow h (m.get (l.get ⟨i, hi⟩).Priority)
          (some (l.get ⟨i, hi⟩))).1
        (m.set (l.get ⟨i, hi⟩).Priority (appendTo grow h (m.get (l.get ⟨i, hi⟩).Priority)
          (some (l.get ⟨i, hi⟩))).2)
        (addToMap pm (l.get ⟨i, hi⟩)) := by
      refine ⟨?_, ?_, ?_⟩
      · have hkeys := PrioMap.keys_set pm (l.get ⟨i, hi⟩).Priority
          (pm.get (l.get ⟨i, hi⟩).Priority ++ [l.get ⟨i, hi⟩])
        simp only [PrioMap.keys] at hkeys
        rw [sliceMap_keys_set, addToMap, hkeys, hrel.1]
      · intro q
        rw [sliceMap_get_set, addToMap, PrioMap.get_set]
        by_cases hpq : (l.get ⟨i, hi⟩).Priority = q
        · rw [if_pos hpq, if_pos hpq]
          exact hb1
        · rw [if_neg hpq, if_neg hpq]
          exact holds_congr (hrel.2.1 q) hle fun a ha =>
            hframe a (hvalid q a ha) fun hc => hrel.2.2 _ q a hpq hc ha
      · intro p q a hne ha
        rw [sliceMap_get_set] at ha ⊢
        by_cases hp : (l.get ⟨i, hi⟩).Priority = p
        · have hq : ¬ (l.get ⟨i, hi⟩).Priority = q := fun hq => hne (hp.symm.trans hq)
          rw [if_pos hp] at ha
          rw [if_neg hq]
          rcases harr with h1 | h1
          · rw [h1] at ha
            exact hrel.2.2 _ q a hq ha
          · rw [h1] at ha
            simp only [Option.some.injEq] at ha
            intro hc
            have := hvalid q a hc
            omega
        · rw [if_neg hp] at ha
          by_cases hq : (l.get ⟨i, hi⟩).Priority = q
          · rw [if_pos hq]
            rcases harr with h1 | h1
            · rw [h1]
              intro hc
              exact hrel.2.2 _ p a (fun hqp => hp hqp) hc ha
            · rw [h1]
              intro hc
              simp only [Option.some.injEq] at hc
              have := hvalid p a ha
              omega
          · rw [if_neg hq]
            exact hrel.2.2 p q a hne ha
    have hw1' : ∀ p, Writable (fun _ => False) h1
        ((m.set (l.get ⟨i, hi⟩).Priority (appendTo grow h (m.get (l.get ⟨i, hi⟩).Priority)
          (some (l.get ⟨i, hi⟩))).2).get p) := by
      intro p
      rw [sliceMap_get_set]
      split
      · exact hw1
      · exact hw p
    obtain ⟨h', m', hrun, hk', hw', hrel'⟩ := ih (i + 1) (by omega) hk1 hw1' hrel1
    refine ⟨h', m', hrun, hk', hw', ?_⟩
    rw [drop_eq_get_cons' hi, List.foldl_cons]
    exact hrel'

theorem appendAllMem_sim (grow : Nat → Nat) {tos : Slice} {out : List SRV} (n i : Nat)
    {h : Heap} {osrv : Slice} {o : List SRV} (count : Int) (hn : i + n = out.length)
    (ht : Holds h tos out) (ho : Holds h osrv o)
    (hne : ∀ a, tos.arr = some a → osrv.arr ≠ some a) :
    ∃ h' osrv', appendAllMem grow tos n i h count osrv = .done (h', count + (n : Int), osrv') ∧
      Holds h' osrv' (o ++ out.drop i) ∧ h.length ≤ h'.length ∧
      (∀ b, b < h.length → osrv.arr ≠ some b → h'.get? b = h.get? b) ∧
      (∀ a, osrv'.arr = some a → osrv.arr = some a ∨ h.length ≤ a) := by
  induction n generalizing i h osrv o count with
  | zero =>
    have : out.drop i = [] := List.drop_eq_nil_of_le (by omega)
    refine ⟨h, osrv, by simp [appendAllMem], by rw [this]; simpa using ho, le_refl _,
      fun _ _ _ => rfl, fun a ha => Or.inl ha⟩
  | succ n ih =>
    have hi : i < out.length := by omega
    unfold appendAllMem
    rw [readAt_holds ht, index_get hi]
    simp only [Outcome.bind_done]
    obtain ⟨ho1, hle, hframe, harr⟩ := appendTo_holds grow ho (out.get ⟨i, hi⟩)
    have ht1 : Holds (appendTo grow h osrv (some (out.get ⟨i, hi⟩))).1 tos out :=
      holds_congr ht hle fun a ha => hframe a (ht.2.2 a ha) (hne a ha)
    have hne1 : ∀ a, tos.arr = some a →
        (appendTo grow h osrv (some (out.get ⟨i, hi⟩))).2.arr ≠ some a := by
      intro a ha
      rcases harr with h1 | h1
      · rw [h1]
        exact hne a ha
      · rw [h1]
        intro hc
        simp only [Option.some.injEq] at hc
        have := ht.2.2 a ha
        omega
    obtain ⟨h', osrv', hrun, hh', hle', hframe', harr'⟩ :=
      ih (i + 1) (count + 1) (by omega) ht1 ho1 hne1
    refine ⟨h', osrv', ?_, ?_, le_trans hle hle', ?_, ?_⟩
    · have hc : count + 1 + (n : Int) = count + ((n + 1 : Nat) : Int) := by
        push_cast
        ring
      rw [hrun, hc]
    · rw [drop_eq_get_cons' hi]
      simpa using hh'
    · intro b hb hnb
      have hnb1 : (appendTo grow h osrv (some (out.get ⟨i, hi⟩))).2.arr ≠ some b := by
        rcases harr with h1 | h1
        · rw [h1]
          exact hnb
        · rw [h1]
          intro hc
          simp only [Option.some.injEq] at hc
          omega
      rw [hframe' b (lt_of_lt_of_le hb hle) hnb1]
      exact hframe b hb hnb
    · intro a ha
      rcases harr' a ha with h1 | h1
      · rcases harr with h2 | h2
        · exact Or.inl (h2 ▸ h1)
        · rw [h2] at h1
          simp only [Option.some.injEq] at h1
          exact Or.inr (by omega)
      · exact Or.inr (le_trans hle h1)

theorem groupsLoopMem_sim (grow : Nat → Nat) (fuel : Nat) (r : Rand) {m : SliceMap}
    {pm : PrioMap} (ps : List Nat) {h : Heap} {osrv : Slice} {o : List SRV} (count : Int)
    (log : List Int) (hnd : ps.Nodup) (hb : ∀ p ∈ ps, Holds h (m.get p) (pm.get p))
    (hd : ∀ p ∈ ps, ∀ q ∈ ps, ∀ a, p ≠ q → (m.get p).arr = some a → (m.get q).arr ≠ some a)
    (ho : Holds h osrv o) (he : ∀ p ∈ ps, ∀ a, (m.get p).arr = some a → osrv.arr ≠ some a) :
    OutRel GroupsRel (groupsLoopMem grow fuel r m ps count osrv h log)
      (groupsLoop fuel r pm ps count o log) := by
  induction ps generalizing h osrv o count log with
  | nil => exact ⟨rfl, rfl, ho⟩
  | cons p ps ih =>
    obtain ⟨hp, hnd'⟩ := List.nodup_cons.mp hnd
    unfold groupsLoopMem groupsLoop
    refine outRel_bind (weightedOrderMem_sim grow fuel r log (hb p (List.mem_cons_self _ _))) ?_
    rintro ⟨tos, h1, log1⟩ ⟨out, log1'⟩ ⟨hlog, htos, hle, hframe, harr⟩
    simp only at hlog htos hle hframe harr ⊢
    subst hlog
    have hvalid : ∀ q ∈ p :: ps, ∀ a, (m.get q).arr = some a → a < h.length :=
      fun q hq a ha => (hb q hq).2.2 a ha
    have ho1 : Holds h1 osrv o :=
      holds_congr ho hle fun a ha => hframe a (ho.2.2 a ha) fun hc =>
        he p (List.mem_cons_self _ _) a hc ha
    have hne : ∀ a, tos.arr = some a → osrv.arr ≠ some a := by
      intro a ha
      rcases harr a ha with h1' | h1'
      · exact he p (List.mem_cons_self _ _) a h1'
      · intro hc
        have := ho.2.2 a hc
        omega
    obtain ⟨h2, osrv2, hrun, ho2, hle2, hframe2, harr2⟩ :=
      appendAllMem_sim grow tos.len 0 count (by rw [zero_add, htos.1]) htos ho1 hne
    rw [hrun, Outcome.bind_done, appendAll_eq]
    simp only [List.drop_zero] at ho2
    rw [htos.1]
    refine ih _ _ hnd' ?_ ?_ ho2 ?_
    · intro q hq
      have hq' := List.mem_cons_of_mem p hq
      have hmid : Holds h1 (m.get q) (pm.get q) :=
        holds_congr (hb q hq') hle fun a ha => hframe a (hvalid q hq' a ha) fun hc =>
          hd p (List.mem_cons_self _ _) q hq' a (fun hpq => hp (hpq ▸ hq)) hc ha
      exact holds_congr hmid hle2 fun a ha =>
        hframe2 a (lt_of_lt_of_le (hvalid q hq' a ha) hle) fun hc => he q hq' a ha hc
    · intro q hq q' hq' a hne' ha
      exact hd q (List.mem_cons_of_mem _ hq) q' (List.mem_cons_of_mem _ hq') a hne' ha
    · intro q hq a ha hc
      have hq' := List.mem_cons_of_mem p hq
      rcases harr2 a hc with h3 | h3
      · exact he q hq' a ha h3
      · have := hvalid q hq' a ha
        omega

/-- The embedding of `OrderSRV` on backing arrays agrees with the one on lists: on a
slice that holds the records `l` it panics, runs out of fuel or returns as the latter
does on `l`, with the same count and draw log and a slice that holds the list returned. -/
theorem OrderSRVMem_refines (grow : Nat → Nat) (fuel : Nat) (r : Rand) (log : List Int)
    {h : Heap} {addrs : Slice} {l : List SRV} (hh : Holds h addrs l) :
    OutRel GroupsRel (OrderSRVMem grow fuel r log h addrs) (OrderSRV fuel r log l) := by
  by_cases hlen : l.length < 2
  · rw [OrderSRV_short_eq fuel r log hlen]
    unfold OrderSRVMem
    rw [if_pos (by rw [hh.1]; exact hlen)]
    exact ⟨by simp [hh.1], rfl, hh⟩
  · rw [OrderSRV_long_eq fuel r log (not_lt.mp hlen)]
    unfold OrderSRVMem
    rw [if_neg (by rw [hh.1]; exact hlen)]
    simp only
    obtain ⟨hm1, hm2, hm3, hm4⟩ := makeSlice_holds h addrs.len
    have hin : Holds (makeSlice h addrs.len).1 addrs l :=
      holds_congr hh hm2 fun a ha => hm3 a (hh.2.2 a ha)
    obtain ⟨h2, m, hrun, hk, hw, hrel⟩ := fillMapMem_sim grow hin addrs.len 0
      (by rw [zero_add, hh.1]) (keeps_refl _ _)
      (fun p a ha => by simp [SliceMap.get, nilSlice] at ha) (mapRel_nil _)
    rw [hrun, Outcome.bind_done]
    simp only [List.drop_zero] at hrel
    rw [← buildPrioMap_eq] at hrel
    have hkeys : (m.map Prod.fst).insertionSort (· ≤ ·) = sortedKeys l := by
      rw [hrel.1]
      rfl
    simp only [hkeys]
    have hosrv : Holds h2 (makeSlice h addrs.len).2 [] :=
      holds_congr hm1 hk.1 fun a ha => hk.2 a (hm1.2.2 a ha) (fun hf => hf)
    refine groupsLoopMem_sim grow fuel r (sortedKeys l) 0 log (sortedKeys_nodup l)
      (fun p _ => hrel.2.1 p) (fun p _ q _ a hne ha => hrel.2.2 p q a hne ha) hosrv ?_
    intro p _ a ha hc
    rw [hm4] at hc
    simp only [Option.some.injEq] at hc
    rcases hw p a ha with h3 | h3
    · simp only [makeSlice, List.length_append, List.length_singleton] at h3
      omega
    · exact h3

/-- Whenever `OrderSRV` returns on the list `l`, its embedding on backing arrays returns
on every slice that holds `l`, with the same count and draw log and a slice that holds
the list returned. -/
theorem OrderSRVMem_returns (grow : Nat → Nat) {fuel : Nat} {r : Rand} {log log' : List Int}
    {h : Heap} {addrs : Slice} {l outl : List SRV} {count : Int} (hh : Holds h addrs l)
    (hrun : OrderSRV fuel r log l = .done (count, outl, log')) :
    ∃ out h', OrderSRVMem grow fuel r log h addrs = .done (count, out, h', log') ∧
      Holds h' out outl := by
  have href := OrderSRVMem_refines grow fuel r log hh
  rw [hrun] at href
  cases hO : OrderSRVMem grow fuel r log h addrs with
  | done x =>
    obtain ⟨c, out, h', lg⟩ := x
    rw [hO] at href
    obtain ⟨h1, h2, h3⟩ := href
    simp only at h1 h2 h3
    subst h1 h2
    exact ⟨out, h', rfl, h3⟩
  | panic => rw [hO] at href; exact absurd href (by simp [OutRel])
  | outOfFuel => rw [hO] at href; exact absurd href (by simp [OutRel])

/-- C11. With slices as views of backing arrays, a call of `OrderSRV` that returns leaves
every array of the heap it was called with as it was, the backing array of its input in
particular: the cells of that array and the elements of the input slice are the same
after the call. The arrays written to are the ones allocated by the call: the buckets
of `prioMap` are views of such arrays, and `weightedOrder`, which does its swaps in the
backing array of its argument, writes to no other array that existed before. When the
input slice holds the records `l`, the call returns what `OrderSRV` returns on the list
`l`: the same count and draw log, and a slice that holds the list returned. -/
theorem OrderSRV_keeps_input (grow : Nat → Nat) (fuel : Nat) (r : Rand) (log log' : List Int)
    (h h' : Heap) (addrs out : Slice) (count : Int) (hv : ValidSlice h addrs)
    (hrun : OrderSRVMem grow fuel r log h addrs = .done (count, out, h', log')) :
    cellsOf h' addrs = cellsOf h addrs ∧ viewOf h' addrs = viewOf h addrs ∧
      (h.length ≤ h'.length ∧ ∀ a, a < h.length → h'.get? a = h.get? a) ∧
      (∀ h2 m, fillMapMem grow addrs addrs.len 0 (makeSlice h addrs.len).1 [] = .done (h2, m) →
        ∀ p a, (m.get p).arr = some a → h.length ≤ a) ∧
      (∀ (fuel1 : Nat) (r1 : Rand) (log1 log2 : List Int) (h1 h2 : Heap) (srvs tos : Slice),
        weightedOrderMem grow fuel1 r1 log1 h1 srvs = .done (tos, h2, log2) →
        ∀ b, b < h1.length → srvs.arr ≠ some b → h2.get? b = h1.get? b) ∧
      (∀ l, Holds h addrs l →
        ∃ outl, OrderSRV fuel r log l = .done (count, outl, log') ∧ Holds h' out outl) := by
  have hk := OrderSRVMem_keeps hrun
  have hcells : cellsOf h' addrs = cellsOf h addrs := by
    unfold cellsOf
    cases ha : addrs.arr with
    | none => rfl
    | some a =>
      have hlt := (hv a ha).1
      have hget := hk.2 a hlt (fun hf => hf)
      simp only [List.getD_eq_getElem?_getD]
      simp only [List.get?_eq_getElem?] at hget
      rw [hget]
  refine ⟨hcells, by unfold viewOf; rw [hcells], ⟨hk.1, fun a ha => hk.2 a ha (fun hf => hf)⟩,
    ?_, ?_, ?_⟩
  · intro h2 m hfill p a ha
    obtain ⟨hk1, _⟩ := makeSlice_keeps (keeps_refl (fun _ => False) h) addrs.len
    obtain ⟨_, hm⟩ := fillMapMem_keeps addrs.len 0 hk1
      (fun p => by
        intro a ha
        simp [SliceMap.get, nilSlice] at ha) hfill
    rcases hm p a ha with hle | hf
    · exact hle
    · exact absurd hf (fun hf => hf)
  · intro fuel1 r1 log1 log2 h1 h2 srvs tos hw b hb hne
    have hwr : Writable (fun a => srvs.arr = some a) h1 srvs := fun a ha => Or.inr ha
    exact (weightedOrderMem_keeps (keeps_refl _ h1) hwr hw).1.2 b hb hne
  · intro l hl
    have href := OrderSRVMem_refines grow fuel r log hl
    rw [hrun] at href
    cases hO : OrderSRV fuel r log l with
    | done y =>
      obtain ⟨c, outl, lg⟩ := y
      rw [hO] at href
      obtain ⟨h1, h2, h3⟩ := href
      simp only at h1 h2 h3
      subst h1 h2
      exact ⟨outl, rfl, h3⟩
    | panic => rw [hO] at href; exact absurd href (by simp [OutRel])
    | outOfFuel => rw [hO] at href; exact absurd href (by simp [OutRel])

/-- Witness of C11: the input `[a, b, c, d]` in the array `0` of `exampleHeap`, with the
source that always draws `0`; the call allocates the arrays `1` to `5`, swaps `b` and
`c` in the bucket array `3`, and leaves the array `0` as it was. -/
theorem OrderSRV_keeps_input_witness :
    ValidSlice exampleHeap { arr := some 0, len := 4 } ∧
      OrderSRVMem doubling 4 zeroRand [] exampleHeap { arr := some 0, len := 4 }
        = .done (4, { arr := some 1, len := 4 },
            [[some recA, some recB, some recC, some recD],
             [some recB, some recC, some recA, some recD],
             [some recA, none],
             [some recC, some recB],
             [some recD, none],
             [some recB, some recC]], [2, 10, 1, 5]) ∧
      cellsOf
          [[some recA, some recB, some recC, some recD],
           [some recB, some recC, some recA, some recD],
           [some recA, none],
           [some recC, some recB],
           [some recD, none],
           [some recB, some recC]] { arr := some 0, len := 4 }
        = cellsOf exampleHeap { arr := some 0, len := 4 } :=
  have hv : ValidSlice exampleHeap { arr := some 0, len := 4 } := by
    intro a ha
    simp only [Option.some.injEq] at ha
    subst ha
    decide
  ⟨hv, rfl,
    (OrderSRV_keeps_input doubling 4 zeroRand [] [2, 10, 1, 5] exampleHeap _
      { arr := some 0, len := 4 } { arr := some 1, len := 4 } 4 hv rfl).1⟩

end Dnsutils
